import Mathlib

/-!
# Morning Star (Wespal) recolouring engine

A shallow embedding of `src/wesnothrc.cpp`: the colour-map builders
`ColorRange::applyToPalette` and `generateColorMap`, and the pixel remapper
`recolorImage`, followed by theorems about them.

Conventions of the embedding:

* `QRgb` is Qt's `unsigned int` pixel word `0xAARRGGBB`; it is a `Nat`, and a
  well-formed word is below `2 ^ 32`.  Unsigned arithmetic that could wrap is
  reduced `% 2 ^ 32` where the source performs it.
* C++ `int` is `Int`; every `int` of these functions stays far inside 32 bits.
* C++ `float` is IEEE-754 binary32 with round-to-nearest, ties-to-even after
  every operation (`F32` below).
* A `ColorMap` is the sequence of (key, value) entries of the map in iteration
  order; a `QImage` in format ARGB32 is its list of scan lines.
-/

namespace Wespal

/-! ## Qt colour words (`qrgb.h`) -/

/-- Qt pixel word `0xAARRGGBB` (`typedef unsigned int QRgb`). -/
abbrev QRgb := Nat

/-- Red channel, `(rgb >> 16) & 0xff`. -/
def qRed (rgb : QRgb) : Nat := (rgb >>> 16) &&& 0xff

/-- Green channel, `(rgb >> 8) & 0xff`. -/
def qGreen (rgb : QRgb) : Nat := (rgb >>> 8) &&& 0xff

/-- Blue channel, `rgb & 0xff`. -/
def qBlue (rgb : QRgb) : Nat := rgb &&& 0xff

/-- Alpha channel, `rgb >> 24`. -/
def qAlpha (rgb : QRgb) : Nat := rgb >>> 24

/-- Opaque colour from `int` channels:
`(0xffu << 24) | ((r & 0xffu) << 16) | ((g & 0xffu) << 8) | (b & 0xffu)`.
Converting an `int` to `unsigned` and masking with `0xff` keeps its residue
modulo 256. -/
def qRgb (r g b : Int) : QRgb :=
  (0xff <<< 24) ||| ((r % 256).toNat <<< 16) ||| ((g % 256).toNat <<< 8) ||| (b % 256).toNat

/-- Qt clamp `qBound(min, val, max) = qMax(min, qMin(max, val))`. -/
def qBound (lo val hi : Int) : Int := max lo (min hi val)

/-- The red, green and blue channels of a colour word, without its alpha. -/
def rgbOf (c : QRgb) : Nat × Nat × Nat := (qRed c, qGreen c, qBlue c)

/-- Palette type `ColorList = QList<QRgb>`. -/
abbrev ColorList := List QRgb

/-! ## Colour maps -/

/-- Modelled from the spec: the alias `ColorMap` is declared in `wesnothrc.hpp`,
which is absent.  The spec describes it as a finite key-to-value table from
source colour to target colour whose keys are unique because an insert
overwrites any prior entry for the same key.  It is represented by its entries
in iteration order; `ColorMap.insert` keeps them in ascending key order. -/
abbrev ColorMap := List (QRgb × QRgb)

namespace ColorMap

/-- Lookup `map.find(key)`: the value of the first entry with that key, `none`
standing for `map.end()`. -/
def find : ColorMap → QRgb → Option QRgb
  | [], _ => none
  | (k, v) :: rest, key => if key = k then some v else find rest key

/-- Assignment `map[key] = value`: overwrite the entry for `key` when there is
one, otherwise add an entry at the place its key takes in ascending order. -/
def insert : ColorMap → QRgb → QRgb → ColorMap
  | [], key, value => [(key, value)]
  | (k, v) :: rest, key, value =>
    if key < k then (key, value) :: (k, v) :: rest
    else if key = k then (key, value) :: rest
    else (k, v) :: insert rest key value

/-- Keys of a map in iteration order. -/
def keys (m : ColorMap) : List QRgb := m.map Prod.fst

end ColorMap

/-! ## Images -/

/-- A `QImage` in `Format_ARGB32`: its dimensions and its scan lines, each a
row of pixel words. -/
structure QImage where
  width : Nat
  height : Nat
  scanLines : List (List QRgb)
deriving DecidableEq, Repr

namespace QImage

/-- Every scan line exists and has `width` pixels, each a 32-bit word. -/
def WellFormed (img : QImage) : Prop :=
  img.scanLines.length = img.height ∧
    ∀ line ∈ img.scanLines, line.length = img.width ∧ ∀ p ∈ line, p < 2 ^ 32

/-- Pixel word `scanLine(y)[x]`. -/
def pixel (img : QImage) (x y : Nat) : QRgb := (img.scanLines.getD y []).getD x 0

/-- Store `scanLine(y)[x] = value`. -/
def setPixel (img : QImage) (x y : Nat) (value : QRgb) : QImage :=
  { img with scanLines := img.scanLines.set y ((img.scanLines.getD y []).set x value) }

/-- The conversion `convertToFormat(QImage::Format_ARGB32)`; the images of this
model already are ARGB32, for which Qt returns a copy of the same pixels. -/
def convertToFormatARGB32 (img : QImage) : QImage := img

end QImage

/-- The alpha-free copy of the colour map built at the start of `recolorImage`:
`plainRgbMap[i.key() & 0xFFFFFFU] = i.value() & 0xFFFFFFU` for every entry. -/
def plainRgbMap (colorMap : ColorMap) : ColorMap :=
  colorMap.foldl (fun plain e => plain.insert (e.1 &&& 0xFFFFFF) (e.2 &&& 0xFFFFFF)) []

/-- Body of the inner loop of `recolorImage` at column `x` of line `y`. -/
def recolorStep (plain : ColorMap) (y : Nat) (output : QImage) (x : Nat) : QImage :=
  match plain.find (output.pixel x y &&& 0xFFFFFF) with
  | none => output
  | some value => output.setPixel x y (((output.pixel x y &&& 0xFF000000) + value) % 2 ^ 32)

/-- The function `recolorImage(input, colorMap)`. -/
def recolorImage (input : QImage) (colorMap : ColorMap) : QImage :=
  let output := input.convertToFormatARGB32
  let plain := plainRgbMap colorMap
  let maxY := output.height
  let maxX := output.width
  (List.range maxY).foldl
    (fun out y => (List.range maxX).foldl (recolorStep plain y) out) output

/-! ## Single-precision arithmetic

The C++ `float` of `applyToPalette`.  A finite binary32 value is an integer
multiple of `2 ^ -149` whose significand fits in 24 bits; it is stored as that
integer.  Each operation computes the exact rational result `n / d` (in units
of `2 ^ -149`) and rounds it to the nearest binary32 value, ties to the even
significand.  Infinities and NaN are not represented: a division by zero has no
value (`none`), and the magnitudes reached from 8-bit channels stay far below
the overflow threshold `2 ^ 128`. -/

/-- Finite binary32 value `units * 2 ^ -149`. -/
structure F32 where
  units : Int
deriving DecidableEq, Repr

namespace F32

/-- One normalisation step: drop `k` low bits as long as 24 bits remain. -/
def shiftStep (p : Nat × Nat) (k : Nat) : Nat × Nat :=
  if 2 ^ (23 + k) ≤ p.1 then (p.1 / 2 ^ k, p.2 + k) else p

/-- Exponent of the unit in the last place of a magnitude with integer part
`q` (in units of `2 ^ -149`): the least `s` with `q / 2 ^ s < 2 ^ 24`, found by
binary search; it is `0` for subnormal values and in the lowest normal binade.
Valid for `q < 2 ^ 279`, which covers the whole binary32 range. -/
def ulpShift (q : Nat) : Nat :=
  ([128, 64, 32, 16, 8, 4, 2, 1].foldl shiftStep (q, 0)).2

/-- Round the magnitude `a / d` to the nearest multiple of its unit in the last
place, ties to the even multiple. -/
def roundMag (a d : Nat) : Nat :=
  let s := ulpShift (a / d)
  let u := d * 2 ^ s
  let m := a / u
  let r := a % u
  (if 2 * r < u then m else if u < 2 * r then m + 1 else if m % 2 = 0 then m else m + 1) * 2 ^ s

/-- Round the rational `n / d` (`0 < d`) to binary32: round-to-nearest-even of
the magnitude, with the sign kept. -/
def roundNearestEven (n : Int) (d : Nat) : F32 :=
  ⟨if n < 0 then -(roundMag n.natAbs d : Int) else (roundMag n.natAbs d : Int)⟩

/-- Conversion `int -> float`. -/
def ofInt (i : Int) : F32 := roundNearestEven (i * 2 ^ 149) 1

/-- Addition of floats. -/
def add (x y : F32) : F32 := roundNearestEven (x.units + y.units) 1

/-- Subtraction of floats. -/
def sub (x y : F32) : F32 := roundNearestEven (x.units - y.units) 1

/-- Multiplication of floats. -/
def mul (x y : F32) : F32 := roundNearestEven (x.units * y.units) (2 ^ 149)

/-- Division of floats; `none` when the divisor is zero (the result is not a
finite number). -/
def div (x y : F32) : Option F32 :=
  if y.units = 0 then none
  else some (roundNearestEven (if y.units < 0 then -(x.units * 2 ^ 149) else x.units * 2 ^ 149)
    y.units.natAbs)

/-- Conversion `float -> int`: truncation toward zero. -/
def toInt (x : F32) : Int := Int.tdiv x.units (2 ^ 149)

end F32

/-! ## Colour ranges -/

/-- Modelled from the spec: class `ColorRange` is declared in `wesnothrc.hpp`,
which is absent.  The spec describes it as the immutable value
`{min, mid, max}` of three reference colours; the members are named `mid_`,
`max_`, `min_` as `applyToPalette` reads them. -/
structure ColorRange where
  mid_ : QRgb
  max_ : QRgb
  min_ : QRgb
deriving DecidableEq, Repr

/-- The integer average `(r + g + b) / 3` of the three colour channels. -/
def channelAvg (color : QRgb) : Int :=
  Int.tdiv ((qRed color : Int) + (qGreen color : Int) + (qBlue color : Int)) 3

/-- The expression `oldRatio * midC + (1 - oldRatio) * otherC` assigned to an
`int` channel, every operation rounded on its own: the evaluation of a build
that does not contract a product and the addition into a fused multiply-add.
`blendWith` below gives the expression under the contracted evaluations too. -/
def blend (oldRatio : F32) (midC otherC : Int) : Int :=
  F32.toInt (F32.add (F32.mul oldRatio (F32.ofInt midC))
    (F32.mul (F32.sub (F32.ofInt 1) oldRatio) (F32.ofInt otherC)))

/-- Fused multiply-add: `x * y + z` computed exactly and rounded once. -/
def F32.fma (x y z : F32) : F32 :=
  F32.roundNearestEven (x.units * y.units + z.units * 2 ^ 149) (2 ^ 149)

/-- How a compiler evaluates the `float` expression `a * b + c * d`: every
operation rounded on its own, or the first or the second product contracted
with the addition into one fused multiply-add (the source sets no
`FP_CONTRACT` pragma, so a build may do either). -/
inductive Contraction where
  | separate
  | fusedFirst
  | fusedSecond
deriving DecidableEq, Repr

/-- The expression `oldRatio * midC + (1 - oldRatio) * otherC` assigned to an
`int` channel, under each way of evaluating it. -/
def blendWith (mode : Contraction) (oldRatio : F32) (midC otherC : Int) : Int :=
  match mode with
  | Contraction.separate => blend oldRatio midC otherC
  | Contraction.fusedFirst =>
    F32.toInt (F32.fma oldRatio (F32.ofInt midC)
      (F32.mul (F32.sub (F32.ofInt 1) oldRatio) (F32.ofInt otherC)))
  | Contraction.fusedSecond =>
    F32.toInt (F32.fma (F32.sub (F32.ofInt 1) oldRatio) (F32.ofInt otherC)
      (F32.mul oldRatio (F32.ofInt midC)))

/-- The three branches of the body of the loop of `applyToPalette`. -/
inductive Branch where
  | minMid
  | midMax
  | fallback
deriving DecidableEq, Repr

/-- The branch taken for a colour: the conditions
`referenceAvg && oldAvg <= referenceAvg` and `255 - referenceAvg`. -/
def selectBranch (referenceAvg oldAvg : Int) : Branch :=
  if referenceAvg ≠ 0 ∧ oldAvg ≤ referenceAvg then Branch.minMid
  else if 255 - referenceAvg ≠ 0 then Branch.midMax
  else Branch.fallback

/-- The ratio computed in a branch: `float(oldAvg) / float(referenceAvg)` in
the first, `(255.0f - float(oldAvg)) / (255.0f - float(referenceAvg))` in the
second; the fallback computes none. -/
def branchRatio (referenceAvg oldAvg : Int) : Branch → Option F32
  | Branch.minMid => F32.div (F32.ofInt oldAvg) (F32.ofInt referenceAvg)
  | Branch.midMax =>
    F32.div (F32.sub (F32.ofInt 255) (F32.ofInt oldAvg))
      (F32.sub (F32.ofInt 255) (F32.ofInt referenceAvg))
  | Branch.fallback => none

/-- Body of the loop of `applyToPalette` for one palette colour: the value
stored under that colour.  `none` means the run does not reach the store: it
stops at `Q_ASSERT(false)` in the fallback branch, or a ratio is not a finite
number. -/
def newColor (self : ColorRange) (referenceAvg : Int) (color : QRgb) : Option QRgb :=
  let oldAvg := channelAvg color
  match selectBranch referenceAvg oldAvg with
  | Branch.minMid =>
    (branchRatio referenceAvg oldAvg Branch.minMid).map fun oldRatio =>
      qRgb (qBound 0 (blend oldRatio (qRed self.mid_) (qRed self.min_)) 255)
        (qBound 0 (blend oldRatio (qGreen self.mid_) (qGreen self.min_)) 255)
        (qBound 0 (blend oldRatio (qBlue self.mid_) (qBlue self.min_)) 255)
  | Branch.midMax =>
    (branchRatio referenceAvg oldAvg Branch.midMax).map fun oldRatio =>
      qRgb (qBound 0 (blend oldRatio (qRed self.mid_) (qRed self.max_)) 255)
        (qBound 0 (blend oldRatio (qGreen self.mid_) (qGreen self.max_)) 255)
        (qBound 0 (blend oldRatio (qBlue self.mid_) (qBlue self.max_)) 255)
  | Branch.fallback => none

/-- The average of the reference colour: `palette.empty() ? 0 : palette.front()`
and `(oldR + oldG + oldB) / 3`. -/
def referenceAvg (palette : ColorList) : Int :=
  channelAvg (if palette.isEmpty then 0 else palette.headD 0)

/-- The method `ColorRange::applyToPalette(palette)`. -/
def applyToPalette (self : ColorRange) (palette : ColorList) : Option ColorMap :=
  palette.foldlM
    (fun mapRgb color =>
      (newColor self (referenceAvg palette) color).map fun value => mapRgb.insert color value)
    ([] : ColorMap)

/-- The function `generateColorMap(srcPalette, newPalette)`; `none` would be an
index outside a list. -/
def generateColorMap (srcPalette newPalette : ColorList) : Option ColorMap :=
  let shortestEnd := min srcPalette.length newPalette.length
  (List.range shortestEnd).foldlM
    (fun mapRgb i =>
      (srcPalette[i]?).bind fun key =>
        (newPalette[i]?).map fun value => mapRgb.insert key value)
    ([] : ColorMap)

/-! ## Markup export

Strings: a `QString` is its sequence of characters.  `toLower` and `toUpper`
change the ASCII letters; the statements about identifiers are for ASCII
names. -/

/-- Qt string, as the list of its characters. -/
abbrev QString := List Char

namespace QString

/-- Lower-casing `QString::toLower()`. -/
def toLower (s : QString) : QString := s.map Char.toLower

/-- Upper-casing `QString::toUpper()`. -/
def toUpper (s : QString) : QString := s.map Char.toUpper

/-- The call `QString::right(n)`: the last `n` characters. -/
def right (s : QString) (n : Nat) : QString := s.drop (s.length - n)

end QString

/-- The indentation `WML_INDENT`. -/
def WML_INDENT : QString := "    ".toList

/-- The comment header `WML_COLOR_RANGE_DESC`. -/
def WML_COLOR_RANGE_DESC : QString :=
  ("# This code defines a Wesnoth color range. You may use it\n" ++
   "# at global level (e.g. within the add-on's _main.cfg #ifdef)\n" ++
   "# or in specific situations by providing the contents of the\n" ++
   "# rgb= attribute (e.g. in [side] color= attributes or in ~RC()\n" ++
   "# image path function specifications).\n").toList

/-- The comment header `WML_COLOR_PALETTE_DESC`. -/
def WML_COLOR_PALETTE_DESC : QString :=
  ("# This code defines a Wesnoth color palette. You may use it\n" ++
   "# at global level (e.g. within the add-on's _main.cfg #ifdef)\n" ++
   "# or in specific situations by providing the comma-separated\n" ++
   "# color list (e.g. in ~RC() image path function\n" ++
   "# specifications).\n").toList

/-- The class `\s` of the regular expression: space, tab, line feed, vertical
tab, form feed and carriage return. -/
def isRegexSpace (c : Char) : Bool :=
  c = ' ' || c = '\t' || c = '\n' || c = '\x0b' || c = '\x0c' || c = '\r'

/-- The character class `[#="\s]` of `invalid_wml_id`. -/
def isInvalidWmlIdChar (c : Char) : Bool :=
  c = '#' || c = '=' || c = '"' || isRegexSpace c

/-- The function `makeIdentifier(name)`: lower-case the name, then replace every
match of `invalid_wml_id`, each a single character, by an underscore. -/
def makeIdentifier (name : QString) : QString :=
  if name.isEmpty then name
  else (QString.toLower name).map fun c => if isInvalidWmlIdChar c then '_' else c

/-- Lower-case hexadecimal digit of a value below 16. -/
def hexDigit (n : Nat) : Char :=
  if n < 10 then Char.ofNat (48 + n) else Char.ofNat (87 + n)

/-- Two lower-case hexadecimal digits of a byte. -/
def hexByte (n : Nat) : QString := [hexDigit (n / 16), hexDigit (n % 16)]

/-- The name `QColor(rgb).name()`: `#rrggbb` in lower-case hexadecimal; the
alpha of `rgb` is ignored by the constructor `QColor(QRgb)`. -/
def colorName (rgb : QRgb) : QString :=
  '#' :: (hexByte (qRed rgb) ++ hexByte (qGreen rgb) ++ hexByte (qBlue rgb))

/-- The function `makeWmlColor(rgb)`.  The assertion `!ret.isEmpty()` holds,
the name having seven characters. -/
def makeWmlColor (rgb : QRgb) : QString :=
  let ret := QString.toUpper (colorName rgb)
  QString.right ret (ret.length - 1)

/-- The accessor `ColorRange::mid()`. -/
def ColorRange.mid (self : ColorRange) : QRgb := self.mid_

/-- The accessor `ColorRange::max()`. -/
def ColorRange.max (self : ColorRange) : QRgb := self.max_

/-- The accessor `ColorRange::min()`. -/
def ColorRange.min (self : ColorRange) : QRgb := self.min_

/-- The function `wmlFromColorRange(name, range)`. -/
def wmlFromColorRange (name : QString) (range : ColorRange) : QString :=
  let code := WML_COLOR_RANGE_DESC
    ++ "\n".toList
    ++ "[color_range]\n".toList
    ++ WML_INDENT ++ "id=\"".toList ++ makeIdentifier name ++ "\"\n".toList
    ++ WML_INDENT ++ "name= _ \"".toList ++ name ++ "\"\n".toList
    ++ WML_INDENT ++ "rgb=\"".toList
  let strAvg := makeWmlColor range.mid
  let strMax := makeWmlColor range.max
  let strMin := makeWmlColor range.min
  let strMap := strAvg
  code ++ (strAvg ++ ",".toList ++ strMax ++ ",".toList ++ strMin ++ ",".toList ++ strMap
    ++ "\"\n".toList ++ "[/color_range]\n".toList)

/-- Body of the loop of `wmlFromColorList`; the state is `code` and `first`. -/
def colorListStep (state : QString × Bool) (color : QRgb) : QString × Bool :=
  let state1 := if !state.2 then (state.1 ++ [','], state.2) else (state.1, false)
  (state1.1 ++ makeWmlColor color, state1.2)

/-- The function `wmlFromColorList(name, palette)`. -/
def wmlFromColorList (name : QString) (palette : ColorList) : QString :=
  let code := WML_COLOR_PALETTE_DESC
    ++ "\n".toList
    ++ "[color_palette]\n".toList
    ++ WML_INDENT ++ makeIdentifier name ++ "=\"".toList
  let code := (palette.foldl colorListStep (code, true)).1
  let code := code ++ "\"\n".toList
  code ++ "[/color_palette]\n".toList

/-! ## Registry of ranges and palettes (`mainwindow.cpp`) -/

/-- A `QMap<QString, V>`: its entries in iteration order, which `insert` keeps
ascending by key. -/
abbrev NameMap (V : Type) := List (QString × V)

namespace NameMap

/-- Lookup `map.find(key)`, `none` standing for `map.end()`. -/
def find {V : Type} : NameMap V → QString → Option V
  | [], _ => none
  | (k, v) :: rest, key => if key = k then some v else find rest key

/-- Assignment of one entry: overwrite the value of `key` when the map has the
key, otherwise add the entry at the place of its key. -/
def insert {V : Type} : NameMap V → QString → V → NameMap V
  | [], key, value => [(key, value)]
  | (k, v) :: rest, key, value =>
    if key < k then (key, value) :: (k, v) :: rest
    else if key = k then (key, value) :: rest
    else (k, v) :: insert rest key value

/-- The call `QMap::insert(const QMap &map)`: insert every entry of `other`,
replacing the value of a key common to both maps by the value of `other`. -/
def insertMap {V : Type} (self other : NameMap V) : NameMap V :=
  other.foldl (fun m e => m.insert e.1 e.2) self

/-- Keys of a map in iteration order. -/
def keys {V : Type} (m : NameMap V) : List QString := m.map Prod.fst

end NameMap

/-- Modelled from the spec: the class of the objects `wesnoth::builtinColorRanges`
and `wesnoth::builtinPalettes` is declared outside the sources at hand.  The
spec describes a registry of built-in entries exposing an ordered list of
identifiers, an ordered list of display names, and lookup by identifier
returning the data. -/
structure BuiltinRegistry (V : Type) where
  orderedNames : List QString
  orderedTranslatableNames : List QString
  objects : NameMap V

/-- Modelled from the spec: the member `objectCount()` of the absent registry
class, the number of built-in identifiers. -/
def BuiltinRegistry.objectCount {V : Type} (r : BuiltinRegistry V) : Nat :=
  r.orderedNames.length

/-- Modelled from the spec: the member `hasName(name)` of the absent registry
class, whether `name` is a built-in identifier. -/
def BuiltinRegistry.hasName {V : Type} (r : BuiltinRegistry V) (name : QString) : Bool :=
  decide (name ∈ r.orderedNames)

/-- An entry of a combo box or of the list of ranges: its text and its
`Qt::UserRole` data, the identifier.  The colour icon is left out. -/
structure Item where
  text : QString
  data : QString
deriving DecidableEq, Repr

/-- The members of `MainWindow` that hold the definitions, and the entries of
the widgets `cbxKeyPal`, `cbxNewPal` and `listRanges`. -/
structure MainWindow where
  userColorRanges_ : NameMap ColorRange
  userPalettes_ : NameMap ColorList
  colorRanges_ : NameMap ColorRange
  palettes_ : NameMap ColorList
  cbxKeyPal : List Item
  cbxNewPal : List Item
  listRanges : List Item

/-- The method `MainWindow::generateMergedRcDefinitions()`. -/
def generateMergedRcDefinitions (builtinColorRanges : BuiltinRegistry ColorRange)
    (builtinPalettes : BuiltinRegistry ColorList) (w : MainWindow) : MainWindow :=
  let colorRanges := builtinColorRanges.objects
  let colorRanges := colorRanges.insertMap w.userColorRanges_
  let palettes := builtinPalettes.objects
  let palettes := palettes.insertMap w.userPalettes_
  { w with colorRanges_ := colorRanges, palettes_ := palettes }

/-- The call `QComboBox::addItem(icon, text, userData)`. -/
def addItem (items : List Item) (text userData : QString) : List Item :=
  items ++ [⟨text, userData⟩]

/-- The method `MainWindow::insertRangeListItem(id, display_name, color)`: a new
entry at the end of `listRanges`. -/
def insertRangeListItem (listRanges : List Item) (id display_name : QString) : List Item :=
  listRanges ++ [⟨display_name, id⟩]

/-- Body of the loop of `processRcDefinitions` over the built-in palettes; the
state is the pair of combo boxes `cbOldPals`, `cbNewPals`. -/
def addBuiltinPalette (builtinPalettes : BuiltinRegistry ColorList)
    (boxes : List Item × List Item) (k : Nat) : List Item × List Item :=
  let palName := builtinPalettes.orderedNames.getD k []
  let uiName := builtinPalettes.orderedTranslatableNames.getD k []
  (addItem boxes.1 uiName palName, addItem boxes.2 uiName palName)

/-- Body of the loop of `processRcDefinitions` over the user palettes. -/
def addUserPalette (capitalize : QString → QString) (builtinPalettes : BuiltinRegistry ColorList)
    (boxes : List Item × List Item) (e : QString × ColorList) : List Item × List Item :=
  if builtinPalettes.hasName e.1 then boxes
  else (addItem boxes.1 (capitalize e.1) e.1, addItem boxes.2 (capitalize e.1) e.1)

/-- Body of the loop of `processRcDefinitions` over the built-in ranges. -/
def addBuiltinRange (builtinColorRanges : BuiltinRegistry ColorRange)
    (listRanges : List Item) (k : Nat) : List Item :=
  let rangeName := builtinColorRanges.orderedNames.getD k []
  let uiName := builtinColorRanges.orderedTranslatableNames.getD k []
  insertRangeListItem listRanges rangeName uiName

/-- Body of the loop of `processRcDefinitions` over the user ranges. -/
def addUserRange (capitalize : QString → QString)
    (builtinColorRanges : BuiltinRegistry ColorRange)
    (listRanges : List Item) (e : QString × ColorRange) : List Item :=
  if builtinColorRanges.hasName e.1 then listRanges
  else insertRangeListItem listRanges e.1 (capitalize e.1)

/-- The method `MainWindow::processRcDefinitions()`; `capitalize` is the helper
of that name, which is not among the sources at hand. -/
def processRcDefinitions (capitalize : QString → QString)
    (builtinColorRanges : BuiltinRegistry ColorRange)
    (builtinPalettes : BuiltinRegistry ColorList) (w : MainWindow) : MainWindow :=
  let boxes : List Item × List Item := ([], [])
  let listRanges : List Item := []
  let boxes := (List.range builtinPalettes.objectCount).foldl
    (addBuiltinPalette builtinPalettes) boxes
  let boxes := w.userPalettes_.foldl (addUserPalette capitalize builtinPalettes) boxes
  let listRanges := (List.range builtinColorRanges.objectCount).foldl
    (addBuiltinRange builtinColorRanges) listRanges
  let listRanges := w.userColorRanges_.foldl (addUserRange capitalize builtinColorRanges)
    listRanges
  { w with cbxKeyPal := boxes.1, cbxNewPal := boxes.2, listRanges := listRanges }

/-! ## The palette editor (`custompalettes.cpp`) -/

/-- The largest value of the C++ type `int`. -/
def INT_MAX : Nat := 2 ^ 31 - 1

/-- The call `tr(sourceText)` when no translation is installed: Qt returns the
source text. -/
def tr (sourceText : QString) : QString := sourceText

/-- The call `QString::arg(int)` with a non-negative argument on a string whose
place markers are all `%1`: every marker is replaced by the decimal digits of
the argument. -/
def QString.arg : QString → Nat → QString
  | [], _ => []
  | [c], _ => [c]
  | c :: d :: rest, a =>
    if c = '%' ∧ d = '1' then Nat.toDigits 10 a ++ QString.arg rest a
    else c :: QString.arg (d :: rest) a

/-- The `do ... while` loop of `generateNewPaletteName`, entered with the counter
value `i` and run for at most `fuel` iterations.  `none` stands for a run that
is not over after `fuel` iterations, or in which `++i` leaves the range of
`int`. -/
def generateNewPaletteNameLoop (palettes_ : NameMap ColorList) : Nat → Nat → Option QString
  | 0, _ => none
  | fuel + 1, i =>
    if INT_MAX ≤ i then none
    else
      let name := (tr "New Palette #%1".toList).arg (i + 1)
      if palettes_.find name ≠ none then generateNewPaletteNameLoop palettes_ fuel (i + 1)
      else some name

/-- The method `CustomPalettes::generateNewPaletteName()` on the collection
`palettes_`, its loop run for at most `fuel` iterations. -/
def generateNewPaletteName (palettes_ : NameMap ColorList) (fuel : Nat) : Option QString :=
  generateNewPaletteNameLoop palettes_ fuel 0

/-! ## Auxiliary definitions used by the statements and proofs -/

/-- Upper-case hexadecimal digit of a value below 16. -/
def upperHexDigit (n : Nat) : Char := "0123456789ABCDEF".toList.getD n '0'

/-- The six upper-case hexadecimal digits `RRGGBB` of a colour. -/
def hexRRGGBB (c : QRgb) : QString :=
  [upperHexDigit (qRed c / 16), upperHexDigit (qRed c % 16),
   upperHexDigit (qGreen c / 16), upperHexDigit (qGreen c % 16),
   upperHexDigit (qBlue c / 16), upperHexDigit (qBlue c % 16)]


/-- One insertion of the loop that builds `plainRgbMap`. -/
def plainStep (plain : ColorMap) (e : QRgb × QRgb) : ColorMap :=
  plain.insert (e.1 &&& 0xFFFFFF) (e.2 &&& 0xFFFFFF)

/-- The transform that `recolorImage` applies to one pixel word, given the
alpha-free map. -/
def recolorPixel (plain : ColorMap) (px : QRgb) : QRgb :=
  match plain.find (px &&& 0xFFFFFF) with
  | none => px
  | some value => ((px &&& 0xFF000000) + value) % 2 ^ 32

/-- The inner loop of `recolorImage` on line `y`, as a loop on that line. -/
def lineLoop (plain : ColorMap) (n : Nat) (line : List QRgb) : List QRgb :=
  (List.range n).foldl (fun r i => r.set i (recolorPixel plain (r.getD i 0))) line

/-- Dimension part of well-formedness. -/
def QImage.Rectangular (img : QImage) : Prop :=
  img.scanLines.length = img.height ∧ ∀ line ∈ img.scanLines, line.length = img.width

/-- One assignment `mapRgb[key] = value` of a map-building loop. -/
def insertEntry (m : ColorMap) (e : QRgb × QRgb) : ColorMap := m.insert e.1 e.2

/-- A value is a binary32 number when its magnitude is a 24-bit significand
times a power of two. -/
def F32.Representable (z : Int) : Prop := ∃ s0, 2 ^ s0 ∣ z.natAbs ∧ z.natAbs / 2 ^ s0 < 2 ^ 24

/-- The value stored for a colour, as a total function. -/
def storedColor (self : ColorRange) (referenceAvg : Int) (color : QRgb) : QRgb :=
  (newColor self referenceAvg color).getD 0

/-- Truncation of a rational number toward zero. -/
def truncQ (q : ℚ) : Int := Int.tdiv q.num q.den

/-- The interpolation as the spec words it, in exact arithmetic: the integer
truncation of `ratio * midChannel + (1 - ratio) * minChannel` with
`ratio = oldAvg / referenceAvg` when `referenceAvg != 0` and
`oldAvg <= referenceAvg`, and otherwise of
`ratio * midChannel + (1 - ratio) * maxChannel` with
`ratio = (255 - oldAvg) / (255 - referenceAvg)`. -/
def specExactChannel (referenceAvg oldAvg midC minC maxC : Int) : Int :=
  if referenceAvg ≠ 0 ∧ oldAvg ≤ referenceAvg then
    truncQ ((oldAvg / referenceAvg : ℚ) * midC + (1 - (oldAvg / referenceAvg : ℚ)) * minC)
  else
    truncQ (((255 - oldAvg) / (255 - referenceAvg) : ℚ) * midC
      + (1 - ((255 - oldAvg) / (255 - referenceAvg) : ℚ)) * maxC)

/-- The number that a string of decimal digits stands for. -/
def decimalValue (s : QString) : Nat := s.foldl (fun acc c => acc * 10 + (c.toNat - 48)) 0

/-- The name that `generateNewPaletteName` tries at the counter value `i`. -/
def newPaletteName (i : Nat) : QString := "New Palette #".toList ++ Nat.toDigits 10 i

/-! ## Lemmas: colour words -/

theorem and_ff_eq_mod (x : Nat) : x &&& 0xff = x % 256 :=
  Nat.and_pow_two_sub_one_eq_mod x 8

theorem and_rgbMask_eq_mod (x : Nat) : x &&& 0xFFFFFF = x % 2 ^ 24 :=
  Nat.and_pow_two_sub_one_eq_mod x 24

theorem and_alphaMask_eq (x : Nat) : x &&& 0xFF000000 = x / 2 ^ 24 % 256 * 2 ^ 24 := by
  apply Nat.eq_of_testBit_eq
  intro i
  have h1 : (0xFF000000 : Nat) = 2 ^ 24 * (2 ^ 8 - 1) := by norm_num
  rw [Nat.testBit_and, h1, Nat.testBit_mul_pow_two, Nat.testBit_two_pow_sub_one,
    Nat.mul_comm (x / 2 ^ 24 % 256), Nat.testBit_mul_pow_two,
    show (256 : Nat) = 2 ^ 8 by norm_num, Nat.testBit_mod_two_pow,
    ← Nat.shiftRight_eq_div_pow, Nat.testBit_shiftRight]
  by_cases h : 24 ≤ i
  · have h2 : 24 + (i - 24) = i := by omega
    simp [h, h2, Bool.and_comm]
  · simp [h]

/-! ## Lemmas: colour maps -/

namespace ColorMap

theorem find_insert (m : ColorMap) (k v key : QRgb) :
    (m.insert k v).find key = if key = k then some v else m.find key := by
  induction m with
  | nil => simp [insert, find]
  | cons e rest ih =>
    obtain ⟨k0, v0⟩ := e
    simp only [insert]
    by_cases h1 : k < k0
    · by_cases h3 : key = k <;> simp [find, h1, h3]
    · by_cases h2 : k = k0
      · subst h2
        by_cases h3 : key = k <;> simp [find, h3]
      · by_cases h3 : key = k
        · subst h3
          simp [find, h1, h2, ih]
        · simp [find, h1, h2, h3, ih]

end ColorMap

theorem plainRgbMap_eq (cm : ColorMap) : plainRgbMap cm = cm.foldl plainStep [] := rfl

theorem find_foldl_plainStep_of_no_key (cm acc : ColorMap) (key : QRgb)
    (h : ∀ e ∈ cm, e.1 &&& 0xFFFFFF ≠ key) :
    (cm.foldl plainStep acc).find key = acc.find key := by
  induction cm generalizing acc with
  | nil => rfl
  | cons e rest ih =>
    rw [List.foldl_cons, ih _ (fun e1 h1 => h e1 (List.mem_cons_of_mem _ h1)), plainStep,
      ColorMap.find_insert]
    have := h e (List.mem_cons_self _ _)
    simp [Ne.symm this]

theorem find_foldl_plainStep_of_mem (cm acc : ColorMap) (k v : QRgb)
    (hnd : (cm.map fun e => e.1 &&& 0xFFFFFF).Nodup) (hmem : (k, v) ∈ cm) :
    (cm.foldl plainStep acc).find (k &&& 0xFFFFFF) = some (v &&& 0xFFFFFF) := by
  induction cm generalizing acc with
  | nil => simp at hmem
  | cons e rest ih =>
    rw [List.map_cons, List.nodup_cons] at hnd
    rw [List.foldl_cons]
    rcases List.mem_cons.mp hmem with h | h
    · subst h
      rw [find_foldl_plainStep_of_no_key, plainStep, ColorMap.find_insert]
      · simp
      · intro e1 h1 heq
        exact hnd.1 (List.mem_map.mpr ⟨e1, h1, heq⟩)
    · exact ih _ hnd.2 h

theorem find_foldl_plainStep_some (cm acc : ColorMap) (key value : QRgb)
    (h : (cm.foldl plainStep acc).find key = some value) :
    acc.find key = some value ∨
      ∃ e ∈ cm, e.1 &&& 0xFFFFFF = key ∧ e.2 &&& 0xFFFFFF = value := by
  induction cm generalizing acc with
  | nil => exact Or.inl h
  | cons e rest ih =>
    rw [List.foldl_cons] at h
    rcases ih _ h with h1 | ⟨e1, h1, h2⟩
    · rw [plainStep, ColorMap.find_insert] at h1
      split_ifs at h1 with h3
      · right
        exact ⟨e, List.mem_cons_self _ _, h3.symm, by simpa using h1⟩
      · exact Or.inl h1
    · exact Or.inr ⟨e1, List.mem_cons_of_mem _ h1, h2⟩

/-! ## Lemmas: the pixel loops -/

theorem foldl_range_set {α : Type} (f : α → α) (d : α) (l : List α) (n : Nat)
    (h : n ≤ l.length) :
    (List.range n).foldl (fun r i => r.set i (f (r.getD i d))) l
      = (l.take n).map f ++ l.drop n := by
  induction n with
  | zero => simp
  | succ n ih =>
    have hn : n < l.length := h
    rw [List.range_succ, List.foldl_append, ih (Nat.le_of_lt hn)]
    simp only [List.foldl_cons, List.foldl_nil]
    have hlen : ((l.take n).map f).length = n := by simp [Nat.le_of_lt hn]
    have hget : ((l.take n).map f ++ l.drop n).getD n d = l[n] := by
      rw [List.getD_eq_getElem?_getD, List.getElem?_append_right (by omega), hlen]
      simp [hn]
    rw [hget, List.take_succ, List.getElem?_eq_getElem hn]
    simp only [Option.toList, List.map_append, List.map_cons, List.map_nil,
      List.append_assoc, List.singleton_append]
    rw [List.set_append_right _ _ (by omega), hlen, Nat.sub_self,
      List.drop_eq_getElem_cons hn]
    rfl

theorem set_getD_self {α : Type} (l : List α) (i : Nat) (d : α) : l.set i (l.getD i d) = l := by
  by_cases h : i < l.length
  · apply List.ext_getElem? ; intro j
    rw [List.getElem?_set, List.getD_eq_getElem?_getD]
    by_cases hj : i = j
    · subst hj; simp [h]
    · simp [hj]
  · exact List.set_eq_of_length_le (by omega)

theorem getD_set_self {α : Type} (l : List α) (i : Nat) (a d : α) (h : i < l.length) :
    (l.set i a).getD i d = a := by
  simp [List.getD_eq_getElem?_getD, List.getElem?_set, h]

theorem QImage.setPixel_pixel (img : QImage) (x y : Nat) :
    img.setPixel x y (img.pixel x y) = img := by
  simp only [QImage.setPixel, QImage.pixel, set_getD_self]

theorem QImage.setPixel_of_le (img : QImage) (x y : Nat) (v : QRgb)
    (h : img.scanLines.length ≤ y) : img.setPixel x y v = img := by
  simp only [QImage.setPixel, List.set_eq_of_length_le h]

theorem recolorStep_eq (plain : ColorMap) (y : Nat) (out : QImage) (x : Nat) :
    recolorStep plain y out x = out.setPixel x y (recolorPixel plain (out.pixel x y)) := by
  unfold recolorStep recolorPixel
  cases plain.find (out.pixel x y &&& 0xFFFFFF) with
  | none => simp only [QImage.setPixel_pixel]
  | some v => rfl

theorem innerLoop_eq (plain : ColorMap) (y n : Nat) (out : QImage) :
    (List.range n).foldl (recolorStep plain y) out
      = { out with
          scanLines := out.scanLines.set y (lineLoop plain n (out.scanLines.getD y [])) } := by
  by_cases hy : y < out.scanLines.length
  · induction n with
    | zero =>
      simp only [lineLoop, List.range_zero, List.foldl_nil, set_getD_self]
    | succ n ih =>
      rw [List.range_succ, List.foldl_append, ih]
      simp only [List.foldl_cons, List.foldl_nil, recolorStep_eq, QImage.setPixel, QImage.pixel,
        lineLoop, List.range_succ, List.foldl_append, getD_set_self _ _ _ _ hy, List.set_set]
  · have hle : out.scanLines.length ≤ y := by omega
    rw [List.set_eq_of_length_le hle]
    induction n with
    | zero => rfl
    | succ n ih =>
      rw [List.range_succ, List.foldl_append, ih]
      simp only [List.foldl_cons, List.foldl_nil, recolorStep_eq]
      exact QImage.setPixel_of_le _ _ _ _ hle

theorem foldl_scanLines (G : List (List QRgb) → Nat → List (List QRgb)) (ys : List Nat)
    (img : QImage) :
    ys.foldl (fun out y => { out with scanLines := G out.scanLines y }) img
      = { img with scanLines := ys.foldl G img.scanLines } := by
  induction ys generalizing img with
  | nil => rfl
  | cons y rest ih => simp only [List.foldl_cons, ih]

theorem lineLoop_eq_map (plain : ColorMap) (line : List QRgb) :
    lineLoop plain line.length line = line.map (recolorPixel plain) := by
  unfold lineLoop
  rw [foldl_range_set _ _ _ _ (Nat.le_refl _)]
  simp

theorem QImage.WellFormed.rectangular {img : QImage} (h : img.WellFormed) : img.Rectangular :=
  ⟨h.1, fun line hl => (h.2 line hl).1⟩

/-- On a rectangular image `recolorImage` maps `recolorPixel` over every pixel. -/
theorem recolorImage_eq_map (img : QImage) (cm : ColorMap) (h : img.Rectangular) :
    recolorImage img cm
      = { img with scanLines := img.scanLines.map (List.map (recolorPixel (plainRgbMap cm))) } := by
  unfold recolorImage QImage.convertToFormatARGB32
  simp only [innerLoop_eq]
  rw [foldl_scanLines (fun L y => L.set y (lineLoop (plainRgbMap cm) img.width (L.getD y [])))]
  rw [← h.1, foldl_range_set _ _ _ _ (Nat.le_refl _)]
  simp only [List.take_length, List.drop_length, List.append_nil]
  congr 1
  apply List.map_congr_left
  intro line hl
  rw [← h.2 line hl, lineLoop_eq_map]

theorem recolorImage_pixel (img : QImage) (cm : ColorMap) (x y : Nat) (h : img.Rectangular)
    (hx : x < img.width) (hy : y < img.height) :
    (recolorImage img cm).pixel x y = recolorPixel (plainRgbMap cm) (img.pixel x y) := by
  rw [recolorImage_eq_map img cm h]
  have hy1 : y < img.scanLines.length := by rw [h.1]; exact hy
  have hx1 : x < (img.scanLines[y]).length := by
    rw [h.2 _ (List.getElem_mem hy1)]; exact hx
  simp [QImage.pixel, List.getD_eq_getElem?_getD, hy1, hx1]

/-! ## Lemmas: pixel words -/

theorem mod_rgb_split (a : Nat) :
    a % 16777216 = a / 65536 % 256 * 65536 + a / 256 % 256 * 256 + a % 256 := by
  omega

theorem rgbOf_eq_iff (a b : Nat) : rgbOf a = rgbOf b ↔ a &&& 0xFFFFFF = b &&& 0xFFFFFF := by
  simp only [rgbOf, qRed, qGreen, qBlue, Nat.shiftRight_eq_div_pow, and_ff_eq_mod,
    and_rgbMask_eq_mod, Prod.mk.injEq, Nat.reducePow]
  rw [mod_rgb_split a, mod_rgb_split b]
  have h1 : a / 65536 % 256 < 256 := Nat.mod_lt _ (by norm_num)
  have h2 : a / 256 % 256 < 256 := Nat.mod_lt _ (by norm_num)
  have h3 : a % 256 < 256 := Nat.mod_lt _ (by norm_num)
  have h4 : b / 65536 % 256 < 256 := Nat.mod_lt _ (by norm_num)
  have h5 : b / 256 % 256 < 256 := Nat.mod_lt _ (by norm_num)
  have h6 : b % 256 < 256 := Nat.mod_lt _ (by norm_num)
  generalize a / 65536 % 256 = ra at *
  generalize a / 256 % 256 = ga at *
  generalize a % 256 = ba at *
  generalize b / 65536 % 256 = rb at *
  generalize b / 256 % 256 = gb at *
  generalize b % 256 = bb at *
  constructor
  · rintro ⟨e1, e2, e3⟩
    omega
  · intro h
    refine ⟨?_, ?_, ?_⟩ <;> omega

theorem substituted_word (px v : Nat) (hpx : px < 2 ^ 32) :
    ((px &&& 0xFF000000) + (v &&& 0xFFFFFF)) % 2 ^ 32 = qAlpha px * 2 ^ 24 + v % 2 ^ 24 := by
  simp only [qAlpha, Nat.shiftRight_eq_div_pow, and_rgbMask_eq_mod, and_alphaMask_eq,
    Nat.reducePow] at hpx ⊢
  omega

theorem rgbOf_word (a v : Nat) : rgbOf (a * 2 ^ 24 + v % 2 ^ 24) = rgbOf v := by
  simp only [rgbOf, qRed, qGreen, qBlue, Nat.shiftRight_eq_div_pow, and_ff_eq_mod,
    Prod.mk.injEq, Nat.reducePow]
  omega

theorem qAlpha_word (a v : Nat) : qAlpha (a * 2 ^ 24 + v % 2 ^ 24) = a := by
  simp only [qAlpha, Nat.shiftRight_eq_div_pow, Nat.reducePow]
  omega

theorem QImage.WellFormed.pixel_lt {img : QImage} (h : img.WellFormed) (x y : Nat)
    (hx : x < img.width) (hy : y < img.height) : img.pixel x y < 2 ^ 32 := by
  have hy1 : y < img.scanLines.length := by rw [h.1]; exact hy
  have hline := h.2 _ (List.getElem_mem hy1)
  have hx1 : x < (img.scanLines[y]).length := by rw [hline.1]; exact hx
  have := hline.2 _ (List.getElem_mem hx1)
  simpa [QImage.pixel, List.getD_eq_getElem?_getD, hy1, hx1] using this

theorem nodup_mask_of_nodup_rgb (cm : ColorMap) (h : (cm.map fun e => rgbOf e.1).Nodup) :
    (cm.map fun e => e.1 &&& 0xFFFFFF).Nodup := by
  rw [List.Nodup, List.pairwise_map] at h ⊢
  exact h.imp fun hne heq => hne ((rgbOf_eq_iff _ _).mpr heq)

theorem recolorPixel_of_mem (cm : ColorMap) (px key value : Nat)
    (hkeys : (cm.map fun e => rgbOf e.1).Nodup) (hmem : (key, value) ∈ cm)
    (hrgb : rgbOf px = rgbOf key) (hpx : px < 2 ^ 32) :
    recolorPixel (plainRgbMap cm) px = qAlpha px * 2 ^ 24 + value % 2 ^ 24 := by
  have hfind := find_foldl_plainStep_of_mem cm [] key value (nodup_mask_of_nodup_rgb cm hkeys) hmem
  rw [← (rgbOf_eq_iff px key).mp hrgb, ← plainRgbMap_eq] at hfind
  simp only [recolorPixel, hfind]
  exact substituted_word px value hpx

theorem recolorPixel_of_no_key (cm : ColorMap) (px : Nat)
    (h : ∀ e ∈ cm, rgbOf e.1 ≠ rgbOf px) : recolorPixel (plainRgbMap cm) px = px := by
  have hfind := find_foldl_plainStep_of_no_key cm [] (px &&& 0xFFFFFF)
    (fun e he heq => h e he ((rgbOf_eq_iff _ _).mpr heq))
  rw [← plainRgbMap_eq] at hfind
  simp only [recolorPixel, hfind]
  rfl

theorem recolorPixel_cases (cm : ColorMap) (px : Nat) (hpx : px < 2 ^ 32) :
    recolorPixel (plainRgbMap cm) px = px ∨
      ∃ e ∈ cm, rgbOf e.1 = rgbOf px ∧
        recolorPixel (plainRgbMap cm) px = qAlpha px * 2 ^ 24 + e.2 % 2 ^ 24 := by
  unfold recolorPixel
  cases hfind : (plainRgbMap cm).find (px &&& 0xFFFFFF) with
  | none => exact Or.inl rfl
  | some v =>
    right
    rw [plainRgbMap_eq] at hfind
    rcases find_foldl_plainStep_some cm [] _ _ hfind with h | ⟨e, he, hk, hv⟩
    · simp [ColorMap.find] at h
    · refine ⟨e, he, (rgbOf_eq_iff _ _).mpr hk, ?_⟩
      simp only
      rw [← hv]
      exact substituted_word px e.2 hpx

/-! ## Theorems: the pixel remapper -/

/-- C1: `recolorImage` substitutes a matched pixel exactly and only once.  For
a well-formed ARGB32 image and a mapping whose keys have pairwise distinct RGB
parts, a pixel whose RGB is the RGB part of a key mapped to `value` becomes the
word with the RGB of `value` and the alpha of the input pixel, whether or not
that RGB is itself a key of the mapping. -/
theorem recolorImage_substitutes_exactly (img : QImage) (colorMap : ColorMap)
    (x y key value : Nat) (hwf : img.WellFormed)
    (hkeys : (colorMap.map fun e => rgbOf e.1).Nodup) (hmem : (key, value) ∈ colorMap)
    (hx : x < img.width) (hy : y < img.height)
    (hrgb : rgbOf (img.pixel x y) = rgbOf key) :
    rgbOf ((recolorImage img colorMap).pixel x y) = rgbOf value ∧
      qAlpha ((recolorImage img colorMap).pixel x y) = qAlpha (img.pixel x y) ∧
      (recolorImage img colorMap).pixel x y < 2 ^ 32 := by
  have hpx := hwf.pixel_lt x y hx hy
  rw [recolorImage_pixel img colorMap x y hwf.rectangular hx hy,
    recolorPixel_of_mem colorMap _ key value hkeys hmem hrgb hpx]
  refine ⟨rgbOf_word _ _, qAlpha_word _ _, ?_⟩
  rw [← substituted_word _ value hpx]
  exact Nat.mod_lt _ (by norm_num)

/-- Witness of C1 on a swap mapping: the first pixel has the RGB of the first
key, and its new RGB is the second key, which is not substituted again. -/
theorem recolorImage_substitutes_exactly_witness :
    rgbOf ((recolorImage ⟨2, 1, [[0x80112233, 0x01445566]]⟩
        [(0xFF112233, 0xFF445566), (0xFF445566, 0xFF112233)]).pixel 0 0) = rgbOf 0xFF445566 ∧
      qAlpha ((recolorImage ⟨2, 1, [[0x80112233, 0x01445566]]⟩
        [(0xFF112233, 0xFF445566), (0xFF445566, 0xFF112233)]).pixel 0 0)
        = qAlpha ((⟨2, 1, [[0x80112233, 0x01445566]]⟩ : QImage).pixel 0 0) ∧
      (recolorImage ⟨2, 1, [[0x80112233, 0x01445566]]⟩
        [(0xFF112233, 0xFF445566), (0xFF445566, 0xFF112233)]).pixel 0 0 < 2 ^ 32 :=
  recolorImage_substitutes_exactly ⟨2, 1, [[0x80112233, 0x01445566]]⟩
    [(0xFF112233, 0xFF445566), (0xFF445566, 0xFF112233)] 0 0 0xFF112233 0xFF445566
    (by simp [QImage.WellFormed]) (by decide) (by decide) (by decide) (by decide) (by decide)

/-- C2: `recolorImage` never alters alpha.  For every well-formed ARGB32 image
and every mapping, whatever the alpha bytes of its keys and values, the alpha
channel of each output pixel is that of the input pixel at the same place. -/
theorem recolorImage_preserves_alpha (img : QImage) (colorMap : ColorMap) (x y : Nat)
    (hwf : img.WellFormed) (hx : x < img.width) (hy : y < img.height) :
    qAlpha ((recolorImage img colorMap).pixel x y) = qAlpha (img.pixel x y) := by
  have hpx := hwf.pixel_lt x y hx hy
  rw [recolorImage_pixel img colorMap x y hwf.rectangular hx hy]
  rcases recolorPixel_cases colorMap _ hpx with h | ⟨e, _, _, h⟩
  · rw [h]
  · rw [h, qAlpha_word]

/-- Witness of C2 with opaque keys and values, as `applyToPalette` produces. -/
theorem recolorImage_preserves_alpha_witness :
    qAlpha ((recolorImage ⟨2, 1, [[0x80112233, 0x01445566]]⟩
        [(0xFF112233, 0xFFAABBCC)]).pixel 0 0)
      = qAlpha ((⟨2, 1, [[0x80112233, 0x01445566]]⟩ : QImage).pixel 0 0) :=
  recolorImage_preserves_alpha ⟨2, 1, [[0x80112233, 0x01445566]]⟩ [(0xFF112233, 0xFFAABBCC)] 0 0
    (by simp [QImage.WellFormed]) (by decide) (by decide)

/-- C3: `recolorImage` passes unmatched pixels through.  In a rectangular
image, a pixel whose RGB part is the RGB part of no key is the same word in the
output; and with the empty mapping the output is the input. -/
theorem recolorImage_passes_unmatched (img : QImage) (colorMap : ColorMap)
    (hrect : img.Rectangular) :
    (∀ x y, x < img.width → y < img.height →
        (∀ e ∈ colorMap, rgbOf e.1 ≠ rgbOf (img.pixel x y)) →
        (recolorImage img colorMap).pixel x y = img.pixel x y) ∧
      recolorImage img [] = img := by
  constructor
  · intro x y hx hy hno
    rw [recolorImage_pixel img colorMap x y hrect hx hy]
    exact recolorPixel_of_no_key colorMap _ hno
  · rw [recolorImage_eq_map img [] hrect]
    have : recolorPixel (plainRgbMap []) = id := by
      funext px
      exact recolorPixel_of_no_key [] px (fun e he => by simp at he)
    simp [this]

/-- Witness of C3: the second pixel matches no key. -/
theorem recolorImage_passes_unmatched_witness :
    (∀ x y, x < 2 → y < 1 →
        (∀ e ∈ ([(0xFF112233, 0xFFAABBCC)] : ColorMap),
          rgbOf e.1 ≠ rgbOf ((⟨2, 1, [[0x80112233, 0x01445566]]⟩ : QImage).pixel x y)) →
        (recolorImage ⟨2, 1, [[0x80112233, 0x01445566]]⟩ [(0xFF112233, 0xFFAABBCC)]).pixel x y
          = (⟨2, 1, [[0x80112233, 0x01445566]]⟩ : QImage).pixel x y) ∧
      recolorImage ⟨2, 1, [[0x80112233, 0x01445566]]⟩ []
        = ⟨2, 1, [[0x80112233, 0x01445566]]⟩ :=
  recolorImage_passes_unmatched ⟨2, 1, [[0x80112233, 0x01445566]]⟩ [(0xFF112233, 0xFFAABBCC)]
    (by simp [QImage.Rectangular])

theorem find_plainRgbMap_iff (cm : ColorMap) (hkeys : (cm.map fun e => rgbOf e.1).Nodup)
    (k v : Nat) :
    (plainRgbMap cm).find k = some v ↔ ∃ e ∈ cm, e.1 &&& 0xFFFFFF = k ∧ e.2 &&& 0xFFFFFF = v := by
  constructor
  · intro h
    rw [plainRgbMap_eq] at h
    rcases find_foldl_plainStep_some cm [] k v h with h1 | h1
    · simp [ColorMap.find] at h1
    · exact h1
  · rintro ⟨e, he, hk, hv⟩
    rw [← hk, ← hv, plainRgbMap_eq]
    exact find_foldl_plainStep_of_mem cm [] e.1 e.2 (nodup_mask_of_nodup_rgb cm hkeys) he

theorem exists_mask_of_perm (cm other : ColorMap) (k v : Nat)
    (h : (other.map fun e => (rgbOf e.1, rgbOf e.2)).Perm
      (cm.map fun e => (rgbOf e.1, rgbOf e.2)))
    (hex : ∃ e ∈ other, e.1 &&& 0xFFFFFF = k ∧ e.2 &&& 0xFFFFFF = v) :
    ∃ e ∈ cm, e.1 &&& 0xFFFFFF = k ∧ e.2 &&& 0xFFFFFF = v := by
  obtain ⟨e, he, hk, hv⟩ := hex
  have hm : (rgbOf e.1, rgbOf e.2) ∈ cm.map fun e => (rgbOf e.1, rgbOf e.2) :=
    h.subset (List.mem_map.mpr ⟨e, he, rfl⟩)
  obtain ⟨e1, he1, heq⟩ := List.mem_map.mp hm
  simp only [Prod.mk.injEq] at heq
  exact ⟨e1, he1, ((rgbOf_eq_iff _ _).mp heq.1).trans hk, ((rgbOf_eq_iff _ _).mp heq.2).trans hv⟩

theorem plainRgbMap_find_congr (cm other : ColorMap)
    (hkeys : (cm.map fun e => rgbOf e.1).Nodup)
    (h : (other.map fun e => (rgbOf e.1, rgbOf e.2)).Perm
      (cm.map fun e => (rgbOf e.1, rgbOf e.2)))
    (k : Nat) : (plainRgbMap other).find k = (plainRgbMap cm).find k := by
  have hother : (other.map fun e => rgbOf e.1).Nodup := by
    have hp := h.map Prod.fst
    simp only [List.map_map] at hp
    exact hp.nodup_iff.mpr hkeys
  apply Option.ext
  intro v
  rw [Option.mem_def, Option.mem_def, find_plainRgbMap_iff other hother,
    find_plainRgbMap_iff cm hkeys]
  exact ⟨exists_mask_of_perm cm other k v h, exists_mask_of_perm other cm k v h.symm⟩

/-- C10: `recolorImage` looks pixels up by RGB only.  With keys of pairwise
distinct RGB parts, the output pixel is the input pixel when no key has its
R, G, B, and otherwise the input alpha with the RGB of the value of the key
that has its R, G, B, whatever the alpha bytes of pixel and key; and a mapping
with the same entries up to the alpha bytes of keys and values (in any
iteration order) gives the same output image. -/
theorem recolorImage_lookup_by_rgb (img : QImage) (colorMap : ColorMap) (hwf : img.WellFormed)
    (hkeys : (colorMap.map fun e => rgbOf e.1).Nodup) :
    (∀ x y, x < img.width → y < img.height →
        (recolorImage img colorMap).pixel x y =
          match colorMap.find? (fun e => decide (rgbOf e.1 = rgbOf (img.pixel x y))) with
          | some e => qAlpha (img.pixel x y) * 2 ^ 24 + e.2 % 2 ^ 24
          | none => img.pixel x y) ∧
      ∀ other : ColorMap,
        (other.map fun e => (rgbOf e.1, rgbOf e.2)).Perm
            (colorMap.map fun e => (rgbOf e.1, rgbOf e.2)) →
          recolorImage img other = recolorImage img colorMap := by
  constructor
  · intro x y hx hy
    rw [recolorImage_pixel img colorMap x y hwf.rectangular hx hy]
    cases hfind : colorMap.find? (fun e => decide (rgbOf e.1 = rgbOf (img.pixel x y))) with
    | none =>
      rw [List.find?_eq_none] at hfind
      exact recolorPixel_of_no_key colorMap _ (fun e he => by simpa using hfind e he)
    | some e =>
      have hmem := List.mem_of_find?_eq_some hfind
      have hrgb : rgbOf e.1 = rgbOf (img.pixel x y) := by simpa using List.find?_some hfind
      exact recolorPixel_of_mem colorMap _ e.1 e.2 hkeys hmem hrgb.symm
        (hwf.pixel_lt x y hx hy)
  · intro other h
    rw [recolorImage_eq_map img other hwf.rectangular,
      recolorImage_eq_map img colorMap hwf.rectangular]
    have : recolorPixel (plainRgbMap other) = recolorPixel (plainRgbMap colorMap) := by
      funext px
      simp only [recolorPixel, plainRgbMap_find_congr colorMap other hkeys h]
    rw [this]

/-- Witness of C10: a translucent pixel is matched by an opaque key, and the
same mapping with other alpha bytes gives the same image. -/
theorem recolorImage_lookup_by_rgb_witness :
    (∀ x y, x < 2 → y < 1 →
        (recolorImage ⟨2, 1, [[0x80112233, 0x01445566]]⟩ [(0xFF112233, 0xFFAABBCC)]).pixel x y =
          match ([(0xFF112233, 0xFFAABBCC)] : ColorMap).find? (fun e => decide (rgbOf e.1
              = rgbOf ((⟨2, 1, [[0x80112233, 0x01445566]]⟩ : QImage).pixel x y))) with
          | some e => qAlpha ((⟨2, 1, [[0x80112233, 0x01445566]]⟩ : QImage).pixel x y) * 2 ^ 24
              + e.2 % 2 ^ 24
          | none => (⟨2, 1, [[0x80112233, 0x01445566]]⟩ : QImage).pixel x y) ∧
      ∀ other : ColorMap,
        (other.map fun e => (rgbOf e.1, rgbOf e.2)).Perm
            (([(0xFF112233, 0xFFAABBCC)] : ColorMap).map fun e => (rgbOf e.1, rgbOf e.2)) →
          recolorImage ⟨2, 1, [[0x80112233, 0x01445566]]⟩ other
            = recolorImage ⟨2, 1, [[0x80112233, 0x01445566]]⟩ [(0xFF112233, 0xFFAABBCC)] :=
  recolorImage_lookup_by_rgb ⟨2, 1, [[0x80112233, 0x01445566]]⟩ [(0xFF112233, 0xFFAABBCC)]
    (by simp [QImage.WellFormed]) (by decide)

/-! ## Lemmas: `generateColorMap` -/

theorem generateColorMap_loop (src tgt : ColorList) (k : Nat)
    (hk : k ≤ min src.length tgt.length) (acc : ColorMap) :
    (List.range k).foldlM
        (fun (mapRgb : ColorMap) i =>
          (src[i]?).bind fun key => (tgt[i]?).map fun value => mapRgb.insert key value) acc
      = some (((src.zip tgt).take k).foldl insertEntry acc) := by
  induction k with
  | zero => rfl
  | succ k ih =>
    have h1 : k < src.length := by omega
    have h2 : k < tgt.length := by omega
    have hz : k < (src.zip tgt).length := by simp; omega
    rw [List.range_succ, List.foldlM_append, ih (by omega), List.take_succ,
      List.getElem?_eq_getElem hz]
    simp [List.getElem?_eq_getElem h1, List.getElem?_eq_getElem h2, List.foldl_append,
      insertEntry]

theorem generateColorMap_eq (src tgt : ColorList) :
    generateColorMap src tgt = some ((src.zip tgt).foldl insertEntry []) := by
  unfold generateColorMap
  simp only
  rw [generateColorMap_loop src tgt _ (Nat.le_refl _) []]
  have : (src.zip tgt).length = min src.length tgt.length := List.length_zip ..
  rw [← this, List.take_length]

theorem find_foldl_insertEntry_of_no_key (zs : List (QRgb × QRgb)) (acc : ColorMap) (key : Nat)
    (h : ∀ e ∈ zs, e.1 ≠ key) : (zs.foldl insertEntry acc).find key = acc.find key := by
  induction zs generalizing acc with
  | nil => rfl
  | cons e rest ih =>
    rw [List.foldl_cons, ih _ (fun e1 h1 => h e1 (List.mem_cons_of_mem _ h1)), insertEntry,
      ColorMap.find_insert]
    have := h e (List.mem_cons_self _ _)
    simp [Ne.symm this]

theorem find_foldl_insertEntry_last (l1 l2 : List (QRgb × QRgb)) (acc : ColorMap) (k v : Nat)
    (h : ∀ e ∈ l2, e.1 ≠ k) :
    ((l1 ++ (k, v) :: l2).foldl insertEntry acc).find k = some v := by
  rw [List.foldl_append, List.foldl_cons, find_foldl_insertEntry_of_no_key _ _ _ h, insertEntry,
    ColorMap.find_insert]
  simp

namespace ColorMap

theorem mem_keys_insert (m : ColorMap) (k v key : Nat) :
    key ∈ (m.insert k v).keys ↔ key = k ∨ key ∈ m.keys := by
  induction m with
  | nil => simp [insert, keys]
  | cons e rest ih =>
    obtain ⟨k0, v0⟩ := e
    simp only [keys] at ih
    simp only [insert]
    by_cases h1 : k < k0
    · simp [keys, h1]
    · by_cases h2 : k = k0
      · subst h2
        simp [keys]
      · simp only [h1, h2, if_false, keys, List.map_cons, List.mem_cons, ih]
        tauto

theorem sorted_insert (m : ColorMap) (k v : Nat) (h : m.keys.Pairwise (· < ·)) :
    (m.insert k v).keys.Pairwise (· < ·) := by
  induction m with
  | nil => simp [insert, keys]
  | cons e rest ih =>
    obtain ⟨k0, v0⟩ := e
    simp only [keys, List.map_cons, List.pairwise_cons] at h
    simp only [insert]
    by_cases h1 : k < k0
    · simp only [h1, if_true, keys, List.map_cons, List.pairwise_cons, List.mem_cons]
      refine ⟨?_, h⟩
      rintro a (rfl | ha)
      · exact h1
      · exact Nat.lt_trans h1 (h.1 a ha)
    · by_cases h2 : k = k0
      · subst h2
        simp only [h1, if_false, if_true, keys, List.map_cons, List.pairwise_cons]
        exact h
      · simp only [h1, h2, if_false, keys, List.map_cons, List.pairwise_cons]
        refine ⟨?_, ih h.2⟩
        intro a ha
        rcases (mem_keys_insert rest k v a).mp ha with rfl | ha
        · exact Nat.lt_of_le_of_ne (Nat.le_of_not_lt h1) (fun h => h2 h.symm)
        · exact h.1 a ha

theorem length_eq_card (m : ColorMap) (hs : m.keys.Pairwise (· < ·)) (l : List Nat)
    (hmem : ∀ k, k ∈ m.keys ↔ k ∈ l) : m.length = l.toFinset.card := by
  have hnd : m.keys.Nodup := hs.imp (fun h => Nat.ne_of_lt h)
  have h1 : m.length = m.keys.length := by simp [keys]
  rw [h1, ← List.toFinset_card_of_nodup hnd]
  congr 1
  ext k
  simp [hmem]

end ColorMap

theorem mem_keys_foldl_insertEntry (zs : List (QRgb × QRgb)) (acc : ColorMap) (key : Nat) :
    key ∈ (zs.foldl insertEntry acc).keys ↔ key ∈ zs.map Prod.fst ∨ key ∈ acc.keys := by
  induction zs generalizing acc with
  | nil => simp
  | cons e rest ih =>
    rw [List.foldl_cons, ih, insertEntry, ColorMap.mem_keys_insert]
    simp only [List.map_cons, List.mem_cons]
    tauto

theorem sorted_foldl_insertEntry (zs : List (QRgb × QRgb)) (acc : ColorMap)
    (h : acc.keys.Pairwise (· < ·)) : (zs.foldl insertEntry acc).keys.Pairwise (· < ·) := by
  induction zs generalizing acc with
  | nil => exact h
  | cons e rest ih =>
    rw [List.foldl_cons]
    exact ih _ (ColorMap.sorted_insert acc e.1 e.2 h)

theorem map_fst_zip_eq_take (src tgt : ColorList) :
    (src.zip tgt).map Prod.fst = src.take (min src.length tgt.length) := by
  induction src generalizing tgt with
  | nil => simp
  | cons a rest ih =>
    cases tgt with
    | nil => simp
    | cons b tl =>
      simp only [List.zip_cons_cons, List.map_cons, List.length_cons, ih tl]
      rw [Nat.succ_min_succ, List.take_succ_cons]

theorem find_zip_of_last (src tgt : ColorList) (i : Nat) (hs : i < src.length)
    (ht : i < tgt.length)
    (hlast : ∀ j (hj : j < src.length), i < j → j < tgt.length → src[j] ≠ src[i]) :
    ((src.zip tgt).foldl insertEntry []).find src[i] = some tgt[i] := by
  have hz : i < (src.zip tgt).length := by simp; omega
  have hsplit : src.zip tgt
      = (src.zip tgt).take i ++ (src[i], tgt[i]) :: (src.zip tgt).drop (i + 1) := by
    conv_lhs => rw [← List.take_append_drop i (src.zip tgt), List.drop_eq_getElem_cons hz]
    simp
  rw [hsplit]
  apply find_foldl_insertEntry_last
  intro e he
  obtain ⟨j, hj, rfl⟩ := List.mem_iff_getElem.mp he
  rw [List.length_drop, List.length_zip] at hj
  simp only [List.getElem_drop, List.getElem_zip]
  exact hlast (i + 1 + j) (by omega) (by omega) (by omega)

/-! ## Theorems: `generateColorMap` -/

/-- C4, counterexample: with the source palette `[c, c]` and the target palette
`[d1, d2]` the returned mapping does not send `source[0]` to `target[0]`: the
assignment for index 1 overwrites the entry, and `c` is sent to `d2`. -/
theorem generateColorMap_positional_counterexample :
    generateColorMap [0xFF0000FF, 0xFF0000FF] [0xFF111111, 0xFF222222]
        = some [(0xFF0000FF, 0xFF222222)] ∧
      ¬ ∃ m, generateColorMap [0xFF0000FF, 0xFF0000FF] [0xFF111111, 0xFF222222] = some m ∧
        m.find ([0xFF0000FF, 0xFF0000FF] : ColorList)[0]
          = some ([0xFF111111, 0xFF222222] : ColorList)[0] := by
  have h : generateColorMap [0xFF0000FF, 0xFF0000FF] [0xFF111111, 0xFF222222]
      = some [(0xFF0000FF, 0xFF222222)] := by decide
  refine ⟨h, ?_⟩
  rintro ⟨m, hm, hfind⟩
  rw [h] at hm
  cases hm
  revert hfind
  decide

/-- C4, amended: `generateColorMap` is positional up to overwriting.  For every
index `i` below both lengths such that the source colour `source[i]` does not
occur again at a later index below both lengths, the returned mapping sends
`source[i]` to `target[i]`. -/
theorem generateColorMap_positional (source target : ColorList) (i : Nat)
    (hs : i < source.length) (ht : i < target.length)
    (hlast : ∀ j (hj : j < source.length), i < j → j < target.length → source[j] ≠ source[i]) :
    ∃ m, generateColorMap source target = some m ∧ m.find source[i] = some target[i] :=
  ⟨_, generateColorMap_eq source target, find_zip_of_last source target i hs ht hlast⟩

/-- Witness of amended C4: index 0 of a source palette without repetition. -/
theorem generateColorMap_positional_witness :
    ∃ m, generateColorMap [0xFF0000FF, 0xFF00FF00, 0xFFFF0000] [0xFF111111, 0xFF222222] = some m ∧
      m.find ([0xFF0000FF, 0xFF00FF00, 0xFFFF0000] : ColorList)[0]
        = some ([0xFF111111, 0xFF222222] : ColorList)[0] :=
  generateColorMap_positional [0xFF0000FF, 0xFF00FF00, 0xFFFF0000] [0xFF111111, 0xFF222222] 0
    (by decide) (by decide) (by decide)

/-- C5: `generateColorMap` truncates silently to the shorter palette.  With
`n = min(len(S), len(T))` it returns a mapping for every input, the same as
for the first `n` colours of each palette; the keys of the result are exactly
the colours `S[0..n-1]`; when these are pairwise distinct the result has
exactly `n` entries and sends each `S[i]` to `T[i]`; and for distinct `c1`,
`c2` the palettes `[c1, c2, c3]` and `[d1, d2]` give exactly `{c1: d1, c2: d2}`. -/
theorem generateColorMap_truncates (S T : ColorList) :
    generateColorMap S T
        = generateColorMap (S.take (min S.length T.length)) (T.take (min S.length T.length)) ∧
      (∃ m, generateColorMap S T = some m ∧
        (∀ k, k ∈ m.keys ↔ k ∈ S.take (min S.length T.length)) ∧
        ((S.take (min S.length T.length)).Nodup →
          m.length = min S.length T.length ∧
            ∀ i (hs : i < S.length) (ht : i < T.length), m.find S[i] = some T[i])) ∧
      ∀ c1 c2 c3 d1 d2 : QRgb, c1 ≠ c2 →
        ∃ m, generateColorMap [c1, c2, c3] [d1, d2] = some m ∧ m.length = 2 ∧
          m.find c1 = some d1 ∧ m.find c2 = some d2 ∧
          ∀ k, k ≠ c1 → k ≠ c2 → m.find k = none := by
  refine ⟨?_, ?_, ?_⟩
  · rw [generateColorMap_eq, generateColorMap_eq, ← List.zip_eq_zip_take_min]
  · refine ⟨_, generateColorMap_eq S T, ?_, ?_⟩
    · intro k
      rw [mem_keys_foldl_insertEntry, map_fst_zip_eq_take]
      simp [ColorMap.keys]
    · intro hnd
      constructor
      · rw [ColorMap.length_eq_card _ (sorted_foldl_insertEntry _ [] (by simp [ColorMap.keys]))
          (S.take (min S.length T.length)), List.toFinset_card_of_nodup hnd]
        · simp
        · intro k
          rw [mem_keys_foldl_insertEntry, map_fst_zip_eq_take]
          simp [ColorMap.keys]
      · intro i hs ht
        apply find_zip_of_last S T i hs ht
        intro j hj hij hjt heq
        have h1 : (S.take (min S.length T.length))[i]? = (S.take (min S.length T.length))[j]? := by
          rw [List.getElem?_take_of_lt (by omega), List.getElem?_take_of_lt (by omega),
            List.getElem?_eq_getElem hj, List.getElem?_eq_getElem hs, heq]
        have hlen : j < (S.take (min S.length T.length)).length := by
          rw [List.length_take]; omega
        exact List.nodup_iff_getElem?_ne_getElem?.mp hnd i j hij hlen h1
  · intro c1 c2 c3 d1 d2 hne
    refine ⟨_, generateColorMap_eq _ _, ?_⟩
    simp only [List.zip_cons_cons, List.zip_nil_right, List.foldl_cons, List.foldl_nil,
      insertEntry, ColorMap.insert]
    have hne2 : ¬ c2 = c1 := fun h => hne h.symm
    by_cases h : c2 < c1
    · simp only [h, if_true, ColorMap.find, List.length_cons, List.length_nil]
      refine ⟨trivial, ?_, ?_, ?_⟩
      · simp [hne]
      · simp
      · intro k h1 h2
        simp [h1, h2]
    · simp only [h, hne2, if_false, ColorMap.find, List.length_cons, List.length_nil]
      refine ⟨trivial, ?_, ?_, ?_⟩
      · simp
      · simp [hne2]
      · intro k h1 h2
        simp [h1, h2]

/-! ## Lemmas: single-precision arithmetic -/

namespace F32

theorem shiftStep_inv (q : Nat) (p : Nat × Nat) (k : Nat)
    (h : p.1 = q / 2 ^ p.2 ∧ (p.2 = 0 ∨ 2 ^ 23 ≤ p.1)) :
    (shiftStep p k).1 = q / 2 ^ (shiftStep p k).2 ∧
      ((shiftStep p k).2 = 0 ∨ 2 ^ 23 ≤ (shiftStep p k).1) := by
  unfold shiftStep
  split_ifs with hc
  · refine ⟨?_, Or.inr ?_⟩
    · show p.1 / 2 ^ k = q / 2 ^ (p.2 + k)
      rw [h.1, Nat.div_div_eq_div_mul, ← pow_add]
    · show 2 ^ 23 ≤ p.1 / 2 ^ k
      rw [Nat.le_div_iff_mul_le (by positivity), ← pow_add]
      exact hc
  · exact h

theorem foldl_shiftStep_inv (q : Nat) (ks : List Nat) (p : Nat × Nat)
    (h : p.1 = q / 2 ^ p.2 ∧ (p.2 = 0 ∨ 2 ^ 23 ≤ p.1)) :
    (ks.foldl shiftStep p).1 = q / 2 ^ (ks.foldl shiftStep p).2 ∧
      ((ks.foldl shiftStep p).2 = 0 ∨ 2 ^ 23 ≤ (ks.foldl shiftStep p).1) := by
  induction ks generalizing p with
  | nil => exact h
  | cons k rest ih => exact ih _ (shiftStep_inv q p k h)

theorem ulpShift_spec (q : Nat) : ulpShift q = 0 ∨ 2 ^ 23 ≤ q / 2 ^ ulpShift q := by
  have h0 : ((q, 0) : Nat × Nat).1 = q / 2 ^ ((q, 0) : Nat × Nat).2 ∧
      (((q, 0) : Nat × Nat).2 = 0 ∨ 2 ^ 23 ≤ ((q, 0) : Nat × Nat).1) :=
    ⟨(Nat.div_one q).symm, Or.inl rfl⟩
  have h := foldl_shiftStep_inv q [128, 64, 32, 16, 8, 4, 2, 1] (q, 0) h0
  unfold ulpShift
  rw [← h.1]
  exact h.2

theorem ulpShift_le (q s0 : Nat) (h : q / 2 ^ s0 < 2 ^ 24) : ulpShift q ≤ s0 := by
  by_contra hgt
  have hlt : s0 + 1 ≤ ulpShift q := by omega
  rcases ulpShift_spec q with h0 | h1
  · omega
  · have h2 : q / 2 ^ ulpShift q ≤ q / 2 ^ (s0 + 1) :=
      Nat.div_le_div_left (Nat.pow_le_pow_right (by norm_num) hlt) (by positivity)
    have h3 : q / 2 ^ (s0 + 1) = q / 2 ^ s0 / 2 := by
      rw [pow_succ, Nat.div_div_eq_div_mul]
    have h4 : q / 2 ^ s0 / 2 < 2 ^ 23 := by
      have : (2 : Nat) ^ 24 = 2 ^ 23 * 2 := by norm_num
      rw [Nat.div_lt_iff_lt_mul (by norm_num), ← this]
      exact h
    omega

theorem roundMag_exact (v d s0 : Nat) (hd : 0 < d) (hdvd : 2 ^ s0 ∣ v)
    (hlt : v / 2 ^ s0 < 2 ^ 24) : roundMag (v * d) d = v := by
  unfold roundMag
  have hq : v * d / d = v := Nat.mul_div_cancel _ hd
  simp only [hq]
  have hs : ulpShift v ≤ s0 := ulpShift_le v s0 hlt
  generalize ulpShift v = s at hs ⊢
  obtain ⟨w, hw⟩ := (Nat.pow_dvd_pow 2 hs).trans hdvd
  have hu : 0 < d * 2 ^ s := by positivity
  have ha : v * d = w * (d * 2 ^ s) := by rw [hw]; ring
  rw [ha, Nat.mul_div_cancel _ hu, Nat.mul_mod_left]
  simp only [Nat.mul_zero, hu, if_true]
  rw [hw]; ring

theorem roundNearestEven_exact (z : Int) (d : Nat) (hd : 0 < d) (hz : Representable z) :
    roundNearestEven (z * d) d = ⟨z⟩ := by
  obtain ⟨s0, hdvd, hlt⟩ := hz
  unfold roundNearestEven
  have hd1 : (0 : Int) < d := by exact_mod_cast hd
  have hmag : roundMag (z * d).natAbs d = z.natAbs := by
    rw [Int.natAbs_mul, Int.natAbs_ofNat]
    exact roundMag_exact _ d s0 hd hdvd hlt
  rw [hmag]
  refine congrArg F32.mk ?_
  by_cases hneg : z < 0
  · have : z * d < 0 := Int.mul_neg_of_neg_of_pos hneg hd1
    rw [if_pos this]
    omega
  · have : ¬ z * d < 0 := by
      have := Int.mul_nonneg (Int.not_lt.mp hneg) (Int.le_of_lt hd1)
      omega
    rw [if_neg this]
    omega

theorem representable_int (k : Int) (hk : k.natAbs < 2 ^ 24) : Representable (k * 2 ^ 149) := by
  have h2 : ((2 : Int) ^ 149).natAbs = 2 ^ 149 := by rw [Int.natAbs_pow]; rfl
  refine ⟨149, ?_, ?_⟩ <;> rw [Int.natAbs_mul, h2]
  · exact Nat.dvd_mul_left _ _
  · rw [Nat.mul_div_cancel _ (by positivity)]
    exact hk

theorem roundNearestEven_one (z : Int) (hz : Representable z) : roundNearestEven z 1 = ⟨z⟩ := by
  have h := roundNearestEven_exact z 1 (by norm_num) hz
  rw [Nat.cast_one, mul_one] at h
  exact h

theorem ofInt_eq (i : Int) (hi : i.natAbs < 2 ^ 24) : ofInt i = ⟨i * 2 ^ 149⟩ :=
  roundNearestEven_one _ (representable_int i hi)

theorem add_exact (x y : F32) (h : Representable (x.units + y.units)) :
    add x y = ⟨x.units + y.units⟩ :=
  roundNearestEven_one _ h

theorem sub_exact (x y : F32) (h : Representable (x.units - y.units)) :
    sub x y = ⟨x.units - y.units⟩ :=
  roundNearestEven_one _ h

theorem mul_one_left (y : F32) (h : Representable y.units) : mul ⟨2 ^ 149⟩ y = y := by
  have h1 := roundNearestEven_exact y.units (2 ^ 149) (by positivity) h
  unfold mul
  rw [Int.mul_comm]
  have h2 : ((2 ^ 149 : Nat) : Int) = 2 ^ 149 := by norm_cast
  rw [h2] at h1
  exact h1

theorem roundMag_zero (d : Nat) : roundMag 0 d = 0 := by
  unfold roundMag
  have h : ulpShift (0 / d) = 0 := by rw [Nat.zero_div]; rfl
  simp [h]

theorem roundNearestEven_zero (d : Nat) : roundNearestEven 0 d = ⟨0⟩ := by
  unfold roundNearestEven
  simp [roundMag_zero]

theorem mul_zero_left (y : F32) : mul ⟨0⟩ y = ⟨0⟩ := by
  unfold mul
  rw [Int.zero_mul]
  exact roundNearestEven_zero _

theorem div_self (x : F32) (hx : 0 < x.units) : div x x = some ⟨2 ^ 149⟩ := by
  unfold div
  have h1 : x.units ≠ 0 := by omega
  have h2 : ¬ x.units < 0 := by omega
  rw [if_neg h1, if_neg h2]
  have h3 : ((x.units.natAbs : Nat) : Int) = x.units := by omega
  have hrep : Representable (2 ^ 149) := by
    have := representable_int 1 (by norm_num)
    rw [Int.one_mul] at this
    exact this
  have h4 := roundNearestEven_exact (2 ^ 149) x.units.natAbs (by omega) hrep
  rw [h3, Int.mul_comm] at h4
  rw [h4]

theorem roundMag_le (a d w t : Nat) (hd : 0 < d) (hw : w < 2 ^ 24)
    (hle : a ≤ w * 2 ^ t * d) : roundMag a d ≤ w * 2 ^ t := by
  have hq : a / d ≤ w * 2 ^ t := Nat.div_le_of_le_mul (by rw [Nat.mul_comm]; exact hle)
  have hdvd : 2 ^ ulpShift (a / d) ∣ w * 2 ^ t := by
    rcases ulpShift_spec (a / d) with h0 | h1
    · rw [h0]; exact one_dvd _
    · have h2 : 2 ^ 23 * 2 ^ ulpShift (a / d) ≤ a / d :=
        (Nat.le_div_iff_mul_le (by positivity)).mp h1
      have h3 : 2 ^ (23 + ulpShift (a / d)) < 2 ^ (24 + t) := by
        rw [pow_add, pow_add]
        calc 2 ^ 23 * 2 ^ ulpShift (a / d) ≤ w * 2 ^ t := le_trans h2 hq
          _ < 2 ^ 24 * 2 ^ t := Nat.mul_lt_mul_of_pos_right hw (by positivity)
      have h4 : 23 + ulpShift (a / d) < 24 + t := (Nat.pow_lt_pow_iff_right (by norm_num)).mp h3
      exact Dvd.dvd.mul_left (Nat.pow_dvd_pow 2 (by omega)) w
  unfold roundMag
  simp only
  generalize ulpShift (a / d) = s at hdvd ⊢
  obtain ⟨c, hc⟩ := hdvd
  rw [hc] at hle ⊢
  have hu : 0 < d * 2 ^ s := by positivity
  have hle2 : a ≤ c * (d * 2 ^ s) := by
    calc a ≤ 2 ^ s * c * d := hle
      _ = c * (d * 2 ^ s) := by ring
  have hm : a / (d * 2 ^ s) ≤ c := Nat.div_le_of_le_mul (by rw [Nat.mul_comm]; exact hle2)
  have hdm := Nat.div_add_mod a (d * 2 ^ s)
  generalize d * 2 ^ s = u at *
  generalize a / u = m at *
  generalize a % u = r at *
  rw [Nat.mul_comm (2 ^ s) c]
  apply Nat.mul_le_mul_right
  rcases Nat.lt_or_ge m c with hlt | hge
  · split_ifs <;> omega
  · have hmc : m = c := by omega
    subst hmc
    have hr : r = 0 := by
      rw [Nat.mul_comm] at hle2
      omega
    subst hr
    simp [hu]

theorem roundMag_err (a d : Nat) :
    2 * (roundMag a d * d) ≤ 2 * a + d * 2 ^ ulpShift (a / d) := by
  unfold roundMag
  simp only
  generalize ulpShift (a / d) = s
  have hdm := Nat.div_add_mod a (d * 2 ^ s)
  have key : ∀ x : Nat, x * 2 ^ s * d = (d * 2 ^ s) * x := fun x => by ring
  rw [key]
  generalize d * 2 ^ s = u at *
  generalize a / u = m at *
  generalize a % u = r at *
  split_ifs with h1 h2 h3
  · omega
  · rw [Nat.mul_add, Nat.mul_one]; omega
  · omega
  · rw [Nat.mul_add, Nat.mul_one]; omega

theorem units_roundNearestEven_of_nonneg (n : Int) (d : Nat) (hn : 0 ≤ n) :
    (roundNearestEven n d).units = (roundMag n.natAbs d : Int) := by
  unfold roundNearestEven
  have : ¬ n < 0 := by omega
  simp only [this, if_false]

theorem natAbs_mul_cast (k : Int) (d : Nat) : (k * (d : Int)).natAbs = k.natAbs * d := by
  rw [Int.natAbs_mul, Int.natAbs_ofNat]

/-- Rounding a non-negative quotient gives a non-negative value. -/
theorem rne_nonneg (n : Int) (d : Nat) (hn : 0 ≤ n) : 0 ≤ (roundNearestEven n d).units := by
  rw [units_roundNearestEven_of_nonneg n d hn]
  exact Int.ofNat_nonneg _

/-- Rounding never passes a binary32 value above the quotient. -/
theorem rne_le (k : Int) (d w t : Nat) (hk : 0 ≤ k) (hd : 0 < d) (hw : w < 2 ^ 24)
    (hle : k ≤ (w * 2 ^ t : Nat)) : (roundNearestEven (k * d) d).units ≤ (w * 2 ^ t : Nat) := by
  have hd1 : (0 : Int) ≤ d := Int.ofNat_nonneg d
  rw [units_roundNearestEven_of_nonneg _ d (Int.mul_nonneg hk hd1), natAbs_mul_cast k d]
  have h1 : k.natAbs ≤ w * 2 ^ t := by omega
  exact Int.ofNat_le.mpr (roundMag_le _ d w t hd hw (Nat.mul_le_mul_right d h1))

/-- Rounding a quotient `n / d` never passes a binary32 value above it. -/
theorem rne_le_of_le_mul (n : Int) (d w t : Nat) (hn : 0 ≤ n) (hd : 0 < d) (hw : w < 2 ^ 24)
    (hle : n ≤ (w * 2 ^ t : Nat) * (d : Int)) :
    (roundNearestEven n d).units ≤ (w * 2 ^ t : Nat) := by
  rw [units_roundNearestEven_of_nonneg n d hn]
  have h1 : ((n.natAbs : Nat) : Int) ≤ ((w * 2 ^ t * d : Nat) : Int) := by
    rw [Int.natAbs_of_nonneg hn]
    push_cast at hle ⊢
    exact hle
  exact Int.ofNat_le.mpr (roundMag_le _ d w t hd hw (Int.ofNat_le.mp h1))

/-- Rounding moves a quotient below `2 ^ (24 + s0)` by at most half of `2 ^ s0`. -/
theorem rne_err (k : Int) (d s0 : Nat) (hk : 0 ≤ k) (hd : 0 < d) (hlt : k < 2 ^ (24 + s0)) :
    2 * (roundNearestEven (k * d) d).units ≤ 2 * k + 2 ^ s0 := by
  have hd1 : (0 : Int) ≤ d := Int.ofNat_nonneg d
  rw [units_roundNearestEven_of_nonneg _ d (Int.mul_nonneg hk hd1), natAbs_mul_cast k d]
  have hk1 : (k.natAbs : Int) = k := Int.natAbs_of_nonneg hk
  have hlt1 : k.natAbs < 2 ^ (24 + s0) := by
    have : ((k.natAbs : Nat) : Int) < ((2 ^ (24 + s0) : Nat) : Int) := by
      rw [hk1]; push_cast; exact hlt
    exact Int.ofNat_lt.mp this
  have hs : ulpShift (k.natAbs * d / d) ≤ s0 := by
    rw [Nat.mul_div_cancel _ hd]
    apply ulpShift_le
    rw [Nat.div_lt_iff_lt_mul (by positivity), ← pow_add]
    exact hlt1
  have herr := roundMag_err (k.natAbs * d) d
  have hpow : d * 2 ^ ulpShift (k.natAbs * d / d) ≤ d * 2 ^ s0 :=
    Nat.mul_le_mul_left d (Nat.pow_le_pow_right (by norm_num) hs)
  have h2 : 2 * roundMag (k.natAbs * d) d * d ≤ (2 * k.natAbs + 2 ^ s0) * d := by
    calc 2 * roundMag (k.natAbs * d) d * d = 2 * (roundMag (k.natAbs * d) d * d) := by ring
      _ ≤ 2 * (k.natAbs * d) + d * 2 ^ s0 := le_trans herr (Nat.add_le_add_left hpow _)
      _ = (2 * k.natAbs + 2 ^ s0) * d := by ring
  have h3 : 2 * roundMag (k.natAbs * d) d ≤ 2 * k.natAbs + 2 ^ s0 :=
    Nat.le_of_mul_le_mul_right h2 hd
  have h4 : ((2 * roundMag (k.natAbs * d) d : Nat) : Int) ≤ ((2 * k.natAbs + 2 ^ s0 : Nat) : Int) :=
    Int.ofNat_le.mpr h3
  push_cast at h4
  rw [abs_of_nonneg hk] at h4
  exact h4

theorem rne_one_nonneg (n : Int) (hn : 0 ≤ n) : 0 ≤ (roundNearestEven n 1).units :=
  rne_nonneg n 1 hn

theorem rne_one_le (n : Int) (w t : Nat) (hn : 0 ≤ n) (hw : w < 2 ^ 24)
    (hle : n ≤ (w * 2 ^ t : Nat)) : (roundNearestEven n 1).units ≤ (w * 2 ^ t : Nat) := by
  have h := rne_le n 1 w t hn (by norm_num) hw hle
  rw [Nat.cast_one, mul_one] at h
  exact h

theorem rne_one_err (n : Int) (s0 : Nat) (hn : 0 ≤ n) (hlt : n < 2 ^ (24 + s0)) :
    2 * (roundNearestEven n 1).units ≤ 2 * n + 2 ^ s0 := by
  have h := rne_err n 1 s0 hn (by norm_num) hlt
  rw [Nat.cast_one, mul_one] at h
  exact h

/-- The product of a float in [0, 1] with an 8-bit integer: at most half a unit
in the last place (of the binade below 256) above the exact product. -/
theorem mul_byte_bounds (x : F32) (c : Int) (hx0 : 0 ≤ x.units) (hx1 : x.units ≤ 2 ^ 149)
    (hc0 : 0 ≤ c) (hc1 : c ≤ 255) :
    0 ≤ (mul x ⟨c * 2 ^ 149⟩).units ∧
      2 * (mul x ⟨c * 2 ^ 149⟩).units ≤ 2 * (x.units * c) + 2 ^ 133 := by
  have hcast : ((2 ^ 149 : Nat) : Int) = 2 ^ 149 := by norm_cast
  have hprod : x.units * (c * 2 ^ 149) = x.units * c * ((2 ^ 149 : Nat) : Int) := by
    rw [hcast]; ring
  have hk0 : 0 ≤ x.units * c := Int.mul_nonneg hx0 hc0
  have hk1 : x.units * c ≤ 2 ^ 149 * 255 := by
    calc x.units * c ≤ 2 ^ 149 * c := Int.mul_le_mul_of_nonneg_right hx1 hc0
      _ ≤ 2 ^ 149 * 255 := Int.mul_le_mul_of_nonneg_left hc1 (by positivity)
  unfold mul
  show 0 ≤ (roundNearestEven (x.units * (c * 2 ^ 149)) (2 ^ 149)).units ∧
    2 * (roundNearestEven (x.units * (c * 2 ^ 149)) (2 ^ 149)).units ≤ 2 * (x.units * c) + 2 ^ 133
  rw [hprod]
  refine ⟨rne_nonneg _ _ (Int.mul_nonneg hk0 (by positivity)), ?_⟩
  apply rne_err _ _ 133 hk0 (by positivity)
  calc x.units * c ≤ 2 ^ 149 * 255 := hk1
    _ < 2 ^ (24 + 133) := by norm_num

end F32

/-! ## Lemmas: `applyToPalette` -/

theorem qRed_le (c : Nat) : qRed c ≤ 255 := by
  simp only [qRed, and_ff_eq_mod]; omega

theorem qGreen_le (c : Nat) : qGreen c ≤ 255 := by
  simp only [qGreen, and_ff_eq_mod]; omega

theorem qBlue_le (c : Nat) : qBlue c ≤ 255 := by
  simp only [qBlue, and_ff_eq_mod]; omega

theorem channelAvg_bounds (c : Nat) : 0 ≤ channelAvg c ∧ channelAvg c ≤ 255 := by
  have h1 := qRed_le c
  have h2 := qGreen_le c
  have h3 := qBlue_le c
  unfold channelAvg
  rw [Int.tdiv_eq_ediv (by omega) (by norm_num)]
  omega

theorem referenceAvg_bounds (palette : ColorList) :
    0 ≤ referenceAvg palette ∧ referenceAvg palette ≤ 255 :=
  channelAvg_bounds _

/-- The fallback branch needs `referenceAvg = 255` and `oldAvg > 255`. -/
theorem selectBranch_ne_fallback (referenceAvg oldAvg : Int) (hold : oldAvg ≤ 255) :
    selectBranch referenceAvg oldAvg ≠ Branch.fallback := by
  unfold selectBranch
  split_ifs with h1 h2
  · simp
  · simp
  · exfalso
    apply h1
    constructor <;> omega

theorem ofInt_byte (i : Int) (h0 : 0 ≤ i) (h1 : i ≤ 255) : F32.ofInt i = ⟨i * 2 ^ 149⟩ :=
  F32.ofInt_eq i (by omega)

theorem sub_255_byte (i : Int) (h0 : 0 ≤ i) (h1 : i ≤ 255) :
    F32.sub (F32.ofInt 255) (F32.ofInt i) = ⟨(255 - i) * 2 ^ 149⟩ := by
  rw [ofInt_byte 255 (by norm_num) (by norm_num), ofInt_byte i h0 h1, F32.sub_exact]
  · refine congrArg F32.mk ?_
    show 255 * 2 ^ 149 - i * 2 ^ 149 = (255 - i) * 2 ^ 149
    ring
  · show F32.Representable (255 * 2 ^ 149 - i * 2 ^ 149)
    have : (255 : Int) * 2 ^ 149 - i * 2 ^ 149 = (255 - i) * 2 ^ 149 := by ring
    rw [this]
    exact F32.representable_int _ (by omega)

/-- The ratio of the branch taken is a finite number. -/
theorem branchRatio_isSome (referenceAvg oldAvg : Int) (hr0 : 0 ≤ referenceAvg)
    (hr1 : referenceAvg ≤ 255) (ho0 : 0 ≤ oldAvg) (ho1 : oldAvg ≤ 255) :
    ∃ ratio, branchRatio referenceAvg oldAvg (selectBranch referenceAvg oldAvg) = some ratio := by
  unfold selectBranch
  split_ifs with h1 h2
  · simp only [branchRatio, F32.div, ofInt_byte referenceAvg hr0 hr1]
    have hpos : (0 : Int) < 2 ^ 149 := by positivity
    have : referenceAvg * 2 ^ 149 ≠ 0 := Int.mul_ne_zero h1.1 (by omega)
    simp only [this, if_false]
    exact ⟨_, rfl⟩
  · simp only [branchRatio, F32.div, sub_255_byte referenceAvg hr0 hr1]
    have hpos : (0 : Int) < 2 ^ 149 := by positivity
    have : (255 - referenceAvg) * 2 ^ 149 ≠ 0 := Int.mul_ne_zero h2 (by omega)
    simp only [this, if_false]
    exact ⟨_, rfl⟩
  · exfalso
    apply h1
    constructor <;> omega

theorem newColor_isSome (self : ColorRange) (referenceAvg : Int) (color : Nat)
    (hr0 : 0 ≤ referenceAvg) (hr1 : referenceAvg ≤ 255) :
    ∃ value, newColor self referenceAvg color = some value := by
  obtain ⟨ho0, ho1⟩ := channelAvg_bounds color
  obtain ⟨ratio, hratio⟩ := branchRatio_isSome referenceAvg (channelAvg color) hr0 hr1 ho0 ho1
  have hne := selectBranch_ne_fallback referenceAvg (channelAvg color) ho1
  unfold newColor
  simp only
  cases hb : selectBranch referenceAvg (channelAvg color) with
  | minMid => rw [hb] at hratio; simp only [hratio, Option.map_some']; exact ⟨_, rfl⟩
  | midMax => rw [hb] at hratio; simp only [hratio, Option.map_some']; exact ⟨_, rfl⟩
  | fallback => exact absurd hb hne

theorem foldlM_insert_eq (f : QRgb → Option QRgb) (g : QRgb → QRgb)
    (h : ∀ c, f c = some (g c)) (palette : ColorList) (acc : ColorMap) :
    palette.foldlM (fun (mapRgb : ColorMap) color => (f color).map fun value =>
        mapRgb.insert color value) acc
      = some ((palette.map fun c => (c, g c)).foldl insertEntry acc) := by
  induction palette generalizing acc with
  | nil => rfl
  | cons c rest ih =>
    rw [List.foldlM_cons, h c]
    simp only [Option.map_some', Option.bind_eq_bind, Option.some_bind, ih, List.map_cons,
      List.foldl_cons, insertEntry]

theorem newColor_eq_storedColor (self : ColorRange) (palette : ColorList) (color : Nat) :
    newColor self (referenceAvg palette) color
      = some (storedColor self (referenceAvg palette) color) := by
  obtain ⟨hr0, hr1⟩ := referenceAvg_bounds palette
  obtain ⟨v, hv⟩ := newColor_isSome self (referenceAvg palette) color hr0 hr1
  simp [storedColor, hv]

theorem applyToPalette_eq (self : ColorRange) (palette : ColorList) :
    applyToPalette self palette
      = some ((palette.map fun c => (c, storedColor self (referenceAvg palette) c)).foldl
          insertEntry []) :=
  foldlM_insert_eq _ _ (newColor_eq_storedColor self palette) palette []

theorem find_foldl_insertEntry_graph (g : QRgb → QRgb) (l : List QRgb) (acc : ColorMap)
    (c : Nat) (hc : c ∈ l) :
    ((l.map fun c => (c, g c)).foldl insertEntry acc).find c = some (g c) := by
  induction l generalizing acc with
  | nil => simp at hc
  | cons a rest ih =>
    rw [List.map_cons, List.foldl_cons]
    by_cases hrest : c ∈ rest
    · exact ih _ hrest
    · have hca : c = a := by
        rcases List.mem_cons.mp hc with h | h
        · exact h
        · exact absurd h hrest
      subst hca
      rw [find_foldl_insertEntry_of_no_key, insertEntry, ColorMap.find_insert]
      · simp
      · intro e he heq
        obtain ⟨c1, hc1, rfl⟩ := List.mem_map.mp he
        exact hrest (heq ▸ hc1)

theorem qRgb_eq (r g b : Int) (hr0 : 0 ≤ r) (hr1 : r ≤ 255) (hg0 : 0 ≤ g) (hg1 : g ≤ 255)
    (hb0 : 0 ≤ b) (hb1 : b ≤ 255) :
    qRgb r g b = 0xFF000000 + r.toNat * 65536 + g.toNat * 256 + b.toNat := by
  have e1 : (r % 256).toNat = r.toNat := by omega
  have e2 : (g % 256).toNat = g.toNat := by omega
  have e3 : (b % 256).toNat = b.toNat := by omega
  have hr : r.toNat < 256 := by omega
  have hg : g.toNat < 256 := by omega
  have hb : b.toNat < 256 := by omega
  unfold qRgb
  rw [e1, e2, e3]
  generalize r.toNat = x at hr
  generalize g.toNat = y at hg
  generalize b.toNat = z at hb
  simp only [Nat.shiftLeft_eq]
  have s1 : 0xff * 2 ^ 24 ||| x * 2 ^ 16 = 2 ^ 16 * (0xff * 2 ^ 8 + x) := by
    have h := Nat.mul_add_lt_is_or (show x * 2 ^ 16 < 2 ^ 24 by omega) 0xff
    rw [Nat.mul_comm (2 ^ 24) 0xff] at h
    rw [← h]; ring
  have s2 : 2 ^ 16 * (0xff * 2 ^ 8 + x) ||| y * 2 ^ 8 = 2 ^ 8 * ((0xff * 2 ^ 8 + x) * 2 ^ 8 + y) := by
    have h := Nat.mul_add_lt_is_or (show y * 2 ^ 8 < 2 ^ 16 by omega) (0xff * 2 ^ 8 + x)
    rw [← h]; ring
  have s3 : 2 ^ 8 * ((0xff * 2 ^ 8 + x) * 2 ^ 8 + y) ||| z
      = 2 ^ 8 * ((0xff * 2 ^ 8 + x) * 2 ^ 8 + y) + z :=
    (Nat.mul_add_lt_is_or hb _).symm
  rw [s1, s2, s3]
  ring

theorem rgbOf_qRgb (r g b : Int) (hr0 : 0 ≤ r) (hr1 : r ≤ 255) (hg0 : 0 ≤ g) (hg1 : g ≤ 255)
    (hb0 : 0 ≤ b) (hb1 : b ≤ 255) :
    rgbOf (qRgb r g b) = (r.toNat, g.toNat, b.toNat) ∧ qAlpha (qRgb r g b) = 255 ∧
      qRgb r g b < 2 ^ 32 := by
  rw [qRgb_eq r g b hr0 hr1 hg0 hg1 hb0 hb1]
  have hr : r.toNat < 256 := by omega
  have hg : g.toNat < 256 := by omega
  have hb : b.toNat < 256 := by omega
  generalize r.toNat = x at hr
  generalize g.toNat = y at hg
  generalize b.toNat = z at hb
  simp only [rgbOf, qRed, qGreen, qBlue, qAlpha, Nat.shiftRight_eq_div_pow, and_ff_eq_mod,
    Prod.mk.injEq, Nat.reducePow]
  refine ⟨⟨?_, ?_, ?_⟩, ?_, ?_⟩
  · omega
  · omega
  · omega
  · omega
  · show (4278190080 + x * 65536 + y * 256 + z : Nat) < 4294967296
    omega

theorem qBound_byte (x : Int) : 0 ≤ qBound 0 x 255 ∧ qBound 0 x 255 ≤ 255 := by
  unfold qBound
  omega

theorem qBound_of_byte (x : Int) (h0 : 0 ≤ x) (h1 : x ≤ 255) : qBound 0 x 255 = x := by
  unfold qBound
  omega

theorem representable_zero : F32.Representable 0 := ⟨0, by simp, by simp⟩

theorem blend_one (midC otherC : Int) (h0 : 0 ≤ midC) (h1 : midC ≤ 255) :
    blend ⟨2 ^ 149⟩ midC otherC = midC := by
  unfold blend
  have hone : F32.ofInt 1 = ⟨2 ^ 149⟩ := by
    rw [F32.ofInt_eq 1 (by norm_num), Int.one_mul]
  have hsub : F32.sub ⟨2 ^ 149⟩ ⟨2 ^ 149⟩ = ⟨0⟩ := by
    rw [F32.sub_exact]
    · exact congrArg F32.mk (Int.sub_self _)
    · show F32.Representable (2 ^ 149 - 2 ^ 149)
      rw [Int.sub_self]
      exact representable_zero
  have hmid : F32.ofInt midC = ⟨midC * 2 ^ 149⟩ := ofInt_byte midC h0 h1
  have hmul : F32.mul ⟨2 ^ 149⟩ ⟨midC * 2 ^ 149⟩ = ⟨midC * 2 ^ 149⟩ :=
    F32.mul_one_left _ (F32.representable_int midC (by omega))
  have hadd : F32.add ⟨midC * 2 ^ 149⟩ ⟨0⟩ = ⟨midC * 2 ^ 149⟩ := by
    rw [F32.add_exact]
    · exact congrArg F32.mk (Int.add_zero _)
    · show F32.Representable (midC * 2 ^ 149 + 0)
      rw [Int.add_zero]
      exact F32.representable_int midC (by omega)
  rw [hone, hsub, F32.mul_zero_left, hmid, hmul, hadd]
  exact Int.mul_tdiv_cancel _ (by positivity)

/-- With a ratio in [0, 1] and 8-bit end points the interpolated channel is an
8-bit value, so the clamp `qBound(0, ., 255)` leaves it as it is. -/
theorem blend_bounds (ratio : F32) (midC otherC : Int) (hr0 : 0 ≤ ratio.units)
    (hr1 : ratio.units ≤ 2 ^ 149) (hm0 : 0 ≤ midC) (hm1 : midC ≤ 255) (ho0 : 0 ≤ otherC)
    (ho1 : otherC ≤ 255) : 0 ≤ blend ratio midC otherC ∧ blend ratio midC otherC ≤ 255 := by
  have hone : F32.ofInt 1 = ⟨2 ^ 149⟩ := by
    rw [F32.ofInt_eq 1 (by norm_num), Int.one_mul]
  have hU : ((1 * 2 ^ 149 : Nat) : Int) = 2 ^ 149 := by norm_cast
  -- the weight `1 - ratio`
  have hb0 : 0 ≤ (F32.sub ⟨2 ^ 149⟩ ratio).units :=
    F32.rne_one_nonneg _ (by show (0 : Int) ≤ 2 ^ 149 - ratio.units; omega)
  have hb1 : (F32.sub ⟨2 ^ 149⟩ ratio).units ≤ 2 ^ 149 := by
    have h := F32.rne_one_le (2 ^ 149 - ratio.units) 1 149 (by omega) (by norm_num)
      (by rw [hU]; omega)
    rw [hU] at h
    exact h
  have hbe : 2 * (F32.sub ⟨2 ^ 149⟩ ratio).units ≤ 2 * (2 ^ 149 - ratio.units) + 2 ^ 126 :=
    F32.rne_one_err (2 ^ 149 - ratio.units) 126 (by omega)
      (by
        show 2 ^ 149 - ratio.units < 2 ^ 150
        omega)
  -- the two products
  obtain ⟨hp0, hpe⟩ := F32.mul_byte_bounds ratio midC hr0 hr1 hm0 hm1
  obtain ⟨hq0, hqe⟩ := F32.mul_byte_bounds (F32.sub ⟨2 ^ 149⟩ ratio) otherC hb0 hb1 ho0 ho1
  have hpm : ratio.units * midC ≤ ratio.units * 255 := Int.mul_le_mul_of_nonneg_left hm1 hr0
  have hqm : (F32.sub ⟨2 ^ 149⟩ ratio).units * otherC ≤ (F32.sub ⟨2 ^ 149⟩ ratio).units * 255 :=
    Int.mul_le_mul_of_nonneg_left ho1 hb0
  unfold blend
  rw [hone, ofInt_byte midC hm0 hm1, ofInt_byte otherC ho0 ho1]
  have hadd : ∀ x y : F32,
      (F32.add x y).units = (F32.roundNearestEven (x.units + y.units) 1).units := fun _ _ => rfl
  unfold F32.toInt
  rw [hadd]
  generalize (F32.mul ratio ⟨midC * 2 ^ 149⟩).units = p at hp0 hpe ⊢
  generalize (F32.mul (F32.sub ⟨2 ^ 149⟩ ratio) ⟨otherC * 2 ^ 149⟩).units = q at hq0 hqe ⊢
  generalize (F32.sub ⟨2 ^ 149⟩ ratio).units * otherC = bm at hqe hqm
  generalize ratio.units * midC = am at hpe hpm
  have hsum : p + q ≤ ((8355841 * 2 ^ 134 : Nat) : Int) := by
    have : ((8355841 * 2 ^ 134 : Nat) : Int) = 8355841 * 2 ^ 134 := by norm_cast
    rw [this]
    omega
  have hres0 : 0 ≤ (F32.roundNearestEven (p + q) 1).units :=
    F32.rne_one_nonneg _ (by omega)
  have hres1 : (F32.roundNearestEven (p + q) 1).units ≤ ((8355841 * 2 ^ 134 : Nat) : Int) :=
    F32.rne_one_le (p + q) 8355841 134 (by omega) (by norm_num) hsum
  have hcast : ((8355841 * 2 ^ 134 : Nat) : Int) = 8355841 * 2 ^ 134 := by norm_cast
  rw [hcast] at hres1
  generalize (F32.roundNearestEven (p + q) 1).units = r at hres0 hres1 ⊢
  rw [Int.tdiv_eq_ediv hres0 (by positivity)]
  have hpos : (0 : Int) < 2 ^ 149 := by positivity
  refine ⟨Int.ediv_nonneg hres0 (Int.le_of_lt hpos), ?_⟩
  have hlt : r / 2 ^ 149 < 255 + 1 := Int.ediv_lt_of_lt_mul hpos (by omega)
  exact Int.lt_add_one_iff.mp hlt

/-- The reference colour has interpolation ratio one, in whichever branch. -/
theorem branchRatio_reference (n : Int) (h0 : 0 ≤ n) (h1 : n ≤ 255) :
    selectBranch n n ≠ Branch.fallback ∧
      branchRatio n n (selectBranch n n) = some ⟨2 ^ 149⟩ := by
  refine ⟨selectBranch_ne_fallback n n h1, ?_⟩
  have hpos : (0 : Int) < 2 ^ 149 := by positivity
  unfold selectBranch
  split_ifs with h2 h3
  · simp only [branchRatio, ofInt_byte n h0 h1]
    exact F32.div_self _ (Int.mul_pos (by omega) hpos)
  · simp only [branchRatio, sub_255_byte n h0 h1]
    exact F32.div_self _ (Int.mul_pos (by omega) hpos)
  · exfalso
    apply h2
    constructor <;> omega

theorem storedColor_reference (self : ColorRange) (color : Nat) :
    storedColor self (channelAvg color) color
      = qRgb (qRed self.mid_) (qGreen self.mid_) (qBlue self.mid_) := by
  obtain ⟨h0, h1⟩ := channelAvg_bounds color
  obtain ⟨hne, hratio⟩ := branchRatio_reference (channelAvg color) h0 h1
  have hr := qRed_le self.mid_
  have hg := qGreen_le self.mid_
  have hb := qBlue_le self.mid_
  unfold storedColor newColor
  simp only
  cases hbr : selectBranch (channelAvg color) (channelAvg color) with
  | minMid =>
    rw [hbr] at hratio
    simp only [hratio, Option.map_some', Option.getD_some]
    rw [blend_one _ _ (by omega) (by omega), blend_one _ _ (by omega) (by omega),
      blend_one _ _ (by omega) (by omega), qBound_of_byte _ (by omega) (by omega),
      qBound_of_byte _ (by omega) (by omega), qBound_of_byte _ (by omega) (by omega)]
  | midMax =>
    rw [hbr] at hratio
    simp only [hratio, Option.map_some', Option.getD_some]
    rw [blend_one _ _ (by omega) (by omega), blend_one _ _ (by omega) (by omega),
      blend_one _ _ (by omega) (by omega), qBound_of_byte _ (by omega) (by omega),
      qBound_of_byte _ (by omega) (by omega), qBound_of_byte _ (by omega) (by omega)]
  | fallback => exact absurd hbr hne

theorem ColorMap.mem_insert (m : ColorMap) (k v : Nat) (e : QRgb × QRgb)
    (h : e ∈ m.insert k v) : e = (k, v) ∨ e ∈ m := by
  induction m with
  | nil => simpa [ColorMap.insert] using h
  | cons e0 rest ih =>
    obtain ⟨k0, v0⟩ := e0
    simp only [ColorMap.insert] at h
    by_cases h1 : k < k0
    · simp only [h1, if_true, List.mem_cons] at h
      simp only [List.mem_cons]
      tauto
    · by_cases h2 : k = k0
      · subst h2
        simp only [Nat.lt_irrefl, if_false, if_true, List.mem_cons] at h
        simp only [List.mem_cons]
        tauto
      · simp only [h1, h2, if_false, List.mem_cons] at h
        simp only [List.mem_cons]
        rcases h with h | h
        · tauto
        · rcases ih h with h3 | h3 <;> tauto

theorem mem_foldl_insertEntry (zs : List (QRgb × QRgb)) (acc : ColorMap) (e : QRgb × QRgb)
    (h : e ∈ zs.foldl insertEntry acc) : e ∈ zs ∨ e ∈ acc := by
  induction zs generalizing acc with
  | nil => exact Or.inr h
  | cons z rest ih =>
    rw [List.foldl_cons] at h
    rcases ih _ h with h1 | h1
    · exact Or.inl (List.mem_cons_of_mem _ h1)
    · rcases ColorMap.mem_insert acc z.1 z.2 e h1 with h2 | h2
      · exact Or.inl (h2 ▸ List.mem_cons_self _ _)
      · exact Or.inr h2

theorem newColor_form (self : ColorRange) (referenceAvg : Int) (color value : Nat)
    (h : newColor self referenceAvg color = some value) :
    ∃ r g b : Int, value = qRgb (qBound 0 r 255) (qBound 0 g 255) (qBound 0 b 255) := by
  unfold newColor at h
  simp only at h
  split at h
  · obtain ⟨ratio, _, hv⟩ := Option.map_eq_some'.mp h
    exact ⟨_, _, _, hv.symm⟩
  · obtain ⟨ratio, _, hv⟩ := Option.map_eq_some'.mp h
    exact ⟨_, _, _, hv.symm⟩
  · simp at h

theorem applyToPalette_keys (self : ColorRange) (palette : ColorList) (k : Nat) :
    k ∈ ColorMap.keys ((palette.map fun c =>
        (c, storedColor self (referenceAvg palette) c)).foldl insertEntry []) ↔ k ∈ palette := by
  rw [mem_keys_foldl_insertEntry]
  simp [ColorMap.keys]

/-! ## Theorems: `applyToPalette` -/

/-- C7: `applyToPalette` maps the reference colour exactly to mid.  For every
range and every non-empty palette the returned mapping sends the first colour
of the palette to a colour whose R, G, B channels are those of `mid`, the
interpolation ratio of that colour being exactly one. -/
theorem applyToPalette_reference_to_mid (R : ColorRange) (P : ColorList) (hne : P ≠ []) :
    ∃ m value, applyToPalette R P = some m ∧ m.find (P.head hne) = some value ∧
      rgbOf value = rgbOf R.mid_ ∧
      branchRatio (referenceAvg P) (channelAvg (P.head hne))
        (selectBranch (referenceAvg P) (channelAvg (P.head hne))) = some (F32.ofInt 1) := by
  cases P with
  | nil => exact absurd rfl hne
  | cons c0 rest =>
    have href : referenceAvg (c0 :: rest) = channelAvg c0 := by simp [referenceAvg]
    obtain ⟨h0, h1⟩ := channelAvg_bounds c0
    have hr := qRed_le R.mid_
    have hg := qGreen_le R.mid_
    have hb := qBlue_le R.mid_
    refine ⟨_, _, applyToPalette_eq R (c0 :: rest),
      find_foldl_insertEntry_graph _ _ [] c0 (List.mem_cons_self _ _), ?_, ?_⟩
    · rw [href, storedColor_reference]
      rw [(rgbOf_qRgb _ _ _ (by omega) (by omega) (by omega) (by omega) (by omega) (by omega)).1]
      simp [rgbOf]
    · rw [href, List.head_cons, (branchRatio_reference _ h0 h1).2,
        F32.ofInt_eq 1 (by norm_num), Int.one_mul]

/-- Witness of C7 on the palette of the spec example, whose reference colour
is black. -/
theorem applyToPalette_reference_to_mid_witness :
    ∃ m value,
      applyToPalette ⟨0xFF003200, 0xFF320000, 0xFF000032⟩ [0xFF000000, 0xFF808080, 0xFFFFFFFF]
        = some m ∧
      m.find (([0xFF000000, 0xFF808080, 0xFFFFFFFF] : ColorList).head (by decide)) = some value ∧
      rgbOf value = rgbOf (ColorRange.mid_ ⟨0xFF003200, 0xFF320000, 0xFF000032⟩) ∧
      branchRatio (referenceAvg [0xFF000000, 0xFF808080, 0xFFFFFFFF])
        (channelAvg (([0xFF000000, 0xFF808080, 0xFFFFFFFF] : ColorList).head (by decide)))
        (selectBranch (referenceAvg [0xFF000000, 0xFF808080, 0xFFFFFFFF])
          (channelAvg (([0xFF000000, 0xFF808080, 0xFFFFFFFF] : ColorList).head (by decide))))
        = some (F32.ofInt 1) :=
  applyToPalette_reference_to_mid ⟨0xFF003200, 0xFF320000, 0xFF000032⟩
    [0xFF000000, 0xFF808080, 0xFFFFFFFF] (by decide)

/-- C8: for all palettes `P` and ranges `R`, `R.applyToPalette(P)` has exactly
as many entries as there are distinct colours in `P`, its key set is the set of
colours of `P`, and every entry's value is an opaque 32-bit colour word whose
R, G and B channels lie in [0, 255]. -/
theorem applyToPalette_entries (R : ColorRange) (P : ColorList) :
    ∃ m, applyToPalette R P = some m ∧ m.length = P.toFinset.card ∧
      (∀ k, k ∈ m.keys ↔ k ∈ P) ∧
      ∀ e ∈ m, qRed e.2 ≤ 255 ∧ qGreen e.2 ≤ 255 ∧ qBlue e.2 ≤ 255 ∧ qAlpha e.2 = 255 ∧
        e.2 < 2 ^ 32 := by
  refine ⟨_, applyToPalette_eq R P, ?_, applyToPalette_keys R P, ?_⟩
  · exact ColorMap.length_eq_card _ (sorted_foldl_insertEntry _ [] (by simp [ColorMap.keys])) P
      (applyToPalette_keys R P)
  · intro e he
    refine ⟨qRed_le _, qGreen_le _, qBlue_le _, ?_⟩
    rcases mem_foldl_insertEntry _ _ e he with h | h
    · obtain ⟨c, _, rfl⟩ := List.mem_map.mp h
      obtain ⟨r, g, b, hv⟩ := newColor_form R (referenceAvg P) c _
        (newColor_eq_storedColor R P c)
      obtain ⟨hr0, hr1⟩ := qBound_byte r
      obtain ⟨hg0, hg1⟩ := qBound_byte g
      obtain ⟨hb0, hb1⟩ := qBound_byte b
      have := rgbOf_qRgb _ _ _ hr0 hr1 hg0 hg1 hb0 hb1
      simp only
      rw [hv]
      exact this.2
    · simp at h

/-- C9: the fallback branch of `applyToPalette` is unreachable.  Taking it
needs `referenceAvg = 255` and `oldAvg > 255`, while the average of an 8-bit
colour is at most 255; so every palette colour takes the min/mid or the mid/max
branch, its ratio is a finite number (no division by zero), its value is
stored, and the whole run returns a mapping (no assertion failure). -/
theorem applyToPalette_fallback_unreachable (R : ColorRange) (P : ColorList) :
    (∀ referenceAvg oldAvg : Int, selectBranch referenceAvg oldAvg = Branch.fallback →
        referenceAvg = 255 ∧ 255 < oldAvg) ∧
      (∀ c : QRgb, 0 ≤ channelAvg c ∧ channelAvg c ≤ 255) ∧
      (∀ c ∈ P,
        (selectBranch (referenceAvg P) (channelAvg c) = Branch.minMid ∨
          selectBranch (referenceAvg P) (channelAvg c) = Branch.midMax) ∧
        (∃ ratio, branchRatio (referenceAvg P) (channelAvg c)
          (selectBranch (referenceAvg P) (channelAvg c)) = some ratio) ∧
        ∃ value, newColor R (referenceAvg P) c = some value) ∧
      ∃ m, applyToPalette R P = some m := by
  refine ⟨?_, channelAvg_bounds, ?_, _, applyToPalette_eq R P⟩
  · intro referenceAvg oldAvg h
    unfold selectBranch at h
    split_ifs at h with h1 h2
    constructor <;> omega
  · intro c _
    obtain ⟨hr0, hr1⟩ := referenceAvg_bounds P
    obtain ⟨ho0, ho1⟩ := channelAvg_bounds c
    refine ⟨?_, branchRatio_isSome _ _ hr0 hr1 ho0 ho1, newColor_isSome R _ c hr0 hr1⟩
    have hne := selectBranch_ne_fallback (referenceAvg P) (channelAvg c) ho1
    cases hb : selectBranch (referenceAvg P) (channelAvg c) with
    | minMid => exact Or.inl rfl
    | midMax => exact Or.inr rfl
    | fallback => exact absurd hb hne

/-- The ratio of the branch taken lies in [0, 1]. -/
theorem branchRatio_bounds (referenceAvg oldAvg : Int) (hr0 : 0 ≤ referenceAvg)
    (hr1 : referenceAvg ≤ 255) (ho0 : 0 ≤ oldAvg) (ho1 : oldAvg ≤ 255) (ratio : F32)
    (h : branchRatio referenceAvg oldAvg (selectBranch referenceAvg oldAvg) = some ratio) :
    0 ≤ ratio.units ∧ ratio.units ≤ 2 ^ 149 := by
  have hU : ((1 * 2 ^ 149 : Nat) : Int) = 2 ^ 149 := by norm_cast
  have hpos : (0 : Int) < 2 ^ 149 := by positivity
  have key : ∀ a b : Int, 0 ≤ a → a ≤ b → 0 < b →
      F32.div ⟨a * 2 ^ 149⟩ ⟨b * 2 ^ 149⟩ = some ratio →
      0 ≤ ratio.units ∧ ratio.units ≤ 2 ^ 149 := by
    intro a b ha hab hb hdiv
    have hb1 : 0 < b * 2 ^ 149 := Int.mul_pos hb hpos
    have hb2 : b * 2 ^ 149 ≠ 0 := by omega
    have hb3 : ¬ b * 2 ^ 149 < 0 := by omega
    unfold F32.div at hdiv
    simp only [hb2, hb3, if_false, Option.some.injEq] at hdiv
    rw [← hdiv]
    have hn0 : 0 ≤ a * 2 ^ 149 * 2 ^ 149 :=
      Int.mul_nonneg (Int.mul_nonneg ha (Int.le_of_lt hpos)) (Int.le_of_lt hpos)
    have hd : 0 < (b * 2 ^ 149).natAbs := by omega
    refine ⟨F32.rne_nonneg _ _ hn0, ?_⟩
    have hle := F32.rne_le_of_le_mul (a * 2 ^ 149 * 2 ^ 149) (b * 2 ^ 149).natAbs 1 149 hn0 hd
      (by norm_num)
      (by
        rw [hU, Int.natAbs_of_nonneg (Int.le_of_lt hb1)]
        have : a * 2 ^ 149 ≤ b * 2 ^ 149 := Int.mul_le_mul_of_nonneg_right hab (Int.le_of_lt hpos)
        calc a * 2 ^ 149 * 2 ^ 149 ≤ b * 2 ^ 149 * 2 ^ 149 :=
              Int.mul_le_mul_of_nonneg_right this (Int.le_of_lt hpos)
          _ = 2 ^ 149 * (b * 2 ^ 149) := by ring)
    rw [hU] at hle
    exact hle
  unfold selectBranch at h
  split_ifs at h with h1 h2
  · simp only [branchRatio, ofInt_byte oldAvg ho0 ho1, ofInt_byte referenceAvg hr0 hr1] at h
    exact key oldAvg referenceAvg ho0 h1.2 (by omega) h
  · simp only [branchRatio, sub_255_byte oldAvg ho0 ho1, sub_255_byte referenceAvg hr0 hr1] at h
    refine key (255 - oldAvg) (255 - referenceAvg) (by omega) ?_ (by omega) h
    by_cases h3 : referenceAvg = 0
    · omega
    · have : ¬ oldAvg ≤ referenceAvg := fun h4 => h1 ⟨h3, h4⟩
      omega
  · simp [branchRatio] at h

theorem channels_qRgb_qBound (r g b : Int) (hr0 : 0 ≤ r) (hr1 : r ≤ 255) (hg0 : 0 ≤ g)
    (hg1 : g ≤ 255) (hb0 : 0 ≤ b) (hb1 : b ≤ 255) :
    (qRed (qRgb (qBound 0 r 255) (qBound 0 g 255) (qBound 0 b 255)) : Int) = r ∧
      (qGreen (qRgb (qBound 0 r 255) (qBound 0 g 255) (qBound 0 b 255)) : Int) = g ∧
      (qBlue (qRgb (qBound 0 r 255) (qBound 0 g 255) (qBound 0 b 255)) : Int) = b ∧
      qAlpha (qRgb (qBound 0 r 255) (qBound 0 g 255) (qBound 0 b 255)) = 255 := by
  rw [qBound_of_byte r hr0 hr1, qBound_of_byte g hg0 hg1, qBound_of_byte b hb0 hb1]
  obtain ⟨h1, h2, _⟩ := rgbOf_qRgb r g b hr0 hr1 hg0 hg1 hb0 hb1
  simp only [rgbOf, Prod.mk.injEq] at h1
  rw [h1.1, h1.2.1, h1.2.2]
  refine ⟨?_, ?_, ?_, h2⟩ <;> omega

/-- The channels stored for a colour: the interpolation of the branch taken,
with its ratio, not changed by the clamp. -/
theorem storedColor_channels (self : ColorRange) (referenceAvg : Int) (color : Nat)
    (hr0 : 0 ≤ referenceAvg) (hr1 : referenceAvg ≤ 255) :
    ∃ ratio,
      (if referenceAvg ≠ 0 ∧ channelAvg color ≤ referenceAvg then
          F32.div (F32.ofInt (channelAvg color)) (F32.ofInt referenceAvg)
        else F32.div (F32.sub (F32.ofInt 255) (F32.ofInt (channelAvg color)))
          (F32.sub (F32.ofInt 255) (F32.ofInt referenceAvg))) = some ratio ∧
      (qRed (storedColor self referenceAvg color) : Int) = blend ratio (qRed self.mid_)
        (qRed (if referenceAvg ≠ 0 ∧ channelAvg color ≤ referenceAvg
          then self.min_ else self.max_)) ∧
      (qGreen (storedColor self referenceAvg color) : Int) = blend ratio (qGreen self.mid_)
        (qGreen (if referenceAvg ≠ 0 ∧ channelAvg color ≤ referenceAvg
          then self.min_ else self.max_)) ∧
      (qBlue (storedColor self referenceAvg color) : Int) = blend ratio (qBlue self.mid_)
        (qBlue (if referenceAvg ≠ 0 ∧ channelAvg color ≤ referenceAvg
          then self.min_ else self.max_)) ∧
      qAlpha (storedColor self referenceAvg color) = 255 := by
  obtain ⟨ho0, ho1⟩ := channelAvg_bounds color
  obtain ⟨ratio, hratio⟩ := branchRatio_isSome referenceAvg (channelAvg color) hr0 hr1 ho0 ho1
  obtain ⟨hq0, hq1⟩ := branchRatio_bounds referenceAvg (channelAvg color) hr0 hr1 ho0 ho1 ratio
    hratio
  have hmr := qRed_le self.mid_
  have hmg := qGreen_le self.mid_
  have hmb := qBlue_le self.mid_
  have bb : ∀ a b : Nat, a ≤ 255 → b ≤ 255 →
      0 ≤ blend ratio a b ∧ blend ratio a b ≤ 255 := fun a b ha hb =>
    blend_bounds ratio a b hq0 hq1 (by omega) (by omega) (by omega) (by omega)
  refine ⟨ratio, ?_⟩
  unfold storedColor newColor
  simp only
  unfold selectBranch at hratio ⊢
  by_cases h1 : referenceAvg ≠ 0 ∧ channelAvg color ≤ referenceAvg
  · simp only [if_pos h1, branchRatio] at hratio ⊢
    simp only [hratio, Option.map_some', Option.getD_some, true_and]
    have hr := bb (qRed self.mid_) (qRed self.min_) hmr (qRed_le _)
    have hg := bb (qGreen self.mid_) (qGreen self.min_) hmg (qGreen_le _)
    have hb := bb (qBlue self.mid_) (qBlue self.min_) hmb (qBlue_le _)
    exact channels_qRgb_qBound _ _ _ hr.1 hr.2 hg.1 hg.2 hb.1 hb.2
  · have h2 : 255 - referenceAvg ≠ 0 := by
      intro h3
      apply h1
      constructor <;> omega
    simp only [if_neg h1, if_pos h2, branchRatio] at hratio ⊢
    simp only [hratio, Option.map_some', Option.getD_some, true_and]
    have hr := bb (qRed self.mid_) (qRed self.max_) hmr (qRed_le _)
    have hg := bb (qGreen self.mid_) (qGreen self.max_) hmg (qGreen_le _)
    have hb := bb (qBlue self.mid_) (qBlue self.max_) hmb (qBlue_le _)
    exact channels_qRgb_qBound _ _ _ hr.1 hr.2 hg.1 hg.2 hb.1 hb.2

set_option maxRecDepth 100000 in
theorem applyToPalette_spec_example :
    applyToPalette ⟨0xFF003200, 0xFF320000, 0xFF000032⟩ [0xFF000000, 0xFF808080, 0xFFFFFFFF]
      = some [(0xFF000000, 0xFF003200), (0xFF808080, 0xFF191800), (0xFFFFFFFF, 0xFF320000)] := by
  decide

set_option maxRecDepth 100000 in
theorem applyToPalette_third_example :
    applyToPalette ⟨0xFF000000, 0xFF000000, 0xFF030303⟩ [0xFF030303, 0xFF010101]
      = some [(0xFF010101, 0xFF010101), (0xFF030303, 0xFF000000)] := by
  decide

/-- C6, counterexample: with reference colour rgb(3,3,3), palette colour
rgb(1,1,1), mid rgb(0,0,0) and min rgb(3,3,3) the stored red channel is 1,
while the integer truncation of the exact value `(1/3) * 0 + (1 - 1/3) * 3 = 2`
is 2: the ratio is rounded up to the nearest single-precision number, so
`1 - ratio` falls below 2/3 and the product below 2. -/
theorem applyToPalette_interpolates_counterexample :
    (∃ m value,
        applyToPalette ⟨0xFF000000, 0xFF000000, 0xFF030303⟩ [0xFF030303, 0xFF010101] = some m ∧
        m.find 0xFF010101 = some value ∧ qRed value = 1) ∧
      specExactChannel (referenceAvg [0xFF030303, 0xFF010101]) (channelAvg 0xFF010101)
        (qRed 0xFF000000) (qRed 0xFF030303) (qRed 0xFF000000) = 2 := by
  constructor
  · exact ⟨_, 0xFF010101, applyToPalette_third_example, by decide, by decide⟩
  · have h1 : referenceAvg [0xFF030303, 0xFF010101] = 3 := by decide
    have h2 : channelAvg 0xFF010101 = 1 := by decide
    have h3 : qRed 0xFF000000 = 0 := by decide
    have h4 : qRed 0xFF030303 = 3 := by decide
    rw [h1, h2, h3, h4]
    simp [specExactChannel, truncQ]
    norm_num

/-! ## Lemmas: alpha in the mapping of `applyToPalette` -/

theorem channelAvg_congr (c1 c2 : Nat) (h : rgbOf c1 = rgbOf c2) :
    channelAvg c1 = channelAvg c2 := by
  simp only [rgbOf, Prod.mk.injEq] at h
  unfold channelAvg
  rw [h.1, h.2.1, h.2.2]

theorem storedColor_congr (self : ColorRange) (referenceAvg : Int) (c1 c2 : Nat)
    (h : rgbOf c1 = rgbOf c2) :
    storedColor self referenceAvg c1 = storedColor self referenceAvg c2 := by
  unfold storedColor newColor
  simp only [channelAvg_congr c1 c2 h]

theorem plainRgbMap_eq_insertEntry (cm : ColorMap) :
    plainRgbMap cm
      = (cm.map fun e => (e.1 &&& 0xFFFFFF, e.2 &&& 0xFFFFFF)).foldl insertEntry [] := by
  rw [List.foldl_map]
  rfl

theorem mem_keys_plainRgbMap (cm : ColorMap) (k : Nat) :
    k ∈ (plainRgbMap cm).keys ↔ k ∈ cm.keys.map fun c => c &&& 0xFFFFFF := by
  rw [plainRgbMap_eq_insertEntry, mem_keys_foldl_insertEntry]
  simp [ColorMap.keys]

theorem sorted_plainRgbMap (cm : ColorMap) : (plainRgbMap cm).keys.Pairwise (· < ·) := by
  rw [plainRgbMap_eq_insertEntry]
  exact sorted_foldl_insertEntry _ [] (by simp [ColorMap.keys])

theorem entry_lt_of_mem_plainRgbMap (cm : ColorMap) (e : QRgb × QRgb)
    (h : e ∈ plainRgbMap cm) : e.1 < 2 ^ 24 ∧ e.2 < 2 ^ 24 := by
  rw [plainRgbMap_eq_insertEntry] at h
  rcases mem_foldl_insertEntry _ _ e h with h1 | h1
  · obtain ⟨e0, _, rfl⟩ := List.mem_map.mp h1
    simp only [and_rgbMask_eq_mod]
    exact ⟨Nat.mod_lt _ (by norm_num), Nat.mod_lt _ (by norm_num)⟩
  · simp at h1

theorem applyToPalette_value_opaque (self : ColorRange) (palette : ColorList)
    (e : QRgb × QRgb)
    (he : e ∈ (palette.map fun c => (c, storedColor self (referenceAvg palette) c)).foldl
      insertEntry []) : qAlpha e.2 = 255 := by
  rcases mem_foldl_insertEntry _ _ e he with h | h
  · obtain ⟨c, _, rfl⟩ := List.mem_map.mp h
    obtain ⟨r, g, b, hv⟩ := newColor_form self (referenceAvg palette) c _
      (newColor_eq_storedColor self palette c)
    obtain ⟨hr0, hr1⟩ := qBound_byte r
    obtain ⟨hg0, hg1⟩ := qBound_byte g
    obtain ⟨hb0, hb1⟩ := qBound_byte b
    simp only
    rw [hv]
    exact (rgbOf_qRgb _ _ _ hr0 hr1 hg0 hg1 hb0 hb1).2.1
  · simp at h

set_option maxRecDepth 100000 in
theorem applyToPalette_alpha_example :
    applyToPalette ⟨0xFF003200, 0xFF320000, 0xFF000032⟩ [0xFF112233, 0x80112233]
      = some [(0x80112233, 0xFF003200), (0xFF112233, 0xFF003200)] := by
  decide

/-! ## Theorems: alpha in the mapping, identity, dimensions, independence -/

/-- C11, counterexample: the palette `[0xFF112233, 0x80112233]` holds two
colours that agree on R, G and B and differ in alpha; the returned mapping has
two entries, one key carries the alpha byte 0x80 and the values carry the
alpha byte 0xFF. -/
theorem applyToPalette_rgb_only_counterexample :
    rgbOf 0xFF112233 = rgbOf 0x80112233 ∧
      ∃ m, applyToPalette ⟨0xFF003200, 0xFF320000, 0xFF000032⟩ [0xFF112233, 0x80112233]
          = some m ∧
        m.length = 2 ∧ m.keys = [0x80112233, 0xFF112233] ∧ qAlpha 0x80112233 = 0x80 ∧
        ∀ e ∈ m, qAlpha e.2 = 0xFF :=
  ⟨by decide, _, applyToPalette_alpha_example, by decide, by decide, by decide, by decide⟩

/-- C11, amended: the mapping returned by `applyToPalette` is keyed by the
whole colour word and its values are opaque; RGB-only semantics holds for the
alpha-free copy that `recolorImage` builds from it.  For every range and
palette: the mapping has one entry per distinct colour word, two palette
colours that agree on R, G and B receive the same value, and every value has
alpha 255; in `plainRgbMap` of the mapping the keys are unique and are the RGB
parts of the palette colours, so colours that differ only in alpha share a
single entry, and keys and values are below `2 ^ 24` (no alpha bits). -/
theorem applyToPalette_rgb_only_after_masking (R : ColorRange) (P : ColorList) :
    ∃ m, applyToPalette R P = some m ∧
      (∀ k, k ∈ m.keys ↔ k ∈ P) ∧ m.length = P.toFinset.card ∧
      (∀ c1 ∈ P, ∀ c2 ∈ P, rgbOf c1 = rgbOf c2 → m.find c1 = m.find c2) ∧
      (∀ e ∈ m, qAlpha e.2 = 255) ∧
      (plainRgbMap m).keys.Pairwise (· < ·) ∧
      (∀ k, k ∈ (plainRgbMap m).keys ↔ k ∈ P.map fun c => c &&& 0xFFFFFF) ∧
      (plainRgbMap m).length = (P.map fun c => c &&& 0xFFFFFF).toFinset.card ∧
      ∀ e ∈ plainRgbMap m, e.1 < 2 ^ 24 ∧ e.2 < 2 ^ 24 := by
  have hkeys := applyToPalette_keys R P
  have hplain : ∀ k, k ∈ (plainRgbMap ((P.map fun c =>
      (c, storedColor R (referenceAvg P) c)).foldl insertEntry [])).keys
        ↔ k ∈ P.map fun c => c &&& 0xFFFFFF := by
    intro k
    rw [mem_keys_plainRgbMap]
    simp only [List.mem_map]
    constructor
    · rintro ⟨c, hc, rfl⟩
      exact ⟨c, (hkeys c).mp hc, rfl⟩
    · rintro ⟨c, hc, rfl⟩
      exact ⟨c, (hkeys c).mpr hc, rfl⟩
  refine ⟨_, applyToPalette_eq R P, hkeys, ?_, ?_, applyToPalette_value_opaque R P,
    sorted_plainRgbMap _, hplain, ?_, entry_lt_of_mem_plainRgbMap _⟩
  · exact ColorMap.length_eq_card _ (sorted_foldl_insertEntry _ [] (by simp [ColorMap.keys])) P
      hkeys
  · intro c1 h1 c2 h2 hrgb
    rw [find_foldl_insertEntry_graph _ _ [] c1 h1, find_foldl_insertEntry_graph _ _ [] c2 h2,
      storedColor_congr R _ c1 c2 hrgb]
  · exact ColorMap.length_eq_card _ (sorted_plainRgbMap _) _ hplain

theorem word_split (px : Nat) : px / 2 ^ 24 * 2 ^ 24 + px % 2 ^ 24 = px := by
  omega

theorem recolorPixel_identity (cm : ColorMap) (px : Nat) (hpx : px < 2 ^ 32)
    (hid : ∀ e ∈ cm, e.2 = e.1) : recolorPixel (plainRgbMap cm) px = px := by
  rcases recolorPixel_cases cm px hpx with h | ⟨e, he, hrgb, h⟩
  · exact h
  · rw [h, hid e he]
    have h1 := (rgbOf_eq_iff e.1 px).mp hrgb
    rw [and_rgbMask_eq_mod, and_rgbMask_eq_mod] at h1
    rw [h1, qAlpha, Nat.shiftRight_eq_div_pow]
    exact word_split px

/-- C12: recolouring with an identity mapping is the identity.  For every
well-formed ARGB32 image and every mapping that sends each of its keys to
itself (such as `{c: c}` for every distinct colour `c` of the image), the
output image equals the input image. -/
theorem recolorImage_identity_mapping (img : QImage) (colorMap : ColorMap)
    (hwf : img.WellFormed) (hid : ∀ e ∈ colorMap, e.2 = e.1) :
    recolorImage img colorMap = img := by
  rw [recolorImage_eq_map img colorMap hwf.rectangular]
  have hlines : img.scanLines.map (List.map (recolorPixel (plainRgbMap colorMap)))
      = img.scanLines := by
    conv_rhs => rw [← List.map_id img.scanLines]
    apply List.map_congr_left
    intro line hline
    conv_rhs => rw [id, ← List.map_id line]
    apply List.map_congr_left
    intro px hpx
    exact recolorPixel_identity colorMap px ((hwf.2 line hline).2 px hpx) hid
  rw [hlines]

/-- Witness of C12: the identity mapping on the two colours of an image. -/
theorem recolorImage_identity_mapping_witness :
    recolorImage ⟨2, 1, [[0x80112233, 0x01445566]]⟩
        [(0x01445566, 0x01445566), (0x80112233, 0x80112233)]
      = ⟨2, 1, [[0x80112233, 0x01445566]]⟩ :=
  recolorImage_identity_mapping ⟨2, 1, [[0x80112233, 0x01445566]]⟩
    [(0x01445566, 0x01445566), (0x80112233, 0x80112233)]
    (by simp [QImage.WellFormed]) (by decide)

theorem length_lineLoop (plain : ColorMap) (n : Nat) (line : List QRgb) :
    (lineLoop plain n line).length = line.length := by
  unfold lineLoop
  generalize List.range n = xs
  induction xs generalizing line with
  | nil => rfl
  | cons x rest ih => rw [List.foldl_cons, ih, List.length_set]

theorem map_length_foldl_set (F : List QRgb → List QRgb) (hF : ∀ l, (F l).length = l.length)
    (ys : List Nat) (L : List (List QRgb)) :
    (ys.foldl (fun L y => L.set y (F (L.getD y []))) L).map List.length = L.map List.length := by
  induction ys generalizing L with
  | nil => rfl
  | cons y rest ih =>
    rw [List.foldl_cons, ih, List.map_set, hF]
    have h : (L.getD y []).length = (L.map List.length).getD y 0 := by
      simp only [List.getD_eq_getElem?_getD, List.getElem?_map]
      cases L[y]? <;> rfl
    rw [h, set_getD_self]

theorem recolorImage_eq_foldl (img : QImage) (cm : ColorMap) :
    recolorImage img cm
      = { img with
          scanLines := (List.range img.height).foldl
            (fun L y => L.set y (lineLoop (plainRgbMap cm) img.width (L.getD y [])))
            img.scanLines } := by
  unfold recolorImage QImage.convertToFormatARGB32
  simp only [innerLoop_eq]
  rw [foldl_scanLines (fun L y => L.set y (lineLoop (plainRgbMap cm) img.width (L.getD y [])))]

/-- C13: `recolorImage` preserves dimensions.  For every input image and every
mapping the output has the width and the height of the input, as many scan
lines, and scan lines of the same lengths; zero-sized images included. -/
theorem recolorImage_preserves_dimensions (img : QImage) (colorMap : ColorMap) :
    (recolorImage img colorMap).width = img.width ∧
      (recolorImage img colorMap).height = img.height ∧
      (recolorImage img colorMap).scanLines.map List.length
        = img.scanLines.map List.length ∧
      recolorImage ⟨0, 0, []⟩ colorMap = ⟨0, 0, []⟩ := by
  refine ⟨?_, ?_, ?_, rfl⟩
  · rw [recolorImage_eq_foldl]
  · rw [recolorImage_eq_foldl]
  · rw [recolorImage_eq_foldl]
    exact map_length_foldl_set _ (length_lineLoop _ _) _ _

/-- C14: each pixel's transform in `recolorImage` is independent of every
other pixel.  For every mapping there is one function of the pixel word that
gives the output pixel at every position of every rectangular image; and for
an image split into two row ranges, recolouring the whole image equals
recolouring the two row ranges separately and stacking the results. -/
theorem recolorImage_pixels_independent (colorMap : ColorMap) :
    ∃ f : QRgb → QRgb,
      (∀ img : QImage, img.Rectangular → ∀ x y, x < img.width → y < img.height →
        (recolorImage img colorMap).pixel x y = f (img.pixel x y)) ∧
      ∀ (w : Nat) (top bottom : List (List QRgb)),
        (∀ line ∈ top ++ bottom, line.length = w) →
        recolorImage ⟨w, top.length + bottom.length, top ++ bottom⟩ colorMap
          = ⟨w, top.length + bottom.length,
              (recolorImage ⟨w, top.length, top⟩ colorMap).scanLines
                ++ (recolorImage ⟨w, bottom.length, bottom⟩ colorMap).scanLines⟩ := by
  refine ⟨recolorPixel (plainRgbMap colorMap), ?_, ?_⟩
  · intro img hrect x y hx hy
    exact recolorImage_pixel img colorMap x y hrect hx hy
  · intro w top bottom hlen
    have h1 : QImage.Rectangular ⟨w, top.length + bottom.length, top ++ bottom⟩ :=
      ⟨List.length_append _ _, hlen⟩
    have h2 : QImage.Rectangular ⟨w, top.length, top⟩ :=
      ⟨rfl, fun line hl => hlen line (List.mem_append_left _ hl)⟩
    have h3 : QImage.Rectangular ⟨w, bottom.length, bottom⟩ :=
      ⟨rfl, fun line hl => hlen line (List.mem_append_right _ hl)⟩
    rw [recolorImage_eq_map _ colorMap h1, recolorImage_eq_map _ colorMap h2,
      recolorImage_eq_map _ colorMap h3]
    simp only [List.map_append]

/-- Witness of C14: an image of two lines split after the first line. -/
theorem recolorImage_pixels_independent_witness :
    recolorImage ⟨2, 1 + 1, [[0x80112233, 0x01445566]] ++ [[0x01445566, 0x80112233]]⟩
        [(0xFF112233, 0xFFAABBCC)]
      = ⟨2, 1 + 1,
          (recolorImage ⟨2, 1, [[0x80112233, 0x01445566]]⟩ [(0xFF112233, 0xFFAABBCC)]).scanLines
            ++ (recolorImage ⟨2, 1, [[0x01445566, 0x80112233]]⟩
              [(0xFF112233, 0xFFAABBCC)]).scanLines⟩ := by
  obtain ⟨_, _, h⟩ := recolorImage_pixels_independent [(0xFF112233, 0xFFAABBCC)]
  exact h 2 [[0x80112233, 0x01445566]] [[0x01445566, 0x80112233]] (by decide)

/-- C15: empty palettes yield empty mappings, not failures.  For every range
`applyToPalette` of the empty palette returns the empty mapping, and for every
palette `generateColorMap` with an empty source or an empty target returns the
empty mapping. -/
theorem empty_palettes_yield_empty_mappings (R : ColorRange) (P : ColorList) :
    applyToPalette R [] = some [] ∧ generateColorMap [] P = some [] ∧
      generateColorMap P [] = some [] := by
  refine ⟨rfl, ?_, ?_⟩
  · rw [generateColorMap_eq]
    rfl
  · rw [generateColorMap_eq, List.zip_nil_right]
    rfl

/-! ## Lemmas: markup export -/

theorem toUpper_hexDigit : ∀ n : Nat, n < 16 → (hexDigit n).toUpper = upperHexDigit n := by
  decide

theorem upperHexDigit_mem : ∀ n : Nat, n < 16 → upperHexDigit n ∈ "0123456789ABCDEF".toList := by
  decide

theorem makeWmlColor_eq (c : Nat) : makeWmlColor c = hexRRGGBB c := by
  have hr := qRed_le c
  have hg := qGreen_le c
  have hb := qBlue_le c
  simp only [makeWmlColor, colorName, hexByte, QString.toUpper, QString.right, hexRRGGBB,
    List.map_cons, List.cons_append, List.nil_append, List.map_nil, List.length_cons,
    List.length_nil]
  rw [toUpper_hexDigit _ (by omega), toUpper_hexDigit _ (by omega), toUpper_hexDigit _ (by omega),
    toUpper_hexDigit _ (by omega), toUpper_hexDigit _ (by omega), toUpper_hexDigit _ (by omega)]
  rfl

theorem hexRRGGBB_congr (c1 c2 : Nat) (h : rgbOf c1 = rgbOf c2) : hexRRGGBB c1 = hexRRGGBB c2 := by
  simp only [rgbOf, Prod.mk.injEq] at h
  simp only [hexRRGGBB, h.1, h.2.1, h.2.2]

theorem hexRRGGBB_digits (c : Nat) :
    (hexRRGGBB c).length = 6 ∧ ∀ d ∈ hexRRGGBB c, d ∈ "0123456789ABCDEF".toList := by
  have hr := qRed_le c
  have hg := qGreen_le c
  have hb := qBlue_le c
  refine ⟨rfl, ?_⟩
  intro d hd
  simp only [hexRRGGBB, List.mem_cons, List.mem_singleton, List.not_mem_nil, or_false] at hd
  rcases hd with h | h | h | h | h | h <;> rw [h] <;> exact upperHexDigit_mem _ (by omega)

theorem intercalate_cons (sep a : QString) (rest : List QString) :
    List.intercalate sep (a :: rest) = a ++ (rest.map fun x => sep ++ x).flatten := by
  induction rest generalizing a with
  | nil => simp [List.intercalate]
  | cons b tl ih =>
    have h := ih b
    simp only [List.intercalate, List.intersperse, List.flatten_cons, List.map_cons,
      List.append_assoc] at h ⊢
    rw [h]

theorem foldl_colorListStep_rest (l : ColorList) (code : QString) :
    l.foldl colorListStep (code, false)
      = (code ++ (l.map fun c => [','] ++ makeWmlColor c).flatten, false) := by
  induction l generalizing code with
  | nil => simp
  | cons c rest ih =>
    rw [List.foldl_cons]
    have h : colorListStep (code, false) c = (code ++ [','] ++ makeWmlColor c, false) := rfl
    rw [h, ih]
    simp

theorem foldl_colorListStep (l : ColorList) (code : QString) :
    (l.foldl colorListStep (code, true)).1
      = code ++ List.intercalate [','] (l.map makeWmlColor) := by
  cases l with
  | nil => simp [List.intercalate]
  | cons c rest =>
    rw [List.foldl_cons]
    have h : colorListStep (code, true) c = (code ++ makeWmlColor c, false) := rfl
    rw [h, foldl_colorListStep_rest, List.map_cons, intercalate_cons]
    simp [List.map_map, Function.comp_def]

theorem ascii_identifier_char : ∀ n : Nat, n < 128 →
    (if isInvalidWmlIdChar (Char.ofNat n).toLower then '_' else (Char.ofNat n).toLower)
        = (if isInvalidWmlIdChar (Char.ofNat n) then '_' else (Char.ofNat n).toLower) ∧
      isInvalidWmlIdChar
        (if isInvalidWmlIdChar (Char.ofNat n) then '_' else (Char.ofNat n).toLower) = false ∧
      (if isInvalidWmlIdChar (Char.ofNat n) then '_' else (Char.ofNat n).toLower).isUpper
        = false := by
  decide

theorem ascii_identifier_char_of (c : Char) (h : c.toNat < 128) :
    (if isInvalidWmlIdChar c.toLower then '_' else c.toLower)
        = (if isInvalidWmlIdChar c then '_' else c.toLower) ∧
      isInvalidWmlIdChar (if isInvalidWmlIdChar c then '_' else c.toLower) = false ∧
      (if isInvalidWmlIdChar c then '_' else c.toLower).isUpper = false := by
  have := ascii_identifier_char c.toNat h
  rw [Char.ofNat_toNat] at this
  exact this

theorem makeIdentifier_eq_map (name : QString) (hascii : ∀ c ∈ name, c.toNat < 128) :
    makeIdentifier name
      = name.map fun c => if isInvalidWmlIdChar c then '_' else c.toLower := by
  unfold makeIdentifier
  cases name with
  | nil => rfl
  | cons a rest =>
    simp only [List.isEmpty_cons, Bool.false_eq_true, if_false, QString.toLower, List.map_map]
    apply List.map_congr_left
    intro c hc
    exact (ascii_identifier_char_of c (hascii c hc)).1

/-! ## Theorems: markup export -/

/-- C16: `wmlFromColorList` formats a palette as its identifier followed by
the colours in palette order, each as exactly six upper-case hexadecimal digits
`RRGGBB` with no leading `#`, separated by single commas with no leading or
trailing comma (empty for the empty palette); for the palette
`[rgb(255,0,0), rgb(0,255,0)]` named "Test Pal" the identifier is `test_pal`
and the list is `FF0000,00FF00`. -/
theorem wmlFromColorList_format (name : QString) (palette : ColorList) :
    wmlFromColorList name palette
        = WML_COLOR_PALETTE_DESC ++ "\n".toList ++ "[color_palette]\n".toList ++ WML_INDENT
          ++ makeIdentifier name ++ "=\"".toList
          ++ List.intercalate ",".toList (palette.map hexRRGGBB)
          ++ "\"\n".toList ++ "[/color_palette]\n".toList ∧
      (∀ c ∈ palette, (hexRRGGBB c).length = 6 ∧
        ∀ d ∈ hexRRGGBB c, d ∈ "0123456789ABCDEF".toList) ∧
      List.intercalate ",".toList (([] : ColorList).map hexRRGGBB) = [] ∧
      makeIdentifier "Test Pal".toList = "test_pal".toList ∧
      List.intercalate ",".toList (([0xFFFF0000, 0xFF00FF00] : ColorList).map hexRRGGBB)
        = "FF0000,00FF00".toList := by
  refine ⟨?_, fun c _ => hexRRGGBB_digits c, by decide, by decide, by decide⟩
  unfold wmlFromColorList
  simp only [foldl_colorListStep]
  have h : palette.map makeWmlColor = palette.map hexRRGGBB :=
    List.map_congr_left fun c _ => makeWmlColor_eq c
  rw [h]
  rfl

/-- C17: `wmlFromColorRange` encodes the colour field as exactly four
comma-separated upper-case 6-digit hexadecimal colours without leading `#`, in
the order mid, max, min, map-marker, the map-marker colour being the mid
colour; the alpha of the range colours does not affect the text. -/
theorem wmlFromColorRange_format (name : QString) (range : ColorRange) :
    wmlFromColorRange name range
        = WML_COLOR_RANGE_DESC ++ "\n".toList ++ "[color_range]\n".toList
          ++ WML_INDENT ++ "id=\"".toList ++ makeIdentifier name ++ "\"\n".toList
          ++ WML_INDENT ++ "name= _ \"".toList ++ name ++ "\"\n".toList
          ++ WML_INDENT ++ "rgb=\"".toList
          ++ List.intercalate ",".toList
            [hexRRGGBB range.mid_, hexRRGGBB range.max_, hexRRGGBB range.min_,
              hexRRGGBB range.mid_]
          ++ "\"\n".toList ++ "[/color_range]\n".toList ∧
      (∀ c : QRgb, (hexRRGGBB c).length = 6 ∧
        ∀ d ∈ hexRRGGBB c, d ∈ "0123456789ABCDEF".toList) ∧
      ∀ other : ColorRange, rgbOf other.mid_ = rgbOf range.mid_ →
        rgbOf other.max_ = rgbOf range.max_ → rgbOf other.min_ = rgbOf range.min_ →
        wmlFromColorRange name other = wmlFromColorRange name range := by
  have hform : ∀ r : ColorRange, wmlFromColorRange name r
      = WML_COLOR_RANGE_DESC ++ "\n".toList ++ "[color_range]\n".toList
          ++ WML_INDENT ++ "id=\"".toList ++ makeIdentifier name ++ "\"\n".toList
          ++ WML_INDENT ++ "name= _ \"".toList ++ name ++ "\"\n".toList
          ++ WML_INDENT ++ "rgb=\"".toList
          ++ List.intercalate ",".toList
            [hexRRGGBB r.mid_, hexRRGGBB r.max_, hexRRGGBB r.min_, hexRRGGBB r.mid_]
          ++ "\"\n".toList ++ "[/color_range]\n".toList := by
    intro r
    unfold wmlFromColorRange
    simp only [makeWmlColor_eq, ColorRange.mid, ColorRange.max, ColorRange.min, intercalate_cons,
      List.map_cons, List.map_nil, List.flatten_cons, List.flatten_nil, List.append_assoc,
      List.append_nil]
  refine ⟨hform range, hexRRGGBB_digits, ?_⟩
  intro other h1 h2 h3
  rw [hform other, hform range, hexRRGGBB_congr _ _ h1, hexRRGGBB_congr _ _ h2,
    hexRRGGBB_congr _ _ h3]

/-- C18: `makeIdentifier` derives the identifier character by character.  For
every ASCII display name the result has the length of the name, its i-th
character is `_` when the i-th character of the name is `#`, `=`, `"` or a
whitespace character and the lower-cased i-th character otherwise; the result
holds none of those characters and no upper-case letter; the empty name gives
the empty identifier. -/
theorem makeIdentifier_charwise (name : QString) (hascii : ∀ c ∈ name, c.toNat < 128) :
    (makeIdentifier name).length = name.length ∧
      (∀ i (h : i < name.length), (makeIdentifier name)[i]?
        = some (if isInvalidWmlIdChar name[i] then '_' else name[i].toLower)) ∧
      (∀ c ∈ makeIdentifier name, isInvalidWmlIdChar c = false ∧ c.isUpper = false) ∧
      makeIdentifier [] = [] := by
  rw [makeIdentifier_eq_map name hascii]
  refine ⟨List.length_map _ _, ?_, ?_, rfl⟩
  · intro i h
    rw [List.getElem?_map, List.getElem?_eq_getElem h]
    rfl
  · intro c hc
    obtain ⟨c0, hc0, rfl⟩ := List.mem_map.mp hc
    exact (ascii_identifier_char_of c0 (hascii c0 hc0)).2

/-- Witness of C18 on a name with an upper-case letter, `#`, `=`, a quote and
white space. -/
theorem makeIdentifier_charwise_witness :
    makeIdentifier "My #1 = \"Red\"\t".toList = "my__1____red__".toList ∧
      (makeIdentifier "My #1 = \"Red\"\t".toList).length = "My #1 = \"Red\"\t".toList.length :=
  ⟨by decide,
    (makeIdentifier_charwise "My #1 = \"Red\"\t".toList (by decide)).1⟩

/-! ## Lemmas: registry -/

namespace NameMap

theorem find_insert_entry {V : Type} (m : NameMap V) (k : QString) (v : V) (key : QString) :
    (m.insert k v).find key = if key = k then some v else m.find key := by
  induction m with
  | nil => simp [insert, find]
  | cons e rest ih =>
    obtain ⟨k0, v0⟩ := e
    simp only [insert]
    by_cases h1 : k < k0
    · by_cases h3 : key = k <;> simp [find, h1, h3]
    · by_cases h2 : k = k0
      · subst h2
        by_cases h3 : key = k <;> simp [find, h1, h3]
      · by_cases h3 : key = k
        · subst h3
          simp [find, h1, h2, ih]
        · simp [find, h1, h2, h3, ih]

theorem mem_keys_insert_entry {V : Type} (m : NameMap V) (k : QString) (v : V) (key : QString) :
    key ∈ (m.insert k v).keys ↔ key = k ∨ key ∈ m.keys := by
  induction m with
  | nil => simp only [insert, keys, List.map_cons, List.map_nil, List.mem_singleton,
      List.not_mem_nil, or_false]
  | cons e rest ih =>
    obtain ⟨k0, v0⟩ := e
    simp only [keys] at ih
    simp only [insert]
    by_cases h1 : k < k0
    · simp only [h1, if_true, keys, List.map_cons, List.mem_cons]
    · by_cases h2 : k = k0
      · subst h2
        simp only [h1, if_false, if_true, keys, List.map_cons, List.mem_cons]
        tauto
      · simp only [h1, h2, if_false, keys, List.map_cons, List.mem_cons, ih]
        tauto

theorem find_insertMap_of_no_key {V : Type} (other self : NameMap V) (key : QString)
    (h : ∀ e ∈ other, e.1 ≠ key) : (self.insertMap other).find key = self.find key := by
  unfold insertMap
  induction other generalizing self with
  | nil => rfl
  | cons e rest ih =>
    rw [List.foldl_cons, ih _ (fun e1 h1 => h e1 (List.mem_cons_of_mem _ h1)), find_insert_entry]
    have := h e (List.mem_cons_self _ _)
    simp [Ne.symm this]

theorem find_insertMap_of_mem {V : Type} (other self : NameMap V) (k : QString) (v : V)
    (hnd : other.keys.Nodup) (hmem : (k, v) ∈ other) :
    (self.insertMap other).find k = some v := by
  induction other generalizing self with
  | nil => simp at hmem
  | cons e rest ih =>
    simp only [keys, List.map_cons, List.nodup_cons] at hnd
    show (NameMap.insertMap (self.insert e.1 e.2) rest).find k = some v
    rcases List.mem_cons.mp hmem with h | h
    · subst h
      rw [find_insertMap_of_no_key, find_insert_entry]
      · simp
      · intro e1 h1 heq
        exact hnd.1 (List.mem_map.mpr ⟨e1, h1, heq⟩)
    · exact ih _ hnd.2 h

theorem mem_keys_insertMap {V : Type} (other self : NameMap V) (key : QString) :
    key ∈ (self.insertMap other).keys ↔ key ∈ self.keys ∨ key ∈ other.keys := by
  unfold insertMap
  induction other generalizing self with
  | nil => simp only [List.foldl_nil, keys, List.map_nil, List.not_mem_nil, or_false]
  | cons e rest ih =>
    rw [List.foldl_cons, ih, mem_keys_insert_entry]
    simp only [keys, List.map_cons, List.mem_cons]
    tauto

theorem find_eq_none_of_not_mem_keys {V : Type} (m : NameMap V) (key : QString)
    (h : key ∉ m.keys) : m.find key = none := by
  induction m with
  | nil => rfl
  | cons e rest ih =>
    obtain ⟨k0, v0⟩ := e
    simp only [keys, List.map_cons, List.mem_cons, not_or] at h
    simp only [find, h.1, if_false]
    exact ih h.2

theorem mem_of_find_eq_some {V : Type} (m : NameMap V) (key : QString) (v : V)
    (h : m.find key = some v) : (key, v) ∈ m := by
  induction m with
  | nil => simp [find] at h
  | cons e rest ih =>
    obtain ⟨k0, v0⟩ := e
    simp only [find] at h
    by_cases h1 : key = k0
    · simp only [h1, if_true, Option.some.injEq] at h
      rw [h1, h]
      exact List.mem_cons_self _ _
    · simp only [h1, if_false] at h
      exact List.mem_cons_of_mem _ (ih h)

theorem find_ne_none_of_mem {V : Type} (m : NameMap V) (e : QString × V) (he : e ∈ m) :
    m.find e.1 ≠ none := by
  induction m with
  | nil => simp at he
  | cons e0 rest ih =>
    obtain ⟨k0, v0⟩ := e0
    simp only [find]
    by_cases h1 : e.1 = k0
    · simp [h1]
    · simp only [h1, if_false]
      rcases List.mem_cons.mp he with h | h
      · exact absurd (by rw [h]) h1
      · exact ih h

/-- Lookup in a merged map: the value of `other` when `other` has the key,
the value of `self` otherwise. -/
theorem find_insertMap {V : Type} (other self : NameMap V) (key : QString)
    (hnd : other.keys.Nodup) :
    (∀ v, other.find key = some v → (self.insertMap other).find key = some v) ∧
      (other.find key = none → (self.insertMap other).find key = self.find key) := by
  constructor
  · intro v hf
    exact find_insertMap_of_mem other self key v hnd (mem_of_find_eq_some _ _ _ hf)
  · intro hf
    apply find_insertMap_of_no_key
    intro e he heq
    exact find_ne_none_of_mem other e he (heq ▸ hf)

end NameMap

theorem map_range_getD {α : Type} (l : List α) (d : α) :
    (List.range l.length).map (fun k => l.getD k d) = l := by
  apply List.ext_getElem
  · simp
  · intro i h1 h2
    simp only [List.length_map, List.length_range] at h1
    simp [List.getD_eq_getElem?_getD, List.getElem?_eq_getElem h1]

theorem foldl_addBuiltinPalette (r : BuiltinRegistry ColorList) (ks : List Nat)
    (boxes : List Item × List Item) :
    ks.foldl (addBuiltinPalette r) boxes
      = (boxes.1 ++ ks.map (fun k =>
            (⟨r.orderedTranslatableNames.getD k [], r.orderedNames.getD k []⟩ : Item)),
          boxes.2 ++ ks.map (fun k =>
            (⟨r.orderedTranslatableNames.getD k [], r.orderedNames.getD k []⟩ : Item))) := by
  induction ks generalizing boxes with
  | nil => simp
  | cons k rest ih =>
    rw [List.foldl_cons, ih]
    simp [addBuiltinPalette, addItem]

theorem foldl_addUserPalette (capitalize : QString → QString) (r : BuiltinRegistry ColorList)
    (es : NameMap ColorList) (boxes : List Item × List Item) :
    es.foldl (addUserPalette capitalize r) boxes
      = (boxes.1 ++ ((es.filter fun e => !r.hasName e.1).map fun e =>
            (⟨capitalize e.1, e.1⟩ : Item)),
          boxes.2 ++ ((es.filter fun e => !r.hasName e.1).map fun e =>
            (⟨capitalize e.1, e.1⟩ : Item))) := by
  induction es generalizing boxes with
  | nil => simp
  | cons e rest ih =>
    rw [List.foldl_cons, ih]
    by_cases h : r.hasName e.1 = true
    · simp [addUserPalette, h]
    · simp [addUserPalette, addItem, h]

theorem foldl_addBuiltinRange (r : BuiltinRegistry ColorRange) (ks : List Nat)
    (items : List Item) :
    ks.foldl (addBuiltinRange r) items
      = items ++ ks.map (fun k =>
          (⟨r.orderedTranslatableNames.getD k [], r.orderedNames.getD k []⟩ : Item)) := by
  induction ks generalizing items with
  | nil => simp
  | cons k rest ih =>
    rw [List.foldl_cons, ih]
    simp [addBuiltinRange, insertRangeListItem]

theorem foldl_addUserRange (capitalize : QString → QString) (r : BuiltinRegistry ColorRange)
    (es : NameMap ColorRange) (items : List Item) :
    es.foldl (addUserRange capitalize r) items
      = items ++ ((es.filter fun e => !r.hasName e.1).map fun e =>
          (⟨capitalize e.1, e.1⟩ : Item)) := by
  induction es generalizing items with
  | nil => simp
  | cons e rest ih =>
    rw [List.foldl_cons, ih]
    by_cases h : r.hasName e.1 = true
    · simp [addUserRange, h]
    · simp [addUserRange, insertRangeListItem, h]

/-- The identifiers listed for a registry: the built-in names, then the user
keys that are no built-in names. -/
theorem data_display_list {V : Type} (capitalize : QString → QString) (r : BuiltinRegistry V)
    (es : NameMap V) :
    ((List.range r.objectCount).map (fun k =>
          (⟨r.orderedTranslatableNames.getD k [], r.orderedNames.getD k []⟩ : Item))
        ++ ((es.filter fun e => !r.hasName e.1).map fun e =>
          (⟨capitalize e.1, e.1⟩ : Item))).map Item.data
      = r.orderedNames ++ es.keys.filter (fun n => decide (n ∉ r.orderedNames)) := by
  rw [List.map_append, List.map_map, List.map_map]
  congr 1
  · exact map_range_getD r.orderedNames []
  · unfold NameMap.keys
    rw [List.filter_map]
    simp only [BuiltinRegistry.hasName, Function.comp_def, decide_not]

theorem nodup_display_list (names keys : List QString) (h1 : names.Nodup) (h2 : keys.Nodup) :
    (names ++ keys.filter (fun n => decide (n ∉ names))).Nodup := by
  rw [List.nodup_append]
  refine ⟨h1, h2.filter _, ?_⟩
  intro a ha hb
  have := (List.mem_filter.mp hb).2
  simp only [decide_eq_true_eq] at this
  exact this ha

theorem count_display_list (names keys : List QString) (n : QString) (hn : n ∈ names) :
    (names ++ keys.filter (fun n => decide (n ∉ names))).count n = names.count n := by
  rw [List.count_append]
  have : (keys.filter (fun n => decide (n ∉ names))).count n = 0 := by
    apply List.count_eq_zero_of_not_mem
    intro hb
    have := (List.mem_filter.mp hb).2
    simp only [decide_eq_true_eq] at this
    exact this hn
  rw [this, Nat.add_zero]

/-! ## Theorems: registry -/

/-- C19: in the merged registry built by `generateMergedRcDefinitions`, user
data overrides built-in data on identifier collision.  For every identifier,
looking it up in the merged ranges (resp. palettes) returns the user-defined
value when the user collection defines it and the value of the built-in
collection otherwise; the merged key set is the union of both key sets. -/
theorem generateMergedRcDefinitions_user_overrides
    (builtinColorRanges : BuiltinRegistry ColorRange)
    (builtinPalettes : BuiltinRegistry ColorList) (w : MainWindow)
    (hranges : w.userColorRanges_.keys.Nodup) (hpalettes : w.userPalettes_.keys.Nodup)
    (id : QString) :
    (∀ v, w.userColorRanges_.find id = some v →
        (generateMergedRcDefinitions builtinColorRanges builtinPalettes w).colorRanges_.find id
          = some v) ∧
      (w.userColorRanges_.find id = none →
        (generateMergedRcDefinitions builtinColorRanges builtinPalettes w).colorRanges_.find id
          = builtinColorRanges.objects.find id) ∧
      (∀ v, w.userPalettes_.find id = some v →
        (generateMergedRcDefinitions builtinColorRanges builtinPalettes w).palettes_.find id
          = some v) ∧
      (w.userPalettes_.find id = none →
        (generateMergedRcDefinitions builtinColorRanges builtinPalettes w).palettes_.find id
          = builtinPalettes.objects.find id) ∧
      (id ∈ (generateMergedRcDefinitions builtinColorRanges builtinPalettes w).colorRanges_.keys
        ↔ id ∈ builtinColorRanges.objects.keys ∨ id ∈ w.userColorRanges_.keys) ∧
      (id ∈ (generateMergedRcDefinitions builtinColorRanges builtinPalettes w).palettes_.keys
        ↔ id ∈ builtinPalettes.objects.keys ∨ id ∈ w.userPalettes_.keys) :=
  ⟨(NameMap.find_insertMap _ _ id hranges).1, (NameMap.find_insertMap _ _ id hranges).2,
    (NameMap.find_insertMap _ _ id hpalettes).1, (NameMap.find_insertMap _ _ id hpalettes).2,
    NameMap.mem_keys_insertMap _ _ id, NameMap.mem_keys_insertMap _ _ id⟩

/-- Witness of C19: the user palette `magenta` overrides the built-in palette
of that name. -/
theorem generateMergedRcDefinitions_user_overrides_witness :
    (generateMergedRcDefinitions
        ⟨["red".toList], ["Red".toList], [("red".toList, ⟨0xFFFF0000, 0xFFFFFFFF, 0xFF000000⟩)]⟩
        ⟨["magenta".toList], ["Magenta".toList], [("magenta".toList, [0xFFF49AC1])]⟩
        ⟨[], [("magenta".toList, [0xFF00FF00]), ("mine".toList, [0xFF0000FF])], [], [], [], [],
          []⟩).palettes_.find "magenta".toList
      = some [0xFF00FF00] :=
  (generateMergedRcDefinitions_user_overrides
    ⟨["red".toList], ["Red".toList], [("red".toList, ⟨0xFFFF0000, 0xFFFFFFFF, 0xFF000000⟩)]⟩
    ⟨["magenta".toList], ["Magenta".toList], [("magenta".toList, [0xFFF49AC1])]⟩
    ⟨[], [("magenta".toList, [0xFF00FF00]), ("mine".toList, [0xFF0000FF])], [], [], [], [], []⟩
    (by decide) (by decide) "magenta".toList).2.2.1 [0xFF00FF00] (by decide)

/-- C20: the display list produced by `processRcDefinitions` is a stable
merge.  For palettes (both combo boxes) and for ranges, the listed identifiers
are the built-in identifiers in their fixed order followed by exactly those
user identifiers that are not built-in identifiers; a user entry colliding
with a built-in adds no entry; with distinct built-in identifiers (and the
unique keys of the user map) no identifier is listed twice; the list has
`|built-ins| + |user identifiers not built-in|` entries. -/
theorem processRcDefinitions_display_list (capitalize : QString → QString)
    (builtinColorRanges : BuiltinRegistry ColorRange)
    (builtinPalettes : BuiltinRegistry ColorList) (w : MainWindow) :
    (processRcDefinitions capitalize builtinColorRanges builtinPalettes w).cbxKeyPal.map Item.data
        = builtinPalettes.orderedNames
          ++ w.userPalettes_.keys.filter (fun n => decide (n ∉ builtinPalettes.orderedNames)) ∧
      (processRcDefinitions capitalize builtinColorRanges builtinPalettes w).cbxNewPal
        = (processRcDefinitions capitalize builtinColorRanges builtinPalettes w).cbxKeyPal ∧
      (processRcDefinitions capitalize builtinColorRanges builtinPalettes w).listRanges.map
          Item.data
        = builtinColorRanges.orderedNames
          ++ w.userColorRanges_.keys.filter
            (fun n => decide (n ∉ builtinColorRanges.orderedNames)) ∧
      (∀ n ∈ builtinPalettes.orderedNames,
        ((processRcDefinitions capitalize builtinColorRanges builtinPalettes w).cbxKeyPal.map
          Item.data).count n = builtinPalettes.orderedNames.count n) ∧
      (∀ n ∈ builtinColorRanges.orderedNames,
        ((processRcDefinitions capitalize builtinColorRanges builtinPalettes w).listRanges.map
          Item.data).count n = builtinColorRanges.orderedNames.count n) ∧
      (builtinPalettes.orderedNames.Nodup → w.userPalettes_.keys.Nodup →
        ((processRcDefinitions capitalize builtinColorRanges builtinPalettes w).cbxKeyPal.map
          Item.data).Nodup) ∧
      (builtinColorRanges.orderedNames.Nodup → w.userColorRanges_.keys.Nodup →
        ((processRcDefinitions capitalize builtinColorRanges builtinPalettes w).listRanges.map
          Item.data).Nodup) ∧
      (processRcDefinitions capitalize builtinColorRanges builtinPalettes w).cbxKeyPal.length
        = builtinPalettes.orderedNames.length
          + (w.userPalettes_.keys.filter
              (fun n => decide (n ∉ builtinPalettes.orderedNames))).length ∧
      (processRcDefinitions capitalize builtinColorRanges builtinPalettes w).listRanges.length
        = builtinColorRanges.orderedNames.length
          + (w.userColorRanges_.keys.filter
              (fun n => decide (n ∉ builtinColorRanges.orderedNames))).length := by
  have hpal : (processRcDefinitions capitalize builtinColorRanges builtinPalettes
        w).cbxKeyPal.map Item.data
      = builtinPalettes.orderedNames
        ++ w.userPalettes_.keys.filter (fun n => decide (n ∉ builtinPalettes.orderedNames)) := by
    unfold processRcDefinitions
    simp only [foldl_addBuiltinPalette, foldl_addUserPalette, List.nil_append]
    exact data_display_list capitalize builtinPalettes w.userPalettes_
  have hnew : (processRcDefinitions capitalize builtinColorRanges builtinPalettes w).cbxNewPal
      = (processRcDefinitions capitalize builtinColorRanges builtinPalettes w).cbxKeyPal := by
    unfold processRcDefinitions
    simp only [foldl_addBuiltinPalette, foldl_addUserPalette, List.nil_append]
  have hrng : (processRcDefinitions capitalize builtinColorRanges builtinPalettes
        w).listRanges.map Item.data
      = builtinColorRanges.orderedNames
        ++ w.userColorRanges_.keys.filter
          (fun n => decide (n ∉ builtinColorRanges.orderedNames)) := by
    unfold processRcDefinitions
    simp only [foldl_addBuiltinRange, foldl_addUserRange, List.nil_append]
    exact data_display_list capitalize builtinColorRanges w.userColorRanges_
  refine ⟨hpal, hnew, hrng, ?_, ?_, ?_, ?_, ?_, ?_⟩
  · intro n hn
    rw [hpal]
    exact count_display_list _ _ n hn
  · intro n hn
    rw [hrng]
    exact count_display_list _ _ n hn
  · intro h1 h2
    rw [hpal]
    exact nodup_display_list _ _ h1 h2
  · intro h1 h2
    rw [hrng]
    exact nodup_display_list _ _ h1 h2
  · have := congrArg List.length hpal
    rw [List.length_map, List.length_append] at this
    exact this
  · have := congrArg List.length hrng
    rw [List.length_map, List.length_append] at this
    exact this

/-- Witness of C20: the user palette `magenta` collides with a built-in and is
not listed again; the user palette `mine` follows the built-ins. -/
theorem processRcDefinitions_display_list_witness :
    (processRcDefinitions id
        ⟨["red".toList], ["Red".toList], [("red".toList, ⟨0xFFFF0000, 0xFFFFFFFF, 0xFF000000⟩)]⟩
        ⟨["magenta".toList, "flag_green".toList], ["Magenta".toList, "Green flag".toList],
          [("flag_green".toList, [0xFF00C800]), ("magenta".toList, [0xFFF49AC1])]⟩
        ⟨[], [("magenta".toList, [0xFF00FF00]), ("mine".toList, [0xFF0000FF])], [], [], [], [],
          []⟩).cbxKeyPal.map Item.data
      = ["magenta".toList, "flag_green".toList]
        ++ (NameMap.keys [("magenta".toList, [0xFF00FF00]),
            ("mine".toList, ([0xFF0000FF] : ColorList))]).filter
          (fun n => decide (n ∉ ["magenta".toList, "flag_green".toList])) :=
  (processRcDefinitions_display_list id
    ⟨["red".toList], ["Red".toList], [("red".toList, ⟨0xFFFF0000, 0xFFFFFFFF, 0xFF000000⟩)]⟩
    ⟨["magenta".toList, "flag_green".toList], ["Magenta".toList, "Green flag".toList],
      [("flag_green".toList, [0xFF00C800]), ("magenta".toList, [0xFFF49AC1])]⟩
    ⟨[], [("magenta".toList, [0xFF00FF00]), ("mine".toList, [0xFF0000FF])], [], [], [], [],
      []⟩).1

/-! ## Theorems: uniqueness of keys in `generateColorMap` -/

theorem exists_last_index (l : List Nat) (c : Nat) (hc : c ∈ l) :
    ∃ j, ∃ hj : j < l.length, l[j] = c ∧ ∀ k (hk : k < l.length), j < k → l[k] ≠ c := by
  induction l with
  | nil => simp at hc
  | cons a rest ih =>
    by_cases hr : c ∈ rest
    · obtain ⟨j, hj, hjc, hlast⟩ := ih hr
      refine ⟨j + 1, by simp; omega, by simpa using hjc, ?_⟩
      intro k hk hjk
      obtain ⟨k, rfl⟩ : ∃ k0, k = k0 + 1 := ⟨k - 1, by omega⟩
      simp only [List.getElem_cons_succ]
      exact hlast k (by simpa using hk) (by omega)
    · have hca : c = a := by
        rcases List.mem_cons.mp hc with h | h
        · exact h
        · exact absurd h hr
      refine ⟨0, by simp, by simp [hca], ?_⟩
      intro k hk hjk
      obtain ⟨k, rfl⟩ : ∃ k0, k = k0 + 1 := ⟨k - 1, by omega⟩
      simp only [List.getElem_cons_succ]
      intro h
      exact hr (h ▸ List.getElem_mem _)

/-- C21: the keys of the mapping returned by `generateColorMap` are unique and
the last write wins.  For all palettes `S` and `T` with `n = min(len(S), len(T))`
and every colour `c` among `S[0..n-1]`, the returned mapping has pairwise
distinct keys, holds exactly one entry for `c`, and sends `c` to `T[j]` where
`j` is the greatest index below `n` with `S[j] = c`. -/
theorem generateColorMap_last_write_wins (S T : ColorList) (c : QRgb)
    (hc : c ∈ S.take (min S.length T.length)) :
    ∃ m, generateColorMap S T = some m ∧ m.keys.Nodup ∧ m.keys.count c = 1 ∧
      ∃ j, ∃ hs : j < S.length, ∃ ht : j < T.length, S[j] = c ∧
        (∀ k (hk : k < S.length), k < T.length → j < k → S[k] ≠ c) ∧
        m.find c = some T[j] := by
  have hsorted := sorted_foldl_insertEntry (S.zip T) [] (by simp [ColorMap.keys])
  have hnd : ((S.zip T).foldl insertEntry []).keys.Nodup := hsorted.imp (fun h => Nat.ne_of_lt h)
  have hkey : c ∈ ((S.zip T).foldl insertEntry []).keys := by
    rw [mem_keys_foldl_insertEntry, map_fst_zip_eq_take]
    exact Or.inl hc
  refine ⟨_, generateColorMap_eq S T, hnd, List.count_eq_one_of_mem hnd hkey, ?_⟩
  obtain ⟨j, hj, hjc, hlast⟩ := exists_last_index _ c hc
  rw [List.length_take] at hj
  have hs : j < S.length := by omega
  have ht : j < T.length := by omega
  rw [List.getElem_take] at hjc
  have hlast2 : ∀ k (hk : k < S.length), k < T.length → j < k → S[k] ≠ c := by
    intro k hk hkt hjk
    have := hlast k (by rw [List.length_take]; omega) hjk
    rwa [List.getElem_take] at this
  refine ⟨j, hs, ht, hjc, hlast2, ?_⟩
  have := find_zip_of_last S T j hs ht (fun k hk hjk hkt => by rw [hjc]; exact hlast2 k hk hkt hjk)
  rwa [hjc] at this

/-- Witness of C21: a source palette of four colours holding the same colour at
the indices 0, 2 and 3, against a target palette of three colours. -/
theorem generateColorMap_last_write_wins_witness :
    ∃ m, generateColorMap [0xFF0000FF, 0xFF00FF00, 0xFF0000FF, 0xFF0000FF] [1, 2, 3] = some m ∧
      m.keys.Nodup ∧ m.keys.count 0xFF0000FF = 1 ∧
      ∃ j, ∃ hs : j < ([0xFF0000FF, 0xFF00FF00, 0xFF0000FF, 0xFF0000FF] : ColorList).length,
        ∃ ht : j < ([1, 2, 3] : ColorList).length,
        ([0xFF0000FF, 0xFF00FF00, 0xFF0000FF, 0xFF0000FF] : ColorList)[j] = 0xFF0000FF ∧
        (∀ k (hk : k < ([0xFF0000FF, 0xFF00FF00, 0xFF0000FF, 0xFF0000FF] : ColorList).length),
          k < ([1, 2, 3] : ColorList).length → j < k →
          ([0xFF0000FF, 0xFF00FF00, 0xFF0000FF, 0xFF0000FF] : ColorList)[k] ≠ 0xFF0000FF) ∧
        m.find 0xFF0000FF = some ([1, 2, 3] : ColorList)[j] :=
  generateColorMap_last_write_wins [0xFF0000FF, 0xFF00FF00, 0xFF0000FF, 0xFF0000FF] [1, 2, 3]
    0xFF0000FF (by decide)

/-! ## Theorems: what the targets of `applyToPalette` depend on -/

theorem channelAvg_grey (a : Int) (h0 : 0 ≤ a) (h1 : a ≤ 255) : channelAvg (qRgb a a a) = a := by
  have h := (rgbOf_qRgb a a a h0 h1 h0 h1 h0 h1).1
  simp only [rgbOf, Prod.mk.injEq] at h
  unfold channelAvg
  rw [h.1, h.2.1, h.2.2, Int.toNat_of_nonneg h0, Int.tdiv_eq_ediv (by omega) (by norm_num)]
  omega

theorem storedColor_of_avg (self : ColorRange) (referenceAvg : Int) (c1 c2 : Nat)
    (h : channelAvg c1 = channelAvg c2) :
    storedColor self referenceAvg c1 = storedColor self referenceAvg c2 := by
  unfold storedColor newColor
  simp only [h]

theorem referenceAvg_cons (c0 : QRgb) (rest : ColorList) :
    referenceAvg (c0 :: rest) = channelAvg c0 := rfl

/-- C22: in `applyToPalette` the palette influences the target of a colour only
through the average of the first colour.  There is a function `f` such that,
for every range `R` and palette `c0 :: rest`, the value mapped to a palette
colour `c` is `f` of `R`, of the floor average of `c0` and of the floor average
of `c`.  Consequently two palettes with the same first colour give the same
target to a colour that is in both, whatever the order and the number of the
other colours, and two palette colours with equal floor average receive the
same target. -/
theorem applyToPalette_depends_on_averages :
    (∃ f : ColorRange → Int → Int → QRgb, ∀ (R : ColorRange) (c0 : QRgb) (rest : ColorList)
        (c : QRgb), c ∈ c0 :: rest →
        ∃ m, applyToPalette R (c0 :: rest) = some m ∧
          m.find c = some (f R (channelAvg c0) (channelAvg c))) ∧
      (∀ (R : ColorRange) (c0 : QRgb) (rest1 rest2 : ColorList) (c : QRgb),
        c ∈ c0 :: rest1 → c ∈ c0 :: rest2 →
        ∃ m1 m2, applyToPalette R (c0 :: rest1) = some m1 ∧
          applyToPalette R (c0 :: rest2) = some m2 ∧ m1.find c = m2.find c ∧
          m1.find c ≠ none) ∧
      ∀ (R : ColorRange) (P : ColorList) (c1 c2 : QRgb), c1 ∈ P → c2 ∈ P →
        channelAvg c1 = channelAvg c2 →
        ∃ m, applyToPalette R P = some m ∧ m.find c1 = m.find c2 ∧ m.find c1 ≠ none := by
  refine ⟨⟨fun R ref a => storedColor R ref (qRgb a a a), ?_⟩, ?_, ?_⟩
  · intro R c0 rest c hc
    refine ⟨_, applyToPalette_eq R (c0 :: rest), ?_⟩
    rw [find_foldl_insertEntry_graph _ _ _ c hc, referenceAvg_cons]
    refine congrArg some (storedColor_of_avg R _ _ _ ?_)
    rw [channelAvg_grey _ (channelAvg_bounds c).1 (channelAvg_bounds c).2]
  · intro R c0 rest1 rest2 c h1 h2
    refine ⟨_, _, applyToPalette_eq R (c0 :: rest1), applyToPalette_eq R (c0 :: rest2), ?_, ?_⟩
    · rw [find_foldl_insertEntry_graph _ _ _ c h1, find_foldl_insertEntry_graph _ _ _ c h2,
        referenceAvg_cons, referenceAvg_cons]
    · rw [find_foldl_insertEntry_graph _ _ _ c h1]
      simp
  · intro R P c1 c2 h1 h2 havg
    refine ⟨_, applyToPalette_eq R P, ?_, ?_⟩
    · rw [find_foldl_insertEntry_graph _ _ _ c1 h1, find_foldl_insertEntry_graph _ _ _ c2 h2,
        storedColor_of_avg R _ c1 c2 havg]
    · rw [find_foldl_insertEntry_graph _ _ _ c1 h1]
      simp

theorem selectBranch_zero (oldAvg : Int) : selectBranch 0 oldAvg = Branch.midMax := by
  simp [selectBranch]

theorem newColor_zero (self : ColorRange) (color : QRgb) :
    newColor self 0 color
      = (branchRatio 0 (channelAvg color) Branch.midMax).map fun oldRatio =>
          qRgb (qBound 0 (blend oldRatio (qRed self.mid_) (qRed self.max_)) 255)
            (qBound 0 (blend oldRatio (qGreen self.mid_) (qGreen self.max_)) 255)
            (qBound 0 (blend oldRatio (qBlue self.mid_) (qBlue self.max_)) 255) := by
  unfold newColor
  simp only [selectBranch_zero]

/-- C24: when the reference average is 0 the min/mid branch is never taken.
For every palette whose first colour has floor average 0 and every range, the
branch selected for every colour is the mid/max one; every palette entry, the
reference colour included, is the interpolation between `mid` and `max` with
the ratio `(255 - oldAvg) / 255`; and the returned mapping is the same for any
two ranges that agree on `mid` and `max`. -/
theorem applyToPalette_zero_reference (P : ColorList) (href : referenceAvg P = 0) :
    (∀ c : QRgb, selectBranch (referenceAvg P) (channelAvg c) = Branch.midMax) ∧
      (∀ (R : ColorRange) (c : QRgb), c ∈ P →
        ∃ m ratio, applyToPalette R P = some m ∧
          F32.div (F32.sub (F32.ofInt 255) (F32.ofInt (channelAvg c)))
            (F32.sub (F32.ofInt 255) (F32.ofInt 0)) = some ratio ∧
          m.find c = some (qRgb (qBound 0 (blend ratio (qRed R.mid_) (qRed R.max_)) 255)
            (qBound 0 (blend ratio (qGreen R.mid_) (qGreen R.max_)) 255)
            (qBound 0 (blend ratio (qBlue R.mid_) (qBlue R.max_)) 255))) ∧
      ∀ R1 R2 : ColorRange, R1.mid_ = R2.mid_ → R1.max_ = R2.max_ →
        applyToPalette R1 P = applyToPalette R2 P ∧ ∃ m, applyToPalette R1 P = some m := by
  refine ⟨?_, ?_, ?_⟩
  · intro c
    rw [href]
    exact selectBranch_zero _
  · intro R c hc
    obtain ⟨v, hv⟩ := newColor_isSome R 0 c (le_refl _) (by norm_num)
    have hv2 := hv
    rw [newColor_zero] at hv2
    obtain ⟨ratio, hratio, hval⟩ := Option.map_eq_some'.mp hv2
    refine ⟨_, ratio, applyToPalette_eq R P, hratio, ?_⟩
    rw [find_foldl_insertEntry_graph _ _ _ c hc, href, hval]
    simp [storedColor, hv]
  · intro R1 R2 hmid hmax
    refine ⟨?_, _, applyToPalette_eq R1 P⟩
    unfold applyToPalette
    simp only [href, newColor_zero, hmid, hmax]

/-- Witness of C24: a palette whose first colour is black, with the range
`{mid = #808080, max = #FFFFFF}`. -/
theorem applyToPalette_zero_reference_witness :
    referenceAvg [0xFF000000, 0xFF404040] = 0 ∧
      applyToPalette ⟨0xFF808080, 0xFFFFFFFF, 0xFF000000⟩ [0xFF000000, 0xFF404040]
        = applyToPalette ⟨0xFF808080, 0xFFFFFFFF, 0xFF123456⟩ [0xFF000000, 0xFF404040] :=
  ⟨by decide, ((applyToPalette_zero_reference [0xFF000000, 0xFF404040] (by decide)).2.2
    ⟨0xFF808080, 0xFFFFFFFF, 0xFF000000⟩ ⟨0xFF808080, 0xFFFFFFFF, 0xFF123456⟩ rfl rfl).1⟩

/-! ## Theorems: the end points of the gradient -/

theorem F32.div_zero_left (y : F32) (hy : y.units ≠ 0) : F32.div ⟨0⟩ y = some ⟨0⟩ := by
  unfold F32.div
  rw [if_neg hy]
  simp only [Int.zero_mul, neg_zero, ite_self]
  rw [F32.roundNearestEven_zero]

theorem blend_zero (midC otherC : Int) (h0 : 0 ≤ otherC) (h1 : otherC ≤ 255) :
    blend ⟨0⟩ midC otherC = otherC := by
  unfold blend
  have hone : F32.ofInt 1 = ⟨2 ^ 149⟩ := by
    rw [F32.ofInt_eq 1 (by norm_num), Int.one_mul]
  have hrep1 : F32.Representable (2 ^ 149) := by
    have := F32.representable_int 1 (by norm_num)
    rwa [Int.one_mul] at this
  have hsub : F32.sub ⟨2 ^ 149⟩ ⟨0⟩ = ⟨2 ^ 149⟩ := by
    rw [F32.sub_exact]
    · exact congrArg F32.mk (Int.sub_zero _)
    · show F32.Representable (2 ^ 149 - 0)
      rw [Int.sub_zero]
      exact hrep1
  have hother : F32.ofInt otherC = ⟨otherC * 2 ^ 149⟩ := ofInt_byte otherC h0 h1
  have hmul : F32.mul ⟨2 ^ 149⟩ ⟨otherC * 2 ^ 149⟩ = ⟨otherC * 2 ^ 149⟩ :=
    F32.mul_one_left _ (F32.representable_int otherC (by omega))
  have hadd : F32.add ⟨0⟩ ⟨otherC * 2 ^ 149⟩ = ⟨otherC * 2 ^ 149⟩ := by
    rw [F32.add_exact]
    · exact congrArg F32.mk (Int.zero_add _)
    · show F32.Representable (0 + otherC * 2 ^ 149)
      rw [Int.zero_add]
      exact F32.representable_int otherC (by omega)
  rw [hone, hsub, F32.mul_zero_left, hother, hmul, hadd]
  exact Int.mul_tdiv_cancel _ (by positivity)

theorem storedColor_zero_ratio (self : ColorRange) (referenceAvg : Int) (color : Nat)
    (hr0 : 0 ≤ referenceAvg) (hr1 : referenceAvg ≤ 255)
    (hzero : (if referenceAvg ≠ 0 ∧ channelAvg color ≤ referenceAvg then
          F32.div (F32.ofInt (channelAvg color)) (F32.ofInt referenceAvg)
        else F32.div (F32.sub (F32.ofInt 255) (F32.ofInt (channelAvg color)))
          (F32.sub (F32.ofInt 255) (F32.ofInt referenceAvg))) = some ⟨0⟩) :
    rgbOf (storedColor self referenceAvg color)
      = rgbOf (if referenceAvg ≠ 0 ∧ channelAvg color ≤ referenceAvg
          then self.min_ else self.max_) := by
  obtain ⟨ratio, hratio, hr, hg, hb, _⟩ := storedColor_channels self referenceAvg color hr0 hr1
  rw [hzero] at hratio
  cases hratio
  generalize (if referenceAvg ≠ 0 ∧ channelAvg color ≤ referenceAvg
    then self.min_ else self.max_) = other at hr hg hb ⊢
  rw [blend_zero _ _ (by omega) (by have := qRed_le other; omega)] at hr
  rw [blend_zero _ _ (by omega) (by have := qGreen_le other; omega)] at hg
  rw [blend_zero _ _ (by omega) (by have := qBlue_le other; omega)] at hb
  simp only [rgbOf, Prod.mk.injEq]
  exact ⟨by exact_mod_cast hr, by exact_mod_cast hg, by exact_mod_cast hb⟩

/-- C23: `applyToPalette` reaches the end points of the gradient exactly.  For
every range `R`, palette `P` and colour `c` of `P`: when the floor average of
`c` is 0 and the reference average is positive, the mapping sends `c` to a
colour with the R, G, B channels of `R.min`; when the floor average of `c` is
255 and the reference average is below 255, the mapping sends `c` to a colour
with the R, G, B channels of `R.max`. -/
theorem applyToPalette_end_points (R : ColorRange) (P : ColorList) (c : QRgb) (hc : c ∈ P) :
    (channelAvg c = 0 → 0 < referenceAvg P →
      ∃ m v, applyToPalette R P = some m ∧ m.find c = some v ∧ rgbOf v = rgbOf R.min_) ∧
    (channelAvg c = 255 → referenceAvg P < 255 →
      ∃ m v, applyToPalette R P = some m ∧ m.find c = some v ∧ rgbOf v = rgbOf R.max_) := by
  obtain ⟨hr0, hr1⟩ := referenceAvg_bounds P
  constructor
  · intro hzero hpos
    refine ⟨_, _, applyToPalette_eq R P, find_foldl_insertEntry_graph _ _ _ c hc, ?_⟩
    have hcond : referenceAvg P ≠ 0 ∧ channelAvg c ≤ referenceAvg P := ⟨by omega, by omega⟩
    have h := storedColor_zero_ratio R (referenceAvg P) c hr0 hr1 (by
      rw [if_pos hcond, hzero, ofInt_byte 0 (le_refl _) (by norm_num), Int.zero_mul]
      apply F32.div_zero_left
      rw [ofInt_byte _ hr0 hr1]
      show referenceAvg P * 2 ^ 149 ≠ 0
      positivity)
    rwa [if_pos hcond] at h
  · intro hfull hlt
    refine ⟨_, _, applyToPalette_eq R P, find_foldl_insertEntry_graph _ _ _ c hc, ?_⟩
    have hcond : ¬ (referenceAvg P ≠ 0 ∧ channelAvg c ≤ referenceAvg P) := by
      rintro ⟨_, h⟩
      omega
    have h := storedColor_zero_ratio R (referenceAvg P) c hr0 hr1 (by
      rw [if_neg hcond, hfull, sub_255_byte 255 (by norm_num) (le_refl _),
        sub_255_byte _ hr0 hr1, Int.sub_self, Int.zero_mul]
      apply F32.div_zero_left
      show (255 - referenceAvg P) * 2 ^ 149 ≠ 0
      have : 0 < 255 - referenceAvg P := by omega
      positivity)
    rwa [if_neg hcond] at h

/-- Witness of C23: the palette `[#808080, #000000, #FFFFFF]`, whose reference
average is 128; its colour `#000000` goes to `min` and its colour `#FFFFFF` to
`max`. -/
theorem applyToPalette_end_points_witness :
    (∃ m v, applyToPalette ⟨0xFF003200, 0xFF320000, 0xFF000032⟩
          [0xFF808080, 0xFF000000, 0xFFFFFFFF] = some m ∧
        m.find 0xFF000000 = some v ∧ rgbOf v = rgbOf 0xFF000032) ∧
    (∃ m v, applyToPalette ⟨0xFF003200, 0xFF320000, 0xFF000032⟩
          [0xFF808080, 0xFF000000, 0xFFFFFFFF] = some m ∧
        m.find 0xFFFFFFFF = some v ∧ rgbOf v = rgbOf 0xFF320000) :=
  ⟨(applyToPalette_end_points ⟨0xFF003200, 0xFF320000, 0xFF000032⟩
      [0xFF808080, 0xFF000000, 0xFFFFFFFF] 0xFF000000 (by decide)).1 (by decide) (by decide),
    (applyToPalette_end_points ⟨0xFF003200, 0xFF320000, 0xFF000032⟩
      [0xFF808080, 0xFF000000, 0xFFFFFFFF] 0xFFFFFFFF (by decide)).2 (by decide) (by decide)⟩

/-! ## Theorems: switching palettes back and forth -/

theorem ColorMap.mem_of_find (m : ColorMap) (k v : Nat) (h : m.find k = some v) :
    (k, v) ∈ m := by
  induction m with
  | nil => simp [ColorMap.find] at h
  | cons e rest ih =>
    obtain ⟨k0, v0⟩ := e
    simp only [ColorMap.find] at h
    by_cases h1 : k = k0
    · rw [if_pos h1] at h
      cases h
      subst h1
      exact List.mem_cons_self _ _
    · rw [if_neg h1] at h
      exact List.mem_cons_of_mem _ (ih h)

theorem map_pixels_eq (img : QImage) (f : QRgb → QRgb)
    (h : ∀ line ∈ img.scanLines, ∀ px ∈ line, f px = px) :
    ({ img with scanLines := img.scanLines.map (List.map f) } : QImage) = img := by
  have hlines : img.scanLines.map (List.map f) = img.scanLines := by
    conv_rhs => rw [← List.map_id img.scanLines]
    apply List.map_congr_left
    intro line hline
    conv_rhs => rw [id, ← List.map_id line]
    apply List.map_congr_left
    intro px hpx
    exact h line hline px hpx
  rw [hlines]

theorem rectangular_map_pixels (img : QImage) (f : QRgb → QRgb) (h : img.Rectangular) :
    ({ img with scanLines := img.scanLines.map (List.map f) } : QImage).Rectangular := by
  refine ⟨by simpa using h.1, ?_⟩
  intro line hline
  obtain ⟨l0, hl0, rfl⟩ := List.mem_map.mp hline
  simpa using h.2 l0 hl0

/-- Two passes of `recolorImage` map the composition of the two pixel
transforms over every pixel. -/
theorem recolorImage_twice_eq_map (img : QImage) (cm1 cm2 : ColorMap) (h : img.Rectangular) :
    recolorImage (recolorImage img cm1) cm2
      = { img with scanLines := img.scanLines.map (List.map fun px =>
          recolorPixel (plainRgbMap cm2) (recolorPixel (plainRgbMap cm1) px)) } := by
  rw [recolorImage_eq_map img cm1 h,
    recolorImage_eq_map _ cm2 (rectangular_map_pixels img _ h)]
  simp only [List.map_map]
  refine congrArg (QImage.mk img.width img.height) ?_
  apply List.map_congr_left
  intro line _
  simp [List.map_map]

theorem nodup_rgb_keys_zip (A B : ColorList) (hA : (A.map rgbOf).Nodup) :
    (((A.zip B).foldl insertEntry []).map fun e => rgbOf e.1).Nodup := by
  have hsorted := sorted_foldl_insertEntry (A.zip B) [] (by simp [ColorMap.keys])
  have hnd : ((A.zip B).foldl insertEntry []).keys.Nodup := hsorted.imp (fun h => Nat.ne_of_lt h)
  have hsub : ∀ k ∈ ((A.zip B).foldl insertEntry []).keys, k ∈ A := by
    intro k hk
    rw [mem_keys_foldl_insertEntry, map_fst_zip_eq_take] at hk
    rcases hk with hk | hk
    · exact List.mem_of_mem_take hk
    · simp [ColorMap.keys] at hk
  have hinj := List.inj_on_of_nodup_map hA
  have := List.Nodup.map_on (f := rgbOf)
    (fun x hx y hy hxy => hinj (hsub x hx) (hsub y hy) hxy) hnd
  simpa [ColorMap.keys, List.map_map] using this

theorem key_mem_zip (A B : ColorList) (e : QRgb × QRgb)
    (he : e ∈ (A.zip B).foldl insertEntry []) : e.1 ∈ A := by
  rcases mem_foldl_insertEntry _ _ e he with h | h
  · exact (List.of_mem_zip (a := e.1) (b := e.2) h).1
  · simp at h

theorem entry_mem_zip (A B : ColorList) (hA : A.Nodup) (i : Nat) (hs : i < A.length)
    (ht : i < B.length) : (A[i], B[i]) ∈ (A.zip B).foldl insertEntry [] := by
  apply ColorMap.mem_of_find
  apply find_zip_of_last A B i hs ht
  intro j hj hij _ heq
  have := (List.Nodup.getElem_inj_iff hA).mp heq
  omega

theorem word_lt (a v : Nat) (ha : a < 256) : a * 2 ^ 24 + v % 2 ^ 24 < 2 ^ 32 := by
  omega

theorem qAlpha_lt (px : Nat) (hpx : px < 2 ^ 32) : qAlpha px < 256 := by
  simp only [qAlpha, Nat.shiftRight_eq_div_pow, Nat.reducePow]
  omega

theorem recolorPixel_round_trip (A B : ColorList) (hlen : A.length = B.length)
    (hA : (A.map rgbOf).Nodup) (hB : (B.map rgbOf).Nodup) (px : Nat) (hpx : px < 2 ^ 32)
    (h : (∃ a ∈ A, rgbOf a = rgbOf px) ∨ ∀ b ∈ B, rgbOf b ≠ rgbOf px) :
    recolorPixel (plainRgbMap ((B.zip A).foldl insertEntry []))
      (recolorPixel (plainRgbMap ((A.zip B).foldl insertEntry [])) px) = px := by
  by_cases hex : ∃ a ∈ A, rgbOf a = rgbOf px
  · obtain ⟨a, ha, hrgb⟩ := hex
    obtain ⟨i, hi, rfl⟩ := List.mem_iff_getElem.mp ha
    have hiB : i < B.length := by omega
    rw [recolorPixel_of_mem _ px A[i] B[i] (nodup_rgb_keys_zip A B hA)
      (entry_mem_zip A B (List.Nodup.of_map _ hA) i hi hiB) hrgb.symm hpx]
    rw [recolorPixel_of_mem _ _ B[i] A[i] (nodup_rgb_keys_zip B A hB)
      (entry_mem_zip B A (List.Nodup.of_map _ hB) i hiB hi) (rgbOf_word _ _)
      (word_lt _ _ (qAlpha_lt px hpx)), qAlpha_word]
    have h1 := (rgbOf_eq_iff A[i] px).mp hrgb
    rw [and_rgbMask_eq_mod, and_rgbMask_eq_mod] at h1
    rw [h1, qAlpha, Nat.shiftRight_eq_div_pow]
    exact word_split px
  · have hB2 : ∀ b ∈ B, rgbOf b ≠ rgbOf px := by
      rcases h with h | h
      · exact absurd h hex
      · exact h
    rw [recolorPixel_of_no_key _ px (fun e he heq => hex ⟨e.1, key_mem_zip A B e he, heq⟩)]
    exact recolorPixel_of_no_key _ px (fun e he heq => hB2 e.1 (key_mem_zip B A e he) heq)

/-- C26: a palette switch is reversible.  For all palettes `A` and `B` of equal
length whose colours are pairwise distinct in RGB within `A` and within `B`,
and every ARGB32 image in which the RGB of every pixel is a colour of `A` or
is not a colour of `B`, recolouring with `generateColorMap(A, B)` and then
with `generateColorMap(B, A)` gives back the image. -/
theorem palette_switch_reversible (A B : ColorList) (img : QImage)
    (hlen : A.length = B.length) (hA : (A.map rgbOf).Nodup) (hB : (B.map rgbOf).Nodup)
    (hwf : img.WellFormed)
    (himg : ∀ line ∈ img.scanLines, ∀ px ∈ line,
      (∃ a ∈ A, rgbOf a = rgbOf px) ∨ ∀ b ∈ B, rgbOf b ≠ rgbOf px) :
    ∃ m1 m2, generateColorMap A B = some m1 ∧ generateColorMap B A = some m2 ∧
      recolorImage (recolorImage img m1) m2 = img := by
  refine ⟨_, _, generateColorMap_eq A B, generateColorMap_eq B A, ?_⟩
  rw [recolorImage_twice_eq_map img _ _ hwf.rectangular]
  apply map_pixels_eq
  intro line hline px hpx
  exact recolorPixel_round_trip A B hlen hA hB px ((hwf.2 line hline).2 px hpx)
    (himg line hline px hpx)

/-- Witness of C26: two palettes of two colours and a 3 x 1 image with a pixel
of each colour of the first palette and a pixel of a colour of neither. -/
theorem palette_switch_reversible_witness :
    ∃ m1 m2, generateColorMap [0xFF0000FF, 0xFF00FF00] [0xFF00FF00, 0xFFFF0000] = some m1 ∧
      generateColorMap [0xFF00FF00, 0xFFFF0000] [0xFF0000FF, 0xFF00FF00] = some m2 ∧
      recolorImage (recolorImage ⟨3, 1, [[0x800000FF, 0x0100FF00, 0xFF123456]]⟩ m1) m2
        = ⟨3, 1, [[0x800000FF, 0x0100FF00, 0xFF123456]]⟩ :=
  palette_switch_reversible [0xFF0000FF, 0xFF00FF00] [0xFF00FF00, 0xFFFF0000]
    ⟨3, 1, [[0x800000FF, 0x0100FF00, 0xFF123456]]⟩ rfl (by decide) (by decide)
    (by simp [QImage.WellFormed]) (by decide)

theorem entry_eq_of_mem_zip_self (P : ColorList) (e : QRgb × QRgb)
    (he : e ∈ (P.zip P).foldl insertEntry []) : e.2 = e.1 := by
  rcases mem_foldl_insertEntry _ _ e he with h | h
  · rw [List.zip_eq_zipWith, List.zipWith_same, List.mem_map] at h
    obtain ⟨a, _, rfl⟩ := h
    rfl
  · simp at h

/-- C27: switching a palette to itself changes nothing.  For every palette `P`,
with or without repeated colours or colours differing only in alpha, and every
ARGB32 image, recolouring with `generateColorMap(P, P)` gives back the image. -/
theorem palette_switch_to_itself (P : ColorList) (img : QImage) (hwf : img.WellFormed) :
    ∃ m, generateColorMap P P = some m ∧ recolorImage img m = img := by
  refine ⟨_, generateColorMap_eq P P, ?_⟩
  rw [recolorImage_eq_map img _ hwf.rectangular]
  apply map_pixels_eq
  intro line hline px hpx
  exact recolorPixel_identity _ px ((hwf.2 line hline).2 px hpx) (entry_eq_of_mem_zip_self P)

/-- Witness of C27: a palette holding a colour twice and the same RGB under a
second alpha, with a 2 x 2 image. -/
theorem palette_switch_to_itself_witness :
    ∃ m, generateColorMap [0xFF112233, 0x80112233, 0xFF112233, 0xFF445566]
        [0xFF112233, 0x80112233, 0xFF112233, 0xFF445566] = some m ∧
      recolorImage ⟨2, 2, [[0x80112233, 0x01445566], [0xFF112233, 0x00000000]]⟩ m
        = ⟨2, 2, [[0x80112233, 0x01445566], [0xFF112233, 0x00000000]]⟩ :=
  palette_switch_to_itself [0xFF112233, 0x80112233, 0xFF112233, 0xFF445566]
    ⟨2, 2, [[0x80112233, 0x01445566], [0xFF112233, 0x00000000]]⟩ (by simp [QImage.WellFormed])

/-! ## Theorems: the interpolation as a convex combination -/

namespace F32

theorem roundMag_err_lower (a d : Nat) (hd : 0 < d) :
    2 * a ≤ 2 * (roundMag a d * d) + d * 2 ^ ulpShift (a / d) := by
  unfold roundMag
  simp only
  generalize ulpShift (a / d) = s
  have hdm := Nat.div_add_mod a (d * 2 ^ s)
  have hr : a % (d * 2 ^ s) < d * 2 ^ s := Nat.mod_lt _ (by positivity)
  have key : ∀ x : Nat, x * 2 ^ s * d = (d * 2 ^ s) * x := fun x => by ring
  rw [key]
  generalize d * 2 ^ s = u at *
  generalize a / u = m at *
  generalize a % u = r at *
  split_ifs with h1 h2 h3
  · omega
  · rw [Nat.mul_add, Nat.mul_one]; omega
  · omega
  · rw [Nat.mul_add, Nat.mul_one]; omega

/-- Rounding moves a quotient below `2 ^ (24 + s0)` down by at most half of
`2 ^ s0`. -/
theorem rne_err_lower (k : Int) (d s0 : Nat) (hk : 0 ≤ k) (hd : 0 < d)
    (hlt : k < 2 ^ (24 + s0)) :
    2 * k ≤ 2 * (roundNearestEven (k * d) d).units + 2 ^ s0 := by
  have hd1 : (0 : Int) ≤ d := Int.ofNat_nonneg d
  rw [units_roundNearestEven_of_nonneg _ d (Int.mul_nonneg hk hd1), natAbs_mul_cast k d]
  have hk1 : (k.natAbs : Int) = k := Int.natAbs_of_nonneg hk
  have hlt1 : k.natAbs < 2 ^ (24 + s0) := by
    have : ((k.natAbs : Nat) : Int) < ((2 ^ (24 + s0) : Nat) : Int) := by
      rw [hk1]; push_cast; exact hlt
    exact Int.ofNat_lt.mp this
  have hs : ulpShift (k.natAbs * d / d) ≤ s0 := by
    rw [Nat.mul_div_cancel _ hd]
    apply ulpShift_le
    rw [Nat.div_lt_iff_lt_mul (by positivity), ← pow_add]
    exact hlt1
  have herr := roundMag_err_lower (k.natAbs * d) d hd
  have hpow : d * 2 ^ ulpShift (k.natAbs * d / d) ≤ d * 2 ^ s0 :=
    Nat.mul_le_mul_left d (Nat.pow_le_pow_right (by norm_num) hs)
  have h2 : 2 * k.natAbs * d ≤ (2 * roundMag (k.natAbs * d) d + 2 ^ s0) * d := by
    calc 2 * k.natAbs * d = 2 * (k.natAbs * d) := by ring
      _ ≤ 2 * (roundMag (k.natAbs * d) d * d) + d * 2 ^ s0 :=
        le_trans herr (Nat.add_le_add_left hpow _)
      _ = (2 * roundMag (k.natAbs * d) d + 2 ^ s0) * d := by ring
  have h3 : 2 * k.natAbs ≤ 2 * roundMag (k.natAbs * d) d + 2 ^ s0 :=
    Nat.le_of_mul_le_mul_right h2 hd
  have h4 : ((2 * k.natAbs : Nat) : Int) ≤ ((2 * roundMag (k.natAbs * d) d + 2 ^ s0 : Nat) : Int) :=
    Int.ofNat_le.mpr h3
  push_cast at h4
  rw [abs_of_nonneg hk] at h4
  exact h4

theorem rne_one_err_lower (n : Int) (s0 : Nat) (hn : 0 ≤ n) (hlt : n < 2 ^ (24 + s0)) :
    2 * n ≤ 2 * (roundNearestEven n 1).units + 2 ^ s0 := by
  have h := rne_err_lower n 1 s0 hn (by norm_num) hlt
  rw [Nat.cast_one, mul_one] at h
  exact h

/-- The product of a float in [0, 1] with an 8-bit integer: at most half a unit
in the last place (of the binade below 256) below the exact product. -/
theorem mul_byte_lower (x : F32) (c : Int) (hx0 : 0 ≤ x.units) (hx1 : x.units ≤ 2 ^ 149)
    (hc0 : 0 ≤ c) (hc1 : c ≤ 255) :
    2 * (x.units * c) ≤ 2 * (mul x ⟨c * 2 ^ 149⟩).units + 2 ^ 133 := by
  have hcast : ((2 ^ 149 : Nat) : Int) = 2 ^ 149 := by norm_cast
  have hprod : x.units * (c * 2 ^ 149) = x.units * c * ((2 ^ 149 : Nat) : Int) := by
    rw [hcast]; ring
  have hk0 : 0 ≤ x.units * c := Int.mul_nonneg hx0 hc0
  have hk1 : x.units * c ≤ 2 ^ 149 * 255 := by
    calc x.units * c ≤ 2 ^ 149 * c := Int.mul_le_mul_of_nonneg_right hx1 hc0
      _ ≤ 2 ^ 149 * 255 := Int.mul_le_mul_of_nonneg_left hc1 (by positivity)
  unfold mul
  show 2 * (x.units * c)
    ≤ 2 * (roundNearestEven (x.units * (c * 2 ^ 149)) (2 ^ 149)).units + 2 ^ 133
  rw [hprod]
  apply rne_err_lower _ _ 133 hk0 (by positivity)
  calc x.units * c ≤ 2 ^ 149 * 255 := hk1
    _ < 2 ^ (24 + 133) := by norm_num

end F32

/-- With a ratio in [0, 1] and both end points in `[lo, hi]`, the interpolated
channel lies in `[lo - 1, hi]`: the rounding of the products and of the sum can
bring the value just below `lo`, and the conversion to `int` truncates. -/
theorem blend_between (ratio : F32) (midC otherC lo hi : Int) (hr0 : 0 ≤ ratio.units)
    (hr1 : ratio.units ≤ 2 ^ 149) (hlo : 0 ≤ lo) (hhi : hi ≤ 255)
    (hm0 : lo ≤ midC) (hm1 : midC ≤ hi) (ho0 : lo ≤ otherC) (ho1 : otherC ≤ hi) :
    lo - 1 ≤ blend ratio midC otherC ∧ blend ratio midC otherC ≤ hi := by
  have hone : F32.ofInt 1 = ⟨2 ^ 149⟩ := by
    rw [F32.ofInt_eq 1 (by norm_num), Int.one_mul]
  have hU : ((1 * 2 ^ 149 : Nat) : Int) = 2 ^ 149 := by norm_cast
  have hb0 : 0 ≤ (F32.sub ⟨2 ^ 149⟩ ratio).units :=
    F32.rne_one_nonneg _ (by show (0 : Int) ≤ 2 ^ 149 - ratio.units; omega)
  have hb1 : (F32.sub ⟨2 ^ 149⟩ ratio).units ≤ 2 ^ 149 := by
    have h := F32.rne_one_le (2 ^ 149 - ratio.units) 1 149 (by omega) (by norm_num)
      (by rw [hU]; omega)
    rw [hU] at h
    exact h
  have hbe : 2 * (F32.sub ⟨2 ^ 149⟩ ratio).units ≤ 2 * (2 ^ 149 - ratio.units) + 2 ^ 126 :=
    F32.rne_one_err (2 ^ 149 - ratio.units) 126 (by omega)
      (by
        show 2 ^ 149 - ratio.units < 2 ^ 150
        omega)
  have hbl : 2 * (2 ^ 149 - ratio.units) ≤ 2 * (F32.sub ⟨2 ^ 149⟩ ratio).units + 2 ^ 126 :=
    F32.rne_one_err_lower (2 ^ 149 - ratio.units) 126 (by omega)
      (by
        show 2 ^ 149 - ratio.units < 2 ^ 150
        omega)
  obtain ⟨hp0, hpe⟩ := F32.mul_byte_bounds ratio midC hr0 hr1 (by omega) (by omega)
  have hpl := F32.mul_byte_lower ratio midC hr0 hr1 (by omega) (by omega)
  obtain ⟨hq0, hqe⟩ := F32.mul_byte_bounds (F32.sub ⟨2 ^ 149⟩ ratio) otherC hb0 hb1 (by omega)
    (by omega)
  have hql := F32.mul_byte_lower (F32.sub ⟨2 ^ 149⟩ ratio) otherC hb0 hb1 (by omega) (by omega)
  have hpm : ratio.units * midC ≤ ratio.units * hi := Int.mul_le_mul_of_nonneg_left hm1 hr0
  have hpm2 : ratio.units * lo ≤ ratio.units * midC := Int.mul_le_mul_of_nonneg_left hm0 hr0
  have hqm : (F32.sub ⟨2 ^ 149⟩ ratio).units * otherC ≤ (F32.sub ⟨2 ^ 149⟩ ratio).units * hi :=
    Int.mul_le_mul_of_nonneg_left ho1 hb0
  have hqm2 : (F32.sub ⟨2 ^ 149⟩ ratio).units * lo ≤ (F32.sub ⟨2 ^ 149⟩ ratio).units * otherC :=
    Int.mul_le_mul_of_nonneg_left ho0 hb0
  have hhi0 : 0 ≤ hi := by omega
  have hsumhi : 2 * (ratio.units * hi) + 2 * ((F32.sub ⟨2 ^ 149⟩ ratio).units * hi)
      ≤ 2 * (2 ^ 149 * hi) + 2 ^ 126 * hi := by
    have := Int.mul_le_mul_of_nonneg_right
      (show 2 * ratio.units + 2 * (F32.sub ⟨2 ^ 149⟩ ratio).units ≤ 2 * 2 ^ 149 + 2 ^ 126 by
        omega) hhi0
    calc 2 * (ratio.units * hi) + 2 * ((F32.sub ⟨2 ^ 149⟩ ratio).units * hi)
        = (2 * ratio.units + 2 * (F32.sub ⟨2 ^ 149⟩ ratio).units) * hi := by ring
      _ ≤ (2 * 2 ^ 149 + 2 ^ 126) * hi := this
      _ = 2 * (2 ^ 149 * hi) + 2 ^ 126 * hi := by ring
  have hsumlo : 2 * (2 ^ 149 * lo)
      ≤ 2 * (ratio.units * lo) + 2 * ((F32.sub ⟨2 ^ 149⟩ ratio).units * lo) + 2 ^ 126 * lo := by
    have := Int.mul_le_mul_of_nonneg_right
      (show 2 * 2 ^ 149 ≤ 2 * ratio.units + 2 * (F32.sub ⟨2 ^ 149⟩ ratio).units + 2 ^ 126 by
        omega) hlo
    calc 2 * (2 ^ 149 * lo) = (2 * 2 ^ 149) * lo := by ring
      _ ≤ (2 * ratio.units + 2 * (F32.sub ⟨2 ^ 149⟩ ratio).units + 2 ^ 126) * lo := this
      _ = 2 * (ratio.units * lo) + 2 * ((F32.sub ⟨2 ^ 149⟩ ratio).units * lo)
          + 2 ^ 126 * lo := by ring
  unfold blend
  rw [hone, ofInt_byte midC (by omega) (by omega), ofInt_byte otherC (by omega) (by omega)]
  have hadd : ∀ x y : F32,
      (F32.add x y).units = (F32.roundNearestEven (x.units + y.units) 1).units := fun _ _ => rfl
  unfold F32.toInt
  rw [hadd]
  generalize (F32.mul ratio ⟨midC * 2 ^ 149⟩).units = p at hp0 hpe hpl ⊢
  generalize (F32.mul (F32.sub ⟨2 ^ 149⟩ ratio) ⟨otherC * 2 ^ 149⟩).units = q at hq0 hqe hql ⊢
  generalize (F32.sub ⟨2 ^ 149⟩ ratio).units * otherC = bm at hqe hql hqm hqm2
  generalize ratio.units * midC = am at hpe hpl hpm hpm2
  generalize (F32.sub ⟨2 ^ 149⟩ ratio).units * hi = bh at hqm hsumhi
  generalize ratio.units * hi = ah at hpm hsumhi
  generalize (F32.sub ⟨2 ^ 149⟩ ratio).units * lo = bl at hqm2 hsumlo
  generalize ratio.units * lo = al at hpm2 hsumlo
  have hcast : (((hi.toNat * 2 ^ 15 + 1) * 2 ^ 134 : Nat) : Int) = 2 ^ 149 * hi + 2 ^ 134 := by
    push_cast
    rw [Int.toNat_of_nonneg hhi0]
    ring
  have hsum : p + q ≤ (((hi.toNat * 2 ^ 15 + 1) * 2 ^ 134 : Nat) : Int) := by
    rw [hcast]
    omega
  have hres0 : 0 ≤ (F32.roundNearestEven (p + q) 1).units :=
    F32.rne_one_nonneg _ (by omega)
  have hres1 := F32.rne_one_le (p + q) (hi.toNat * 2 ^ 15 + 1) 134 (by omega)
    (by omega) hsum
  rw [hcast] at hres1
  have hres2 := F32.rne_one_err_lower (p + q) 134 (by omega)
    (by
      show p + q < 2 ^ 158
      rw [hcast] at hsum
      omega)
  generalize (F32.roundNearestEven (p + q) 1).units = r at hres0 hres1 hres2 ⊢
  rw [Int.tdiv_eq_ediv hres0 (by positivity)]
  have hpos : (0 : Int) < 2 ^ 149 := by positivity
  constructor
  · apply (Int.le_ediv_iff_mul_le hpos).mpr
    omega
  · have hlt : r / 2 ^ 149 < hi + 1 := Int.ediv_lt_of_lt_mul hpos (by omega)
    exact Int.lt_add_one_iff.mp hlt
theorem blend_channel_facts (ratio : F32) (hr0 : 0 ≤ ratio.units) (hr1 : ratio.units ≤ 2 ^ 149)
    (midC otherC stored : Nat) (hm : midC ≤ 255) (ho : otherC ≤ 255)
    (hv : (stored : Int) = blend ratio midC otherC) :
    (stored : Int) = blend ratio midC otherC ∧
      qBound 0 (blend ratio midC otherC) 255 = blend ratio midC otherC ∧
      min (midC : Int) otherC - 1 ≤ (stored : Int) ∧
      (stored : Int) ≤ max (midC : Int) otherC := by
  have hb := blend_bounds ratio midC otherC hr0 hr1 (by omega) (by omega) (by omega) (by omega)
  have hbt := blend_between ratio midC otherC (min (midC : Int) otherC) (max (midC : Int) otherC)
    hr0 hr1 (by omega) (by omega) (min_le_left _ _) (le_max_left _ _) (min_le_right _ _)
    (le_max_right _ _)
  rw [hv]
  exact ⟨rfl, qBound_of_byte _ hb.1 hb.2, hbt.1, hbt.2⟩

theorem ratio_bounds_of_cond (referenceAvg oldAvg : Int) (hr0 : 0 ≤ referenceAvg)
    (hr1 : referenceAvg ≤ 255) (ho0 : 0 ≤ oldAvg) (ho1 : oldAvg ≤ 255) (ratio : F32)
    (h : (if referenceAvg ≠ 0 ∧ oldAvg ≤ referenceAvg then
          F32.div (F32.ofInt oldAvg) (F32.ofInt referenceAvg)
        else F32.div (F32.sub (F32.ofInt 255) (F32.ofInt oldAvg))
          (F32.sub (F32.ofInt 255) (F32.ofInt referenceAvg))) = some ratio) :
    0 ≤ ratio.units ∧ ratio.units ≤ 2 ^ 149 := by
  apply branchRatio_bounds referenceAvg oldAvg hr0 hr1 ho0 ho1 ratio
  unfold selectBranch
  by_cases h1 : referenceAvg ≠ 0 ∧ oldAvg ≤ referenceAvg
  · rw [if_pos h1] at h ⊢
    exact h
  · have h2 : 255 - referenceAvg ≠ 0 := by
      intro h3
      apply h1
      constructor <;> omega
    rw [if_neg h1] at h ⊢
    rw [if_pos h2]
    exact h

/-- C25, counterexample: with reference colour rgb(3,3,3), palette colour
rgb(1,1,1) and `mid = min = rgb(15,15,15)` the min/mid branch is taken and the
stored red channel is 14, which is not between the red channel 15 of `mid` and
the red channel 15 of `min`: the ratio and `1 - ratio` are rounded, their
products with 15 sum to just below 15, and the conversion to `int` truncates. -/
theorem applyToPalette_convex_counterexample :
    ∃ m value,
      applyToPalette ⟨0xFF0F0F0F, 0xFFFFFFFF, 0xFF0F0F0F⟩ [0xFF030303, 0xFF010101] = some m ∧
      m.find 0xFF010101 = some value ∧
      (referenceAvg [0xFF030303, 0xFF010101] ≠ 0 ∧
        channelAvg 0xFF010101 ≤ referenceAvg [0xFF030303, 0xFF010101]) ∧
      qRed value = 14 ∧
      ¬ (min (qRed 0xFF0F0F0F) (qRed 0xFF0F0F0F) ≤ qRed value ∧
        qRed value ≤ max (qRed 0xFF0F0F0F) (qRed 0xFF0F0F0F)) := by
  have h : applyToPalette ⟨0xFF0F0F0F, 0xFFFFFFFF, 0xFF0F0F0F⟩ [0xFF030303, 0xFF010101]
      = some [(0xFF010101, 0xFF0E0E0E), (0xFF030303, 0xFF0F0F0F)] := by
    set_option maxRecDepth 100000 in decide
  exact ⟨_, 0xFF0E0E0E, h, by decide, by decide, by decide, by decide⟩

/-- C25, amended: the interpolation in `applyToPalette` is a convex combination
up to rounding.  For every range, palette and palette colour, the ratio used
lies in [0, 1] in whichever branch is taken; each computed channel is at most
the larger and at least the smaller minus one of the corresponding channels of
`mid` and of the other end point of the branch (`min` or `max`); and the final
clamp to [0, 255] never changes a value. -/
theorem applyToPalette_convex_up_to_rounding (R : ColorRange) (P : ColorList) (c : QRgb)
    (hc : c ∈ P) :
    ∃ m ratio value other,
      applyToPalette R P = some m ∧ m.find c = some value ∧
      (if referenceAvg P ≠ 0 ∧ channelAvg c ≤ referenceAvg P then
          F32.div (F32.ofInt (channelAvg c)) (F32.ofInt (referenceAvg P))
        else F32.div (F32.sub (F32.ofInt 255) (F32.ofInt (channelAvg c)))
          (F32.sub (F32.ofInt 255) (F32.ofInt (referenceAvg P)))) = some ratio ∧
      other = (if referenceAvg P ≠ 0 ∧ channelAvg c ≤ referenceAvg P
        then R.min_ else R.max_) ∧
      0 ≤ ratio.units ∧ ratio.units ≤ 2 ^ 149 ∧
      ∀ ch ∈ ([qRed, qGreen, qBlue] : List (QRgb → Nat)),
        (ch value : Int) = blend ratio (ch R.mid_) (ch other) ∧
        qBound 0 (blend ratio (ch R.mid_) (ch other)) 255
          = blend ratio (ch R.mid_) (ch other) ∧
        min (ch R.mid_ : Int) (ch other) - 1 ≤ (ch value : Int) ∧
        (ch value : Int) ≤ max (ch R.mid_ : Int) (ch other) := by
  obtain ⟨hr0, hr1⟩ := referenceAvg_bounds P
  obtain ⟨ho0, ho1⟩ := channelAvg_bounds c
  obtain ⟨ratio, h1, h2, h3, h4, _⟩ := storedColor_channels R (referenceAvg P) c hr0 hr1
  obtain ⟨hq0, hq1⟩ := ratio_bounds_of_cond (referenceAvg P) (channelAvg c) hr0 hr1 ho0 ho1
    ratio h1
  refine ⟨_, ratio, _, _, applyToPalette_eq R P, find_foldl_insertEntry_graph _ _ [] c hc,
    h1, rfl, hq0, hq1, ?_⟩
  intro ch hch
  simp only [List.mem_cons, List.mem_singleton, List.not_mem_nil, or_false] at hch
  rcases hch with rfl | rfl | rfl
  · exact blend_channel_facts ratio hq0 hq1 _ _ _ (qRed_le _) (qRed_le _) h2
  · exact blend_channel_facts ratio hq0 hq1 _ _ _ (qGreen_le _) (qGreen_le _) h3
  · exact blend_channel_facts ratio hq0 hq1 _ _ _ (qBlue_le _) (qBlue_le _) h4

/-- Witness of amended C25: the palette colour rgb(1,1,1) of the
counterexample. -/
theorem applyToPalette_convex_up_to_rounding_witness :
    ∃ m ratio value other,
      applyToPalette ⟨0xFF0F0F0F, 0xFFFFFFFF, 0xFF0F0F0F⟩ [0xFF030303, 0xFF010101] = some m ∧
      m.find 0xFF010101 = some value ∧
      (if referenceAvg [0xFF030303, 0xFF010101] ≠ 0 ∧
            channelAvg 0xFF010101 ≤ referenceAvg [0xFF030303, 0xFF010101] then
          F32.div (F32.ofInt (channelAvg 0xFF010101))
            (F32.ofInt (referenceAvg [0xFF030303, 0xFF010101]))
        else F32.div (F32.sub (F32.ofInt 255) (F32.ofInt (channelAvg 0xFF010101)))
          (F32.sub (F32.ofInt 255) (F32.ofInt (referenceAvg [0xFF030303, 0xFF010101]))))
        = some ratio ∧
      other = (if referenceAvg [0xFF030303, 0xFF010101] ≠ 0 ∧
          channelAvg 0xFF010101 ≤ referenceAvg [0xFF030303, 0xFF010101]
        then (0xFF0F0F0F : QRgb) else 0xFFFFFFFF) ∧
      0 ≤ ratio.units ∧ ratio.units ≤ 2 ^ 149 ∧
      ∀ ch ∈ ([qRed, qGreen, qBlue] : List (QRgb → Nat)),
        (ch value : Int) = blend ratio (ch 0xFF0F0F0F) (ch other) ∧
        qBound 0 (blend ratio (ch 0xFF0F0F0F) (ch other)) 255
          = blend ratio (ch 0xFF0F0F0F) (ch other) ∧
        min (ch 0xFF0F0F0F : Int) (ch other) - 1 ≤ (ch value : Int) ∧
        (ch value : Int) ≤ max (ch 0xFF0F0F0F : Int) (ch other) :=
  applyToPalette_convex_up_to_rounding ⟨0xFF0F0F0F, 0xFFFFFFFF, 0xFF0F0F0F⟩
    [0xFF030303, 0xFF010101] 0xFF010101 (by decide)

/-! ## Theorems: `generateNewPaletteName` -/

theorem digitChar_value (k : Nat) (hk : k < 10) : (Nat.digitChar k).toNat - 48 = k := by
  interval_cases k <;> rfl

theorem toDigitsCore_decode (fuel : Nat) : ∀ (n : Nat) (ds : List Char), n < fuel →
    ∃ pre, Nat.toDigitsCore 10 fuel n ds = pre ++ ds ∧ decimalValue pre = n := by
  induction fuel with
  | zero => intro n ds h; omega
  | succ fuel ih =>
    intro n ds h
    simp only [Nat.toDigitsCore]
    by_cases h0 : n / 10 = 0
    · rw [if_pos h0]
      refine ⟨[Nat.digitChar (n % 10)], rfl, ?_⟩
      simp only [decimalValue, List.foldl_cons, List.foldl_nil, Nat.zero_mul, Nat.zero_add]
      rw [digitChar_value _ (Nat.mod_lt _ (by norm_num))]
      omega
    · rw [if_neg h0]
      obtain ⟨pre, hpre, hval⟩ := ih (n / 10) (Nat.digitChar (n % 10) :: ds) (by omega)
      refine ⟨pre ++ [Nat.digitChar (n % 10)], by rw [hpre]; simp, ?_⟩
      unfold decimalValue at hval ⊢
      rw [List.foldl_append, hval]
      simp only [List.foldl_cons, List.foldl_nil]
      rw [digitChar_value _ (Nat.mod_lt _ (by norm_num))]
      omega

theorem decimalValue_toDigits (n : Nat) : decimalValue (Nat.toDigits 10 n) = n := by
  obtain ⟨pre, hpre, hval⟩ := toDigitsCore_decode (n + 1) n [] (by omega)
  rw [Nat.toDigits, hpre, List.append_nil, hval]

theorem newPaletteName_injective : Function.Injective newPaletteName := by
  intro a b h
  have h1 := List.append_cancel_left h
  rw [← decimalValue_toDigits a, ← decimalValue_toDigits b, h1]

theorem arg_template (i : Nat) : (tr "New Palette #%1".toList).arg i = newPaletteName i := by
  simp [tr, QString.arg, newPaletteName]

/-- Among the names numbered 1 to `size + 1` one is not a key. -/
theorem exists_fresh_name (keys : List QString) :
    ∃ k, 1 ≤ k ∧ k ≤ keys.length + 1 ∧ newPaletteName k ∉ keys := by
  by_contra hcon
  have hall : ∀ k, 1 ≤ k → k ≤ keys.length + 1 → newPaletteName k ∈ keys := by
    intro k h1 h2
    by_contra h3
    exact hcon ⟨k, h1, h2, h3⟩
  have hnd : ((List.range (keys.length + 1)).map fun j => newPaletteName (j + 1)).Nodup := by
    apply List.Nodup.map _ (List.nodup_range _)
    intro a b h
    have := newPaletteName_injective h
    omega
  have hsub : ((List.range (keys.length + 1)).map fun j => newPaletteName (j + 1)) ⊆ keys := by
    intro x hx
    obtain ⟨j, hj, rfl⟩ := List.mem_map.mp hx
    rw [List.mem_range] at hj
    exact hall (j + 1) (by omega) (by omega)
  have hlen := (List.Nodup.subperm hnd hsub).length_le
  simp at hlen

theorem generateNewPaletteNameLoop_some (palettes_ : NameMap ColorList) (k : Nat)
    (hk : newPaletteName k ∉ palettes_.keys) (hmax : k ≤ INT_MAX) :
    ∀ (fuel i : Nat), i < k → (∀ j, i < j → j < k → newPaletteName j ∈ palettes_.keys) →
      k - i ≤ fuel → generateNewPaletteNameLoop palettes_ fuel i = some (newPaletteName k) := by
  intro fuel
  induction fuel with
  | zero => intro i hi _ hf; omega
  | succ fuel ih =>
    intro i hi hbelow hf
    unfold generateNewPaletteNameLoop
    rw [if_neg (by omega), arg_template]
    by_cases hik : i + 1 = k
    · rw [hik, if_neg (by
        rw [not_not]
        exact NameMap.find_eq_none_of_not_mem_keys _ _ hk)]
    · have hmem := hbelow (i + 1) (by omega) (by omega)
      obtain ⟨e, he, hname⟩ := List.mem_map.mp hmem
      have hfind := NameMap.find_ne_none_of_mem palettes_ e he
      rw [hname] at hfind
      rw [if_pos hfind]
      exact ih (i + 1) (by omega) (fun j h1 h2 => hbelow j (by omega) h2) (by omega)

theorem generateNewPaletteNameLoop_none (palettes_ : NameMap ColorList) (k : Nat) :
    ∀ (fuel i : Nat), (∀ j, i < j → j < k → newPaletteName j ∈ palettes_.keys) →
      i + fuel < k → generateNewPaletteNameLoop palettes_ fuel i = none := by
  intro fuel
  induction fuel with
  | zero => intro i _ _; rfl
  | succ fuel ih =>
    intro i hbelow hf
    unfold generateNewPaletteNameLoop
    by_cases hmax : INT_MAX ≤ i
    · rw [if_pos hmax]
    · rw [if_neg hmax, arg_template]
      have hmem := hbelow (i + 1) (by omega) (by omega)
      obtain ⟨e, he, hname⟩ := List.mem_map.mp hmem
      have hfind := NameMap.find_ne_none_of_mem palettes_ e he
      rw [hname] at hfind
      rw [if_pos hfind]
      exact ih (i + 1) (fun j h1 h2 => hbelow j (by omega) h2) (by omega)

/-- C28: `generateNewPaletteName` terminates and returns a fresh name.  For
every palette collection with fewer than `INT_MAX` entries there is a `k` with
`1 <= k <= size + 1` such that "New Palette #k" is not a key of the collection
while "New Palette #j" is a key for every `1 <= j < k`; the loop is not over
before `k` iterations, and with `k` iterations or more it returns the name
"New Palette #k", which the collection does not hold. -/
theorem generateNewPaletteName_fresh (palettes_ : NameMap ColorList)
    (hsize : palettes_.length < INT_MAX) :
    ∃ k, 1 ≤ k ∧ k ≤ palettes_.length + 1 ∧
      "New Palette #".toList ++ Nat.toDigits 10 k ∉ palettes_.keys ∧
      palettes_.find ("New Palette #".toList ++ Nat.toDigits 10 k) = none ∧
      (∀ j, 1 ≤ j → j < k → "New Palette #".toList ++ Nat.toDigits 10 j ∈ palettes_.keys) ∧
      (∀ fuel, fuel < k → generateNewPaletteName palettes_ fuel = none) ∧
      ∀ fuel, k ≤ fuel →
        generateNewPaletteName palettes_ fuel
          = some ("New Palette #".toList ++ Nat.toDigits 10 k) := by
  classical
  have hex : ∃ k, 1 ≤ k ∧ newPaletteName k ∉ palettes_.keys := by
    obtain ⟨k, h1, _, h3⟩ := exists_fresh_name palettes_.keys
    exact ⟨k, h1, h3⟩
  obtain ⟨k0, h1, h2, h3⟩ := exists_fresh_name palettes_.keys
  have hspec := Nat.find_spec hex
  have hmin : ∀ j, 1 ≤ j → j < Nat.find hex → newPaletteName j ∈ palettes_.keys := by
    intro j hj1 hj2
    by_contra hj3
    exact Nat.find_min hex hj2 ⟨hj1, hj3⟩
  have hle : Nat.find hex ≤ palettes_.length + 1 := by
    have := Nat.find_min' hex ⟨h1, h3⟩
    simp only [NameMap.keys, List.length_map] at h2
    omega
  refine ⟨Nat.find hex, hspec.1, hle, hspec.2,
    NameMap.find_eq_none_of_not_mem_keys _ _ hspec.2, hmin, ?_, ?_⟩
  · intro fuel hf
    exact generateNewPaletteNameLoop_none palettes_ (Nat.find hex) fuel 0
      (fun j h1 h2 => hmin j (by omega) h2) (by omega)
  · intro fuel hf
    exact generateNewPaletteNameLoop_some palettes_ (Nat.find hex) hspec.2 (by omega) fuel 0
      (by omega) (fun j h1 h2 => hmin j (by omega) h2) (by omega)

/-- Example for C28: with the names numbered 1 and 3 in the collection the
second iteration returns the name numbered 2. -/
theorem generateNewPaletteName_example :
    generateNewPaletteName
        [("New Palette #1".toList, [0xFF000000]), ("New Palette #3".toList, [])] 1 = none ∧
      generateNewPaletteName
        [("New Palette #1".toList, [0xFF000000]), ("New Palette #3".toList, [])] 2
        = some "New Palette #2".toList := by
  decide

/-- Witness of C28: a collection holding the names numbered 1 and 3. -/
theorem generateNewPaletteName_fresh_witness :
    ∃ k, 1 ≤ k ∧
      k ≤ ([("New Palette #1".toList, [0xFF000000]), ("New Palette #3".toList, [])] :
        NameMap ColorList).length + 1 ∧
      "New Palette #".toList ++ Nat.toDigits 10 k ∉ NameMap.keys
        ([("New Palette #1".toList, [0xFF000000]), ("New Palette #3".toList, [])] :
          NameMap ColorList) ∧
      NameMap.find ([("New Palette #1".toList, [0xFF000000]), ("New Palette #3".toList, [])] :
          NameMap ColorList) ("New Palette #".toList ++ Nat.toDigits 10 k) = none ∧
      (∀ j, 1 ≤ j → j < k → "New Palette #".toList ++ Nat.toDigits 10 j ∈ NameMap.keys
        ([("New Palette #1".toList, [0xFF000000]), ("New Palette #3".toList, [])] :
          NameMap ColorList)) ∧
      (∀ fuel, fuel < k → generateNewPaletteName
        [("New Palette #1".toList, [0xFF000000]), ("New Palette #3".toList, [])] fuel = none) ∧
      ∀ fuel, k ≤ fuel →
        generateNewPaletteName
            [("New Palette #1".toList, [0xFF000000]), ("New Palette #3".toList, [])] fuel
          = some ("New Palette #".toList ++ Nat.toDigits 10 k) :=
  generateNewPaletteName_fresh
    [("New Palette #1".toList, [0xFF000000]), ("New Palette #3".toList, [])] (by decide)

/-! ## Theorems: the interpolation against the exact value -/


theorem interp_core (A b p q s M o k n : Int)
    (hM0 : 0 ≤ M) (hM1 : M ≤ 255) (ho0 : 0 ≤ o) (ho1 : o ≤ 255)
    (hn0 : 1 ≤ n) (hn1 : n ≤ 255)
    (D1 : 2 * A * n ≤ 2 * k * 2 ^ 149 + n * 2 ^ 126)
    (D2 : 2 * k * 2 ^ 149 ≤ 2 * A * n + n * 2 ^ 126)
    (B1 : 2 * b ≤ 2 * (2 ^ 149 - A) + 2 ^ 126)
    (B2 : 2 * (2 ^ 149 - A) ≤ 2 * b + 2 ^ 126)
    (P1 : 2 * p ≤ 2 * (A * M) + 2 ^ 133) (P2 : 2 * (A * M) ≤ 2 * p + 2 ^ 133)
    (Q1 : 2 * q ≤ 2 * (b * o) + 2 ^ 133) (Q2 : 2 * (b * o) ≤ 2 * q + 2 ^ 133)
    (S1 : 2 * s ≤ 2 * (p + q) + 2 ^ 134) (S2 : 2 * (p + q) ≤ 2 * s + 2 ^ 134) :
    (k * M + (n - k) * o) / n - 1 ≤ s / 2 ^ 149 ∧ s / 2 ^ 149 ≤ (k * M + (n - k) * o) / n := by
  have hpos : (0 : Int) < 2 ^ 149 := by positivity
  have hnpos : (0 : Int) < n := by omega
  have hnn : (0 : Int) ≤ n := by omega
  -- the weight `1 - ratio` times the other end point
  have hBo1 : 2 * b * o ≤ (2 * (2 ^ 149 - A) + 2 ^ 126) * o :=
    Int.mul_le_mul_of_nonneg_right B1 ho0
  have hBo2 : 2 * (2 ^ 149 - A) * o ≤ (2 * b + 2 ^ 126) * o :=
    Int.mul_le_mul_of_nonneg_right B2 ho0
  have hup : 2 * s ≤ 2 * (A * M) - 2 * (A * o) + 2 * 2 ^ 149 * o + (2 ^ 134 + 2 ^ 135) := by
    linarith
  have hlo : 2 * (A * M) - 2 * (A * o) + 2 * 2 ^ 149 * o ≤ 2 * s + (2 ^ 134 + 2 ^ 135) := by
    linarith
  have hupn := Int.mul_le_mul_of_nonneg_left hup hnn
  have hlon := Int.mul_le_mul_of_nonneg_left hlo hnn
  -- the quotient and remainder of the exact value
  have hdm := Int.ediv_add_emod (k * M + (n - k) * o) n
  have hr0 := Int.emod_nonneg (k * M + (n - k) * o) (by omega : n ≠ 0)
  have hr1 := Int.emod_lt_of_pos (k * M + (n - k) * o) hnpos
  generalize (k * M + (n - k) * o) / n = T at hdm ⊢
  generalize (k * M + (n - k) * o) % n = r at hdm hr0 hr1
  have key : 2 * (n * s) ≤ 2 * 2 ^ 149 * (n * T + r) + n * 2 ^ 136 ∧
      2 * 2 ^ 149 * (n * T + r) ≤ 2 * (n * s) + n * 2 ^ 136 := by
    rcases le_total o M with hd | hd
    · have hd0 : 0 ≤ M - o := by omega
      have hd1 : M - o ≤ 255 := by omega
      have e1 := Int.mul_le_mul_of_nonneg_right D1 hd0
      have e2 := Int.mul_le_mul_of_nonneg_right D2 hd0
      have e3 := Int.mul_le_mul_of_nonneg_left hd1 hnn
      constructor <;> linarith
    · have hd0 : 0 ≤ o - M := by omega
      have hd1 : o - M ≤ 255 := by omega
      have e1 := Int.mul_le_mul_of_nonneg_right D1 hd0
      have e2 := Int.mul_le_mul_of_nonneg_right D2 hd0
      have e3 := Int.mul_le_mul_of_nonneg_left hd1 hnn
      constructor <;> linarith
  constructor
  · apply (Int.le_ediv_iff_mul_le hpos).mpr
    by_contra hcon
    have hlt : s < (T - 1) * 2 ^ 149 := not_le.mp hcon
    have := Int.mul_le_mul_of_nonneg_left (Int.le_of_lt hlt) hnn
    linarith
  · have hlt : s / 2 ^ 149 < T + 1 := by
      apply Int.ediv_lt_of_lt_mul hpos
      by_contra hcon
      have hge : (T + 1) * 2 ^ 149 ≤ s := not_lt.mp hcon
      have := Int.mul_le_mul_of_nonneg_left hge hnn
      linarith
    exact Int.lt_add_one_iff.mp hlt

namespace F32

/-- The quotient of two small integers: the rounded ratio times the divisor is
within half a unit in the last place of the dividend. -/
theorem div_err (a b : Int) (ha : 0 ≤ a) (hab : a ≤ b) (hb : 0 < b) (ratio : F32)
    (hdiv : div ⟨a * 2 ^ 149⟩ ⟨b * 2 ^ 149⟩ = some ratio) :
    2 * ratio.units * b ≤ 2 * a * 2 ^ 149 + b * 2 ^ 126 ∧
      2 * a * 2 ^ 149 ≤ 2 * ratio.units * b + b * 2 ^ 126 := by
  have hpos : (0 : Int) < 2 ^ 149 := by positivity
  have hb1 : 0 < b * 2 ^ 149 := Int.mul_pos hb hpos
  have hb2 : b * 2 ^ 149 ≠ 0 := by omega
  have hb3 : ¬ b * 2 ^ 149 < 0 := by omega
  unfold div at hdiv
  simp only [hb2, hb3, if_false, Option.some.injEq] at hdiv
  rw [← hdiv]
  have hn0 : 0 ≤ a * 2 ^ 149 * 2 ^ 149 :=
    Int.mul_nonneg (Int.mul_nonneg ha (Int.le_of_lt hpos)) (Int.le_of_lt hpos)
  rw [units_roundNearestEven_of_nonneg _ _ hn0]
  obtain ⟨bn, hbn⟩ : ∃ bn : Nat, b = bn := ⟨b.toNat, by omega⟩
  obtain ⟨an, han⟩ : ∃ an : Nat, a = an := ⟨a.toNat, by omega⟩
  subst hbn
  subst han
  have hnum : ((an : Int) * 2 ^ 149 * 2 ^ 149).natAbs = an * 2 ^ 149 * 2 ^ 149 := by
    have : ((an : Int) * 2 ^ 149 * 2 ^ 149) = ((an * 2 ^ 149 * 2 ^ 149 : Nat) : Int) := by
      push_cast; ring
    rw [this, Int.natAbs_ofNat]
  have hden : ((bn : Int) * 2 ^ 149).natAbs = bn * 2 ^ 149 := by
    have : ((bn : Int) * 2 ^ 149) = ((bn * 2 ^ 149 : Nat) : Int) := by push_cast; ring
    rw [this, Int.natAbs_ofNat]
  rw [hnum, hden]
  have hbpos : 0 < bn := by omega
  have hUpos : 0 < 2 ^ 149 := Nat.pow_pos (by norm_num)
  have hdpos : 0 < bn * 2 ^ 149 := Nat.mul_pos hbpos hUpos
  have hanbn : an ≤ bn := by omega
  have hq : an * 2 ^ 149 * 2 ^ 149 / (bn * 2 ^ 149) < 2 ^ (24 + 126) := by
    rw [Nat.div_lt_iff_lt_mul hdpos]
    calc an * 2 ^ 149 * 2 ^ 149 ≤ bn * 2 ^ 149 * 2 ^ 149 :=
          Nat.mul_le_mul_right _ (Nat.mul_le_mul_right _ hanbn)
      _ = 2 ^ 149 * (bn * 2 ^ 149) := by ring
      _ < 2 ^ (24 + 126) * (bn * 2 ^ 149) :=
          Nat.mul_lt_mul_of_pos_right (by norm_num) hdpos
  have hs : ulpShift (an * 2 ^ 149 * 2 ^ 149 / (bn * 2 ^ 149)) ≤ 126 := by
    apply ulpShift_le
    rw [Nat.div_lt_iff_lt_mul (by positivity), ← pow_add]
    exact hq
  have hpow : 2 ^ ulpShift (an * 2 ^ 149 * 2 ^ 149 / (bn * 2 ^ 149)) ≤ 2 ^ 126 :=
    Nat.pow_le_pow_right (by norm_num) hs
  have e1 := roundMag_err (an * 2 ^ 149 * 2 ^ 149) (bn * 2 ^ 149)
  have e2 := roundMag_err_lower (an * 2 ^ 149 * 2 ^ 149) (bn * 2 ^ 149) hdpos
  generalize roundMag (an * 2 ^ 149 * 2 ^ 149) (bn * 2 ^ 149) = r at e1 e2 ⊢
  generalize 2 ^ ulpShift (an * 2 ^ 149 * 2 ^ 149 / (bn * 2 ^ 149)) = u at e1 e2 hpow
  have hu := Nat.mul_le_mul_left (bn * 2 ^ 149) hpow
  have f1 : 2 * (r * bn) * 2 ^ 149 ≤ (2 * (an * 2 ^ 149) + bn * 2 ^ 126) * 2 ^ 149 := by
    calc 2 * (r * bn) * 2 ^ 149 = 2 * (r * (bn * 2 ^ 149)) := by ring
      _ ≤ 2 * (an * 2 ^ 149 * 2 ^ 149) + bn * 2 ^ 149 * u := e1
      _ ≤ 2 * (an * 2 ^ 149 * 2 ^ 149) + bn * 2 ^ 149 * 2 ^ 126 := Nat.add_le_add_left hu _
      _ = (2 * (an * 2 ^ 149) + bn * 2 ^ 126) * 2 ^ 149 := by ring
  have f2 : 2 * (an * 2 ^ 149) * 2 ^ 149 ≤ (2 * (r * bn) + bn * 2 ^ 126) * 2 ^ 149 := by
    calc 2 * (an * 2 ^ 149) * 2 ^ 149 = 2 * (an * 2 ^ 149 * 2 ^ 149) := by ring
      _ ≤ 2 * (r * (bn * 2 ^ 149)) + bn * 2 ^ 149 * u := e2
      _ ≤ 2 * (r * (bn * 2 ^ 149)) + bn * 2 ^ 149 * 2 ^ 126 := Nat.add_le_add_left hu _
      _ = (2 * (r * bn) + bn * 2 ^ 126) * 2 ^ 149 := by ring
  have g1 := Nat.le_of_mul_le_mul_right f1 hUpos
  have g2 := Nat.le_of_mul_le_mul_right f2 hUpos
  constructor
  · have : ((2 * (r * bn) : Nat) : Int) ≤ ((2 * (an * 2 ^ 149) + bn * 2 ^ 126 : Nat) : Int) :=
      Int.ofNat_le.mpr g1
    push_cast at this
    linarith
  · have : ((2 * (an * 2 ^ 149) : Nat) : Int) ≤ ((2 * (r * bn) + bn * 2 ^ 126 : Nat) : Int) :=
      Int.ofNat_le.mpr g2
    push_cast at this
    linarith

end F32

/-- The weight `1 - ratio` for a ratio in [0, 1]: a value in [0, 1] within half
a unit in the last place of the exact difference. -/
theorem sub_one_bounds (ratio : F32) (hr0 : 0 ≤ ratio.units) (hr1 : ratio.units ≤ 2 ^ 149) :
    0 ≤ (F32.sub ⟨2 ^ 149⟩ ratio).units ∧ (F32.sub ⟨2 ^ 149⟩ ratio).units ≤ 2 ^ 149 ∧
      2 * (F32.sub ⟨2 ^ 149⟩ ratio).units ≤ 2 * (2 ^ 149 - ratio.units) + 2 ^ 126 ∧
      2 * (2 ^ 149 - ratio.units) ≤ 2 * (F32.sub ⟨2 ^ 149⟩ ratio).units + 2 ^ 126 := by
  have hU : ((1 * 2 ^ 149 : Nat) : Int) = 2 ^ 149 := by norm_cast
  refine ⟨?_, ?_, ?_, ?_⟩
  · exact F32.rne_one_nonneg _ (by show (0 : Int) ≤ 2 ^ 149 - ratio.units; omega)
  · have h := F32.rne_one_le (2 ^ 149 - ratio.units) 1 149 (by omega) (by norm_num)
      (by rw [hU]; omega)
    rw [hU] at h
    exact h
  · exact F32.rne_one_err (2 ^ 149 - ratio.units) 126 (by omega)
      (by
        show 2 ^ 149 - ratio.units < 2 ^ 150
        omega)
  · exact F32.rne_one_err_lower (2 ^ 149 - ratio.units) 126 (by omega)
      (by
        show 2 ^ 149 - ratio.units < 2 ^ 150
        omega)

/-- A float within the rounding error of the sum of the two products truncates
to the floor of the exact interpolated value or to one less. -/
theorem toInt_interp (ratio x : F32) (p q M o k n : Int) (hr0 : 0 ≤ ratio.units)
    (hr1 : ratio.units ≤ 2 ^ 149) (hM0 : 0 ≤ M) (hM1 : M ≤ 255) (ho0 : 0 ≤ o) (ho1 : o ≤ 255)
    (hn0 : 1 ≤ n) (hn1 : n ≤ 255)
    (D1 : 2 * ratio.units * n ≤ 2 * k * 2 ^ 149 + n * 2 ^ 126)
    (D2 : 2 * k * 2 ^ 149 ≤ 2 * ratio.units * n + n * 2 ^ 126)
    (P1 : 2 * p ≤ 2 * (ratio.units * M) + 2 ^ 133)
    (P2 : 2 * (ratio.units * M) ≤ 2 * p + 2 ^ 133)
    (Q1 : 2 * q ≤ 2 * ((F32.sub ⟨2 ^ 149⟩ ratio).units * o) + 2 ^ 133)
    (Q2 : 2 * ((F32.sub ⟨2 ^ 149⟩ ratio).units * o) ≤ 2 * q + 2 ^ 133)
    (S1 : 2 * x.units ≤ 2 * (p + q) + 2 ^ 134) (S2 : 2 * (p + q) ≤ 2 * x.units + 2 ^ 134)
    (hx0 : 0 ≤ x.units) :
    0 ≤ F32.toInt x ∧ (k * M + (n - k) * o) / n - 1 ≤ F32.toInt x ∧
      F32.toInt x ≤ (k * M + (n - k) * o) / n := by
  obtain ⟨_, _, B1, B2⟩ := sub_one_bounds ratio hr0 hr1
  have hpos : (0 : Int) < 2 ^ 149 := by positivity
  have h := interp_core ratio.units (F32.sub ⟨2 ^ 149⟩ ratio).units p q x.units M o k n
    hM0 hM1 ho0 ho1 hn0 hn1 D1 D2 B1 B2 P1 P2 Q1 Q2 S1 S2
  unfold F32.toInt
  rw [Int.tdiv_eq_ediv hx0 (by positivity)]
  exact ⟨Int.ediv_nonneg hx0 (Int.le_of_lt hpos), h.1, h.2⟩

/-- Under each way of evaluating the expression, the interpolated channel is
the floor of the exact value `(k * M + (n - k) * o) / n` or one less, for a
ratio within the rounding error of `k / n`. -/
theorem blendWith_exact (mode : Contraction) (ratio : F32) (M o k n : Int)
    (hr0 : 0 ≤ ratio.units) (hr1 : ratio.units ≤ 2 ^ 149) (hM0 : 0 ≤ M) (hM1 : M ≤ 255)
    (ho0 : 0 ≤ o) (ho1 : o ≤ 255) (hn0 : 1 ≤ n) (hn1 : n ≤ 255)
    (D1 : 2 * ratio.units * n ≤ 2 * k * 2 ^ 149 + n * 2 ^ 126)
    (D2 : 2 * k * 2 ^ 149 ≤ 2 * ratio.units * n + n * 2 ^ 126) :
    0 ≤ blendWith mode ratio M o ∧ (k * M + (n - k) * o) / n - 1 ≤ blendWith mode ratio M o ∧
      blendWith mode ratio M o ≤ (k * M + (n - k) * o) / n := by
  have hone : F32.ofInt 1 = ⟨2 ^ 149⟩ := by
    rw [F32.ofInt_eq 1 (by norm_num), Int.one_mul]
  have hcast : ((2 ^ 149 : Nat) : Int) = 2 ^ 149 := by norm_cast
  have hUpos : 0 < (2 : Nat) ^ 149 := Nat.pow_pos (by norm_num)
  obtain ⟨hb0, hb1, B1, B2⟩ := sub_one_bounds ratio hr0 hr1
  obtain ⟨hp0, P1⟩ := F32.mul_byte_bounds ratio M hr0 hr1 hM0 hM1
  have P2 := F32.mul_byte_lower ratio M hr0 hr1 hM0 hM1
  obtain ⟨hq0, Q1⟩ := F32.mul_byte_bounds (F32.sub ⟨2 ^ 149⟩ ratio) o hb0 hb1 ho0 ho1
  have Q2 := F32.mul_byte_lower (F32.sub ⟨2 ^ 149⟩ ratio) o hb0 hb1 ho0 ho1
  have hAM0 : 0 ≤ ratio.units * M := Int.mul_nonneg hr0 hM0
  have hAM1 : ratio.units * M ≤ 2 ^ 149 * 255 := by
    calc ratio.units * M ≤ 2 ^ 149 * M := Int.mul_le_mul_of_nonneg_right hr1 hM0
      _ ≤ 2 ^ 149 * 255 := Int.mul_le_mul_of_nonneg_left hM1 (by positivity)
  have hbo0 : 0 ≤ (F32.sub ⟨2 ^ 149⟩ ratio).units * o := Int.mul_nonneg hb0 ho0
  have hbo1 : (F32.sub ⟨2 ^ 149⟩ ratio).units * o ≤ 2 ^ 149 * 255 := by
    calc (F32.sub ⟨2 ^ 149⟩ ratio).units * o ≤ 2 ^ 149 * o :=
          Int.mul_le_mul_of_nonneg_right hb1 ho0
      _ ≤ 2 ^ 149 * 255 := Int.mul_le_mul_of_nonneg_left ho1 (by positivity)
  cases mode with
  | separate =>
    have hmode : blendWith Contraction.separate ratio M o
        = F32.toInt (F32.add (F32.mul ratio (F32.ofInt M))
          (F32.mul (F32.sub (F32.ofInt 1) ratio) (F32.ofInt o))) := rfl
    rw [hmode]
    rw [hone, ofInt_byte M hM0 hM1, ofInt_byte o ho0 ho1]
    have hsum0 : 0 ≤ (F32.mul ratio ⟨M * 2 ^ 149⟩).units
        + (F32.mul (F32.sub ⟨2 ^ 149⟩ ratio) ⟨o * 2 ^ 149⟩).units := by omega
    have hsum1 : (F32.mul ratio ⟨M * 2 ^ 149⟩).units
        + (F32.mul (F32.sub ⟨2 ^ 149⟩ ratio) ⟨o * 2 ^ 149⟩).units < 2 ^ (24 + 134) := by
      have : (2 : Int) ^ (24 + 134) = 2 ^ 158 := by norm_num
      rw [this]
      linarith
    exact toInt_interp ratio _ _ _ M o k n hr0 hr1 hM0 hM1 ho0 ho1 hn0 hn1 D1 D2 P1 P2 Q1 Q2
      (F32.rne_one_err _ 134 hsum0 hsum1) (F32.rne_one_err_lower _ 134 hsum0 hsum1)
      (F32.rne_one_nonneg _ hsum0)
  | fusedFirst =>
    have hmode : blendWith Contraction.fusedFirst ratio M o
        = F32.toInt (F32.fma ratio (F32.ofInt M)
          (F32.mul (F32.sub (F32.ofInt 1) ratio) (F32.ofInt o))) := rfl
    rw [hmode]
    rw [hone, ofInt_byte M hM0 hM1, ofInt_byte o ho0 ho1]
    have hk0 : 0 ≤ ratio.units * M
        + (F32.mul (F32.sub ⟨2 ^ 149⟩ ratio) ⟨o * 2 ^ 149⟩).units := by omega
    have hk1 : ratio.units * M
        + (F32.mul (F32.sub ⟨2 ^ 149⟩ ratio) ⟨o * 2 ^ 149⟩).units < 2 ^ (24 + 134) := by
      have : (2 : Int) ^ (24 + 134) = 2 ^ 158 := by norm_num
      rw [this]
      linarith
    have hfma : F32.fma ratio ⟨M * 2 ^ 149⟩ (F32.mul (F32.sub ⟨2 ^ 149⟩ ratio) ⟨o * 2 ^ 149⟩)
        = F32.roundNearestEven ((ratio.units * M
          + (F32.mul (F32.sub ⟨2 ^ 149⟩ ratio) ⟨o * 2 ^ 149⟩).units) * ((2 ^ 149 : Nat) : Int))
          (2 ^ 149) := by
      unfold F32.fma
      rw [hcast]
      refine congrArg (fun z => F32.roundNearestEven z (2 ^ 149)) ?_
      show ratio.units * (M * 2 ^ 149) + _ = _
      ring
    rw [hfma]
    have S1 := F32.rne_err _ (2 ^ 149) 134 hk0 hUpos hk1
    have S2 := F32.rne_err_lower _ (2 ^ 149) 134 hk0 hUpos hk1
    have S0 := F32.rne_nonneg _ (2 ^ 149) (Int.mul_nonneg hk0 (Int.ofNat_nonneg (2 ^ 149)))
    exact toInt_interp ratio _ (ratio.units * M) _ M o k n hr0 hr1 hM0 hM1 ho0 ho1 hn0 hn1
      D1 D2 (by linarith) (by linarith) Q1 Q2 S1 S2 S0
  | fusedSecond =>
    have hmode : blendWith Contraction.fusedSecond ratio M o
        = F32.toInt (F32.fma (F32.sub (F32.ofInt 1) ratio) (F32.ofInt o)
          (F32.mul ratio (F32.ofInt M))) := rfl
    rw [hmode]
    rw [hone, ofInt_byte M hM0 hM1, ofInt_byte o ho0 ho1]
    have hk0 : 0 ≤ (F32.mul ratio ⟨M * 2 ^ 149⟩).units
        + (F32.sub ⟨2 ^ 149⟩ ratio).units * o := by omega
    have hk1 : (F32.mul ratio ⟨M * 2 ^ 149⟩).units
        + (F32.sub ⟨2 ^ 149⟩ ratio).units * o < 2 ^ (24 + 134) := by
      have : (2 : Int) ^ (24 + 134) = 2 ^ 158 := by norm_num
      rw [this]
      linarith
    have hfma : F32.fma (F32.sub ⟨2 ^ 149⟩ ratio) ⟨o * 2 ^ 149⟩ (F32.mul ratio ⟨M * 2 ^ 149⟩)
        = F32.roundNearestEven (((F32.mul ratio ⟨M * 2 ^ 149⟩).units
          + (F32.sub ⟨2 ^ 149⟩ ratio).units * o) * ((2 ^ 149 : Nat) : Int)) (2 ^ 149) := by
      unfold F32.fma
      rw [hcast]
      refine congrArg (fun z => F32.roundNearestEven z (2 ^ 149)) ?_
      show (F32.sub ⟨2 ^ 149⟩ ratio).units * (o * 2 ^ 149) + _ = _
      ring
    rw [hfma]
    have S1 := F32.rne_err _ (2 ^ 149) 134 hk0 hUpos hk1
    have S2 := F32.rne_err_lower _ (2 ^ 149) 134 hk0 hUpos hk1
    have S0 := F32.rne_nonneg _ (2 ^ 149) (Int.mul_nonneg hk0 (Int.ofNat_nonneg (2 ^ 149)))
    exact toInt_interp ratio _ _ ((F32.sub ⟨2 ^ 149⟩ ratio).units * o) M o k n hr0 hr1 hM0 hM1
      ho0 ho1 hn0 hn1 D1 D2 P1 P2 (by linarith) (by linarith) S1 S2 S0


theorem truncQ_interp (k n M o : Int) (hk0 : 0 ≤ k) (hk1 : k ≤ n) (hn : 1 ≤ n) (hM : 0 ≤ M)
    (ho : 0 ≤ o) :
    truncQ (((k : ℚ) / (n : ℚ)) * (M : ℚ) + (1 - (k : ℚ) / (n : ℚ)) * (o : ℚ))
      = (k * M + (n - k) * o) / n := by
  have hnq : (n : ℚ) ≠ 0 := by
    have : (0 : ℚ) < (n : ℚ) := by exact_mod_cast (by omega : 0 < n)
    exact ne_of_gt this
  have hcast : ((n.toNat : Nat) : ℚ) = (n : ℚ) := by
    have : ((n.toNat : Nat) : Int) = n := Int.toNat_of_nonneg (by omega)
    exact_mod_cast this
  have hq : ((k : ℚ) / (n : ℚ)) * (M : ℚ) + (1 - (k : ℚ) / (n : ℚ)) * (o : ℚ)
      = ((k * M + (n - k) * o : Int) : ℚ) / ((n.toNat : Nat) : ℚ) := by
    rw [hcast]
    push_cast
    field_simp
  have hN : 0 ≤ k * M + (n - k) * o :=
    Int.add_nonneg (Int.mul_nonneg hk0 hM) (Int.mul_nonneg (by omega) ho)
  have hq0 : (0 : ℚ) ≤ ((k * M + (n - k) * o : Int) : ℚ) / ((n.toNat : Nat) : ℚ) :=
    div_nonneg (by exact_mod_cast hN) (Nat.cast_nonneg _)
  rw [hq]
  unfold truncQ
  rw [Int.tdiv_eq_ediv (Rat.num_nonneg.mpr hq0) (by exact_mod_cast Nat.zero_le _),
    ← Rat.floor_def, Rat.floor_intCast_div_natCast, Int.toNat_of_nonneg (by omega)]

theorem specExactChannel_eq (referenceAvg oldAvg midC minC maxC : Int)
    (hr0 : 0 ≤ referenceAvg) (hr1 : referenceAvg ≤ 255) (ho0 : 0 ≤ oldAvg) (ho1 : oldAvg ≤ 255)
    (hmid : 0 ≤ midC) (hmin : 0 ≤ minC) (hmax : 0 ≤ maxC) :
    specExactChannel referenceAvg oldAvg midC minC maxC
      = if referenceAvg ≠ 0 ∧ oldAvg ≤ referenceAvg then
          (oldAvg * midC + (referenceAvg - oldAvg) * minC) / referenceAvg
        else ((255 - oldAvg) * midC + ((255 - referenceAvg) - (255 - oldAvg)) * maxC)
          / (255 - referenceAvg) := by
  unfold specExactChannel
  by_cases h : referenceAvg ≠ 0 ∧ oldAvg ≤ referenceAvg
  · rw [if_pos h, if_pos h]
    exact truncQ_interp oldAvg referenceAvg midC minC ho0 h.2 (by omega) hmid hmin
  · rw [if_neg h, if_neg h]
    have hlt : referenceAvg = 0 ∨ referenceAvg < oldAvg := by
      by_cases h0 : referenceAvg = 0
      · exact Or.inl h0
      · exact Or.inr (not_le.mp fun h1 => h ⟨h0, h1⟩)
    have := truncQ_interp (255 - oldAvg) (255 - referenceAvg) midC maxC (by omega) (by omega)
      (by omega) hmid hmax
    push_cast at this
    exact this

/-- In whichever branch, under each way of evaluating the expression, the
interpolated channel is the truncation of the exact value or one less, and an
8-bit value. -/
theorem blendWith_spec (referenceAvg oldAvg : Int) (hr0 : 0 ≤ referenceAvg)
    (hr1 : referenceAvg ≤ 255) (ho0 : 0 ≤ oldAvg) (ho1 : oldAvg ≤ 255) (ratio : F32)
    (h : (if referenceAvg ≠ 0 ∧ oldAvg ≤ referenceAvg then
          F32.div (F32.ofInt oldAvg) (F32.ofInt referenceAvg)
        else F32.div (F32.sub (F32.ofInt 255) (F32.ofInt oldAvg))
          (F32.sub (F32.ofInt 255) (F32.ofInt referenceAvg))) = some ratio)
    (mode : Contraction) (midC minC maxC : Nat) (hmid : midC ≤ 255) (hmin : minC ≤ 255)
    (hmax : maxC ≤ 255) :
    0 ≤ blendWith mode ratio midC
        (if referenceAvg ≠ 0 ∧ oldAvg ≤ referenceAvg then (minC : Int) else maxC) ∧
      blendWith mode ratio midC
        (if referenceAvg ≠ 0 ∧ oldAvg ≤ referenceAvg then (minC : Int) else maxC) ≤ 255 ∧
      specExactChannel referenceAvg oldAvg midC minC maxC - 1 ≤ blendWith mode ratio midC
        (if referenceAvg ≠ 0 ∧ oldAvg ≤ referenceAvg then (minC : Int) else maxC) ∧
      blendWith mode ratio midC
        (if referenceAvg ≠ 0 ∧ oldAvg ≤ referenceAvg then (minC : Int) else maxC)
        ≤ specExactChannel referenceAvg oldAvg midC minC maxC := by
  obtain ⟨hq0, hq1⟩ := ratio_bounds_of_cond referenceAvg oldAvg hr0 hr1 ho0 ho1 ratio h
  rw [specExactChannel_eq referenceAvg oldAvg midC minC maxC hr0 hr1 ho0 ho1
    (Int.ofNat_nonneg _) (Int.ofNat_nonneg _) (Int.ofNat_nonneg _)]
  have hM0 : (0 : Int) ≤ midC := Int.ofNat_nonneg _
  have hM1 : (midC : Int) ≤ 255 := by omega
  have top : ∀ k n o : Int, 0 ≤ k → k ≤ n → 1 ≤ n → o ≤ 255 →
      (k * midC + (n - k) * o) / n ≤ 255 := by
    intro k n o hk0 hk1 hn ho
    apply Int.ediv_le_of_le_mul (by omega)
    have e1 := Int.mul_le_mul_of_nonneg_left hM1 hk0
    have e2 := Int.mul_le_mul_of_nonneg_left ho (by omega : 0 ≤ n - k)
    linarith
  by_cases hc : referenceAvg ≠ 0 ∧ oldAvg ≤ referenceAvg
  · rw [if_pos hc] at h ⊢
    rw [if_pos hc]
    rw [ofInt_byte oldAvg ho0 ho1, ofInt_byte referenceAvg hr0 hr1] at h
    have hn : 1 ≤ referenceAvg := by omega
    obtain ⟨D1, D2⟩ := F32.div_err oldAvg referenceAvg ho0 hc.2 (by omega) ratio h
    obtain ⟨b0, b1, b2⟩ := blendWith_exact mode ratio midC minC oldAvg referenceAvg hq0 hq1
      hM0 hM1 (Int.ofNat_nonneg _) (by omega) hn hr1 D1 D2
    exact ⟨b0, le_trans b2 (top _ _ _ ho0 hc.2 hn (by omega)), b1, b2⟩
  · rw [if_neg hc] at h ⊢
    rw [if_neg hc]
    rw [sub_255_byte oldAvg ho0 ho1, sub_255_byte referenceAvg hr0 hr1] at h
    have hlt : referenceAvg = 0 ∨ referenceAvg < oldAvg := by
      by_cases h0 : referenceAvg = 0
      · exact Or.inl h0
      · exact Or.inr (not_le.mp fun h1 => hc ⟨h0, h1⟩)
    have hn : 1 ≤ 255 - referenceAvg := by omega
    obtain ⟨D1, D2⟩ := F32.div_err (255 - oldAvg) (255 - referenceAvg) (by omega) (by omega)
      (by omega) ratio h
    obtain ⟨b0, b1, b2⟩ := blendWith_exact mode ratio midC maxC (255 - oldAvg)
      (255 - referenceAvg) hq0 hq1 hM0 hM1 (Int.ofNat_nonneg _) (by omega) hn (by omega) D1 D2
    exact ⟨b0, le_trans b2 (top _ _ _ (by omega) (by omega) hn (by omega)), b1, b2⟩

/-- C6, amended: `applyToPalette` computes the piecewise linear interpolation
in single precision and truncates.  For every range and palette, each palette
colour is mapped to an opaque colour each of whose R, G, B channels is the
integer truncation of the exact value of
`ratio * midChannel + (1 - ratio) * minChannel` with
`ratio = oldAvg / referenceAvg` when `referenceAvg != 0` and
`oldAvg <= referenceAvg`, and otherwise of
`ratio * midChannel + (1 - ratio) * maxChannel` with
`ratio = (255 - oldAvg) / (255 - referenceAvg)`, or one less than that
truncation.  The same holds of the channel expression under each way a
compiler may evaluate it: every operation rounded on its own, or either
product fused with the addition; the value is then an 8-bit one, so the clamp
changes nothing.  For the spec example the grey entry has ratio `127 / 255`
and value rgb(25,24,0). -/
theorem applyToPalette_interpolates (R : ColorRange) (P : ColorList) (c : QRgb) (hc : c ∈ P) :
    (∃ m ratio value,
        applyToPalette R P = some m ∧ m.find c = some value ∧ qAlpha value = 255 ∧
        (if referenceAvg P ≠ 0 ∧ channelAvg c ≤ referenceAvg P then
            F32.div (F32.ofInt (channelAvg c)) (F32.ofInt (referenceAvg P))
          else F32.div (F32.sub (F32.ofInt 255) (F32.ofInt (channelAvg c)))
            (F32.sub (F32.ofInt 255) (F32.ofInt (referenceAvg P)))) = some ratio ∧
        ∀ ch ∈ ([qRed, qGreen, qBlue] : List (QRgb → Nat)),
          (specExactChannel (referenceAvg P) (channelAvg c) (ch R.mid_) (ch R.min_) (ch R.max_)
              - 1 ≤ (ch value : Int) ∧
            (ch value : Int) ≤ specExactChannel (referenceAvg P) (channelAvg c) (ch R.mid_)
              (ch R.min_) (ch R.max_)) ∧
          ∀ mode : Contraction,
            0 ≤ blendWith mode ratio (ch R.mid_)
                (if referenceAvg P ≠ 0 ∧ channelAvg c ≤ referenceAvg P
                  then (ch R.min_ : Int) else ch R.max_) ∧
              blendWith mode ratio (ch R.mid_)
                (if referenceAvg P ≠ 0 ∧ channelAvg c ≤ referenceAvg P
                  then (ch R.min_ : Int) else ch R.max_) ≤ 255 ∧
              specExactChannel (referenceAvg P) (channelAvg c) (ch R.mid_) (ch R.min_)
                  (ch R.max_) - 1
                ≤ blendWith mode ratio (ch R.mid_)
                  (if referenceAvg P ≠ 0 ∧ channelAvg c ≤ referenceAvg P
                    then (ch R.min_ : Int) else ch R.max_) ∧
              blendWith mode ratio (ch R.mid_)
                  (if referenceAvg P ≠ 0 ∧ channelAvg c ≤ referenceAvg P
                    then (ch R.min_ : Int) else ch R.max_)
                ≤ specExactChannel (referenceAvg P) (channelAvg c) (ch R.mid_) (ch R.min_)
                  (ch R.max_)) ∧
      (∃ m, applyToPalette ⟨0xFF003200, 0xFF320000, 0xFF000032⟩
          [0xFF000000, 0xFF808080, 0xFFFFFFFF] = some m ∧
        m.find 0xFF808080 = some 0xFF191800 ∧ rgbOf 0xFF191800 = (25, 24, 0) ∧
        F32.div (F32.sub (F32.ofInt 255) (F32.ofInt (channelAvg 0xFF808080)))
            (F32.sub (F32.ofInt 255)
              (F32.ofInt (referenceAvg [0xFF000000, 0xFF808080, 0xFFFFFFFF])))
          = F32.div (F32.ofInt 127) (F32.ofInt 255)) := by
  constructor
  · obtain ⟨hr0, hr1⟩ := referenceAvg_bounds P
    obtain ⟨ho0, ho1⟩ := channelAvg_bounds c
    obtain ⟨ratio, h1, h2, h3, h4, h5⟩ := storedColor_channels R (referenceAvg P) c hr0 hr1
    refine ⟨_, ratio, _, applyToPalette_eq R P, find_foldl_insertEntry_graph _ _ [] c hc,
      h5, h1, ?_⟩
    have hsep : ∀ (M o : Int), blend ratio M o = blendWith Contraction.separate ratio M o :=
      fun _ _ => rfl
    have hother : ∀ ch : QRgb → Nat,
        ((ch (if referenceAvg P ≠ 0 ∧ channelAvg c ≤ referenceAvg P
          then R.min_ else R.max_) : Nat) : Int)
        = (if referenceAvg P ≠ 0 ∧ channelAvg c ≤ referenceAvg P
          then (ch R.min_ : Int) else ch R.max_) := by
      intro ch
      split_ifs <;> rfl
    rw [hsep, hother] at h2 h3 h4
    have key : ∀ ch : QRgb → Nat, (∀ x, ch x ≤ 255) → ∀ mode : Contraction, _ :=
      fun ch hch mode => blendWith_spec (referenceAvg P) (channelAvg c) hr0 hr1 ho0 ho1 ratio h1
        mode (ch R.mid_) (ch R.min_) (ch R.max_) (hch _) (hch _) (hch _)
    intro ch hch
    simp only [List.mem_cons, List.mem_singleton, List.not_mem_nil, or_false] at hch
    rcases hch with rfl | rfl | rfl
    · refine ⟨?_, key qRed qRed_le⟩
      rw [h2]
      exact ⟨(key qRed qRed_le Contraction.separate).2.2.1,
        (key qRed qRed_le Contraction.separate).2.2.2⟩
    · refine ⟨?_, key qGreen qGreen_le⟩
      rw [h3]
      exact ⟨(key qGreen qGreen_le Contraction.separate).2.2.1,
        (key qGreen qGreen_le Contraction.separate).2.2.2⟩
    · refine ⟨?_, key qBlue qBlue_le⟩
      rw [h4]
      exact ⟨(key qBlue qBlue_le Contraction.separate).2.2.1,
        (key qBlue qBlue_le Contraction.separate).2.2.2⟩
  · refine ⟨_, applyToPalette_spec_example, by decide, by decide, ?_⟩
    have h1 : channelAvg 0xFF808080 = 128 := by decide
    have h2 : referenceAvg [0xFF000000, 0xFF808080, 0xFFFFFFFF] = 0 := by decide
    rw [h1, h2, sub_255_byte 128 (by norm_num) (by norm_num),
      sub_255_byte 0 (by norm_num) (by norm_num), ofInt_byte 127 (by norm_num) (by norm_num),
      ofInt_byte 255 (by norm_num) (by norm_num)]
    norm_num

/-- Witness of amended C6: reference colour rgb(3,3,3), palette colour
rgb(1,1,1), mid rgb(0,0,0) and min rgb(3,3,3), where the exact value of each
channel is 2 and the stored channel is 1. -/
theorem applyToPalette_interpolates_witness :
    0xFF010101 ∈ ([0xFF030303, 0xFF010101] : ColorList) ∧
      ∃ m value,
        applyToPalette ⟨0xFF000000, 0xFF000000, 0xFF030303⟩ [0xFF030303, 0xFF010101] = some m ∧
        m.find 0xFF010101 = some value ∧ qAlpha value = 255 ∧
        ∀ ch ∈ ([qRed, qGreen, qBlue] : List (QRgb → Nat)),
          specExactChannel (referenceAvg [0xFF030303, 0xFF010101]) (channelAvg 0xFF010101)
              (ch 0xFF000000) (ch 0xFF030303) (ch 0xFF000000) - 1 ≤ (ch value : Int) ∧
            (ch value : Int) ≤ specExactChannel (referenceAvg [0xFF030303, 0xFF010101])
              (channelAvg 0xFF010101) (ch 0xFF000000) (ch 0xFF030303) (ch 0xFF000000) := by
  refine ⟨by decide, ?_⟩
  obtain ⟨m, _, value, h1, h2, h3, _, h5⟩ :=
    (applyToPalette_interpolates ⟨0xFF000000, 0xFF000000, 0xFF030303⟩
      [0xFF030303, 0xFF010101] 0xFF010101 (by decide)).1
  exact ⟨m, value, h1, h2, h3, fun ch hch => (h5 ch hch).1⟩

end Wespal
